import Mathlib

/-!
Verification of the SPIRV-LLVM bidirectional translator core against its
specification.  The definitions below are shallow embeddings of the C++
sources in `lib/SPIRV` (`SPIRVWriter.cpp`, `SPIRVReader.cpp`,
`SPIRVRegularizeLLVM.cpp`); each definition's doc comment names the
function it embeds.  Theorems at the end of the file settle the frozen
claims C1..C10.
-/

set_option maxRecDepth 4000

/-! ## Loop-control hint translation (SPIRVWriter.cpp `getLoopControl`,
SPIRVReader.cpp `SPIRVToLLVM::setLLVMLoopMetadata`) -/

namespace LoopCtl

/-- Modelled from the spec: the SPIR-V loop-control bit masks (section 3.23
of the binary format, included by the sources from the `spv` headers which
are not part of the four source files).  Unroll is bit 0, DontUnroll bit 1,
DependencyInfinite bit 2, DependencyLength bit 3, the 1.4 placeholders are
bits 4-7, PartialCount bit 8, and the Intel FPGA extension controls are
bits 16-18. -/
def LoopControlUnrollMask : Nat := 1

/-- SPIR-V DontUnroll loop-control bit. -/
def LoopControlDontUnrollMask : Nat := 2

/-- SPIR-V DependencyInfinite loop-control bit. -/
def LoopControlDependencyInfiniteMask : Nat := 4

/-- SPIR-V DependencyLength loop-control bit. -/
def LoopControlDependencyLengthMask : Nat := 8

/-- SPIR-V MinIterations loop-control bit (1.4 placeholder). -/
def LoopControlMinIterationsMask : Nat := 16

/-- SPIR-V MaxIterations loop-control bit (1.4 placeholder). -/
def LoopControlMaxIterationsMask : Nat := 32

/-- SPIR-V IterationMultiple loop-control bit (1.4 placeholder). -/
def LoopControlIterationMultipleMask : Nat := 64

/-- SPIR-V PeelCount loop-control bit (1.4 placeholder). -/
def LoopControlPeelCountMask : Nat := 128

/-- SPIR-V PartialCount loop-control bit. -/
def LoopControlPartialCountMask : Nat := 256

/-- Intel FPGA InitiationInterval loop-control bit. -/
def InitiationIntervalINTEL : Nat := 65536

/-- Intel FPGA MaxConcurrency loop-control bit. -/
def MaxConcurrencyINTEL : Nat := 131072

/-- Intel FPGA DependencyArray loop-control bit. -/
def DependencyArrayINTEL : Nat := 262144

/-- One `llvm.loop` metadata hint attached to the latch branch.  This is the
operand list of the `!llvm.loop` node walked by `getLoopControl`:
each operand is an `MDNode` whose first operand is the hint name and whose
optional second operand is an integer parameter.  The
`parallel_access_indices` hint is represented with its index-group
array ids already resolved (the writer resolves them through
`IndexGroupArrayMap`) together with the safelen value. -/
inductive Hint where
  | unrollDisable : Hint
  | unrollFull : Hint
  | unrollEnable : Hint
  | unrollCount (n : Nat) : Hint
  | ivdepEnable : Hint
  | ivdepSafelen (n : Nat) : Hint
  | iiCount (n : Nat) : Hint
  | maxConcurrency (n : Nat) : Hint
  | parallelAccessIndices (arrays : List Nat) (safelen : Nat) : Hint
  | otherHint (s : String) : Hint
  deriving DecidableEq, Repr

/-- Accumulator used while walking the metadata operands: the loop-control
mask, the parameter vector, and the held-back `<array, safelen>` pairs
(`DependencyArrayParameters` in the source). -/
structure LCAcc where
  mask : Nat
  params : List Nat
  depArray : List (Nat × Nat)
  deriving DecidableEq, Repr

/-- One iteration of the metadata-operand loop of `getLoopControl`
(SPIRVWriter.cpp).  Mirrors the `if`/`else if` chain: each recognised hint
ORs its mask bit in and (for parameter-carrying hints) appends its literal
to `Parameters` at the moment the hint is visited; `unroll.count` is
dropped when the DontUnroll bit has already been set;
`parallel_access_indices` pairs are held back in `DependencyArrayParameters`. -/
def getLoopControlStep (acc : LCAcc) (h : Hint) : LCAcc :=
  match h with
  | .unrollDisable => { acc with mask := acc.mask ||| LoopControlDontUnrollMask }
  | .unrollFull => { acc with mask := acc.mask ||| LoopControlUnrollMask }
  | .unrollEnable => { acc with mask := acc.mask ||| LoopControlUnrollMask }
  | .unrollCount n =>
      if acc.mask &&& LoopControlDontUnrollMask ≠ 0 then acc
      else { acc with params := acc.params ++ [n],
                      mask := acc.mask ||| LoopControlPartialCountMask }
  | .ivdepEnable => { acc with mask := acc.mask ||| LoopControlDependencyInfiniteMask }
  | .ivdepSafelen n =>
      { acc with params := acc.params ++ [n],
                 mask := acc.mask ||| LoopControlDependencyLengthMask }
  | .iiCount n =>
      { acc with params := acc.params ++ [n],
                 mask := acc.mask ||| InitiationIntervalINTEL }
  | .maxConcurrency n =>
      { acc with params := acc.params ++ [n],
                 mask := acc.mask ||| MaxConcurrencyINTEL }
  | .parallelAccessIndices arrays safelen =>
      { acc with depArray := acc.depArray ++ arrays.map (fun a => (a, safelen)) }
  | .otherHint _ => acc

/-- `getLoopControl` (SPIRVWriter.cpp lines 945-1025): walk the `llvm.loop`
metadata operands in source order accumulating mask and parameters, then
append the held-back dependency-array parameters (count followed by the
`<array-id, safelen>` pairs) and set the DependencyArray bit. -/
def getLoopControl (hints : List Hint) : Nat × List Nat :=
  let acc := hints.foldl getLoopControlStep ⟨0, [], []⟩
  if acc.depArray ≠ [] then
    (acc.mask ||| DependencyArrayINTEL,
     acc.params ++ [acc.depArray.length] ++
       acc.depArray.foldr (fun p r => [p.1, p.2] ++ r) [])
  else
    (acc.mask, acc.params)

/-- Loop metadata produced by the decode direction
(`setLLVMLoopMetadata`): a plain named hint, a named hint with one integer
parameter, or the reconstructed `parallel_access_indices` information
(the decode side turns the `<array, safelen>` pairs into per-safelen
index-group metadata; we record the consumed pairs). -/
inductive LMD where
  | mdName (s : String) : LMD
  | mdNameParam (s : String) (n : Nat) : LMD
  | parallelAccess (pairs : List (Nat × Nat)) : LMD
  deriving DecidableEq, Repr

/-- Read `count` many `<array-id, safelen>` pairs starting at index `i` of
the parameter vector (the `while (NumParam < OperandsEndIndex)` loop of the
DependencyArray case of `setLLVMLoopMetadata`). -/
def readPairs (params : List Nat) (i : Nat) (count : Nat) : List (Nat × Nat) :=
  match count with
  | 0 => []
  | c + 1 => (params.getD i 0, params.getD (i + 1) 0) :: readPairs params (i + 2) c

/-- `SPIRVToLLVM::setLLVMLoopMetadata` (SPIRVReader.cpp lines 548-731),
restricted to the metadata it synthesises: the loop-control mask bits are
checked in increasing bit order (the comment in the source: "check
smaller-numbered bits first"), each parameter-consuming bit reading
`LoopControlParameters[NumParam]` and incrementing `NumParam`.  A `LC` of
`LoopControlMaskNone` yields no hints. -/
def setLLVMLoopMetadata (LC : Nat) (params : List Nat) : List LMD :=
  if LC = 0 then []
  else
    Id.run do
      let mut numParam := 0
      let mut mds : List LMD := []
      if LC &&& LoopControlUnrollMask ≠ 0 ∧ LC &&& LoopControlPartialCountMask = 0 then
        mds := mds ++ [.mdName "llvm.loop.unroll.enable"]
      else if LC &&& LoopControlDontUnrollMask ≠ 0 then
        mds := mds ++ [.mdName "llvm.loop.unroll.disable"]
      if LC &&& LoopControlDependencyInfiniteMask ≠ 0 then
        mds := mds ++ [.mdName "llvm.loop.ivdep.enable"]
      if LC &&& LoopControlDependencyLengthMask ≠ 0 then
        if params ≠ [] then
          mds := mds ++ [.mdNameParam "llvm.loop.ivdep.safelen" (params.getD numParam 0)]
          numParam := numParam + 1
      if LC &&& LoopControlMinIterationsMask ≠ 0 then
        numParam := numParam + 1
      if LC &&& LoopControlMaxIterationsMask ≠ 0 then
        numParam := numParam + 1
      if LC &&& LoopControlIterationMultipleMask ≠ 0 then
        numParam := numParam + 1
      if LC &&& LoopControlPeelCountMask ≠ 0 then
        numParam := numParam + 1
      if LC &&& LoopControlPartialCountMask ≠ 0 ∧ LC &&& LoopControlDontUnrollMask = 0 then
        if params.getD numParam 0 = 1 ∧ LC &&& LoopControlUnrollMask ≠ 0 then
          mds := mds ++ [.mdName "llvm.loop.unroll.full"]
        else
          mds := mds ++ [.mdNameParam "llvm.loop.unroll.count" (params.getD numParam 0)]
        numParam := numParam + 1
      if LC &&& InitiationIntervalINTEL ≠ 0 then
        mds := mds ++ [.mdNameParam "llvm.loop.ii.count" (params.getD numParam 0)]
        numParam := numParam + 1
      if LC &&& MaxConcurrencyINTEL ≠ 0 then
        mds := mds ++ [.mdNameParam "llvm.loop.max_concurrency.count" (params.getD numParam 0)]
        numParam := numParam + 1
      if LC &&& DependencyArrayINTEL ≠ 0 then
        let numPairs := params.getD numParam 0
        mds := mds ++ [.parallelAccess (readPairs params (numParam + 1) numPairs)]
        numParam := numParam + 1 + 2 * numPairs
      return mds

/-- The scalar parameter a hint contributes to the emitted parameter
vector, if any (the `Parameters.push_back` sites of `getLoopControl`). -/
def hintParam : Hint → Option Nat
  | .unrollCount n => some n
  | .ivdepSafelen n => some n
  | .iiCount n => some n
  | .maxConcurrency n => some n
  | _ => none

/-- The `<array-id, safelen>` pairs a hint contributes to the held-back
dependency-array parameter block. -/
def hintDepPairs : Hint → List (Nat × Nat)
  | .parallelAccessIndices arrays safelen => arrays.map (fun a => (a, safelen))
  | _ => []

end LoopCtl

/-! ## Integer bit widths and wide-integer constants
(SPIRVWriter.cpp `LLVMToSPIRV::transType` integer case and
`LLVMToSPIRV::transConstant` ConstantInt case; SPIRVReader.cpp
`SPIRVToLLVM::transValueWithoutDecoration` OpConstant case) -/

namespace IntWidth

/-- The error recorded by `checkError` when an integer bit width is not
representable: SPIRVEC_InvalidBitWidth carrying the offending width. -/
inductive SErr where
  | invalidBitWidth (w : Nat) : SErr
  deriving DecidableEq, Repr

/-- SPIRV scalar types produced by `LLVMToSPIRV::transType` for LLVM
integer inputs: `OpTypeBool` for i1, `OpTypeInt` with the width otherwise. -/
inductive STy where
  | boolTy : STy
  | intTy (w : Nat) : STy
  deriving DecidableEq, Repr

/-- `LLVMToSPIRV::transType` (SPIRVWriter.cpp lines 263-287) restricted to
scalar integer types: `i1` becomes the SPIRV bool type; any other width is
accepted when the SPV_INTEL_arbitrary_precision_integers extension is
allowed, or when the width is one of the natively supported 8/16/32/64;
otherwise `checkError` records SPIRVEC_InvalidBitWidth and no integer type
is produced (control falls through and ends in `llvm_unreachable`). -/
def transIntType (allowArbPrecInt : Bool) (w : Nat) : Except SErr STy :=
  if w = 1 then .ok .boolTy
  else if allowArbPrecInt || (w = 8 || w = 16 || w = 32 || w = 64) then .ok (.intTy w)
  else .error (.invalidBitWidth w)

/-- Modelled from the spec: the word payload of an `OpConstant`
(`SPIRVConstant`'s storage lives in `libSPIRV`, outside the four source
files).  A constant of bit width `w` is stored as ⌈w/32⌉ 32-bit words,
least significant word first. -/
def encodeWords (w : Nat) (v : Nat) : List Nat :=
  (List.range ((w + 31) / 32)).map (fun i => v / 2 ^ (32 * i) % 2 ^ 32)

/-- A SPIRV integer constant as the writer produces it: its type and its
32-bit word payload. -/
structure SConst where
  ty : STy
  words : List Nat
  deriving DecidableEq, Repr

/-- `LLVMToSPIRV::transConstant`, ConstantInt case (SPIRVWriter.cpp lines
692-702): for widths above 64 `checkError` requires the
arbitrary-precision-integers extension, recording SPIRVEC_InvalidBitWidth
when it is missing (and `transType`, evaluated for the `addConstant`
argument, records the same error); with the extension the full `APInt`
value is stored.  For widths of at most 64 the zero-extended value is
stored. -/
def transConstantInt (allowArbPrecInt : Bool) (w : Nat) (v : Nat) : Except SErr SConst :=
  if 64 < w then
    if allowArbPrecInt then
      (transIntType allowArbPrecInt w).map (fun ty => ⟨ty, encodeWords w v⟩)
    else .error (.invalidBitWidth w)
  else
    (transIntType allowArbPrecInt w).map (fun ty => ⟨ty, encodeWords w v⟩)

/-- The word-packing loop of the reader's OpConstant wide-integer case
(SPIRVReader.cpp lines 1115-1127): pack pairs of 32-bit SPIRV words into
64-bit `APInt` words, least-significant first (`RawData[2I+1] << 32 |
RawData[2I]`); an odd trailing word is taken as-is. -/
def packWords (raw : List Nat) : List Nat :=
  match raw with
  | [] => []
  | [a] => [a]
  | a :: b :: rest => (b <<< 32 ||| a) :: packWords rest

/-- The numeric value of an `llvm::APInt` stored as 64-bit words,
least-significant word first (the value `APInt(NumBits, BigValVec)`
denotes). -/
def apIntValue (words : List Nat) : Nat :=
  match words with
  | [] => 0
  | w :: rest => w + 2 ^ 64 * apIntValue rest

/-- The reader's OpConstant translation for integer types of width above
64 (SPIRVReader.cpp lines 1112-1128): the resulting LLVM constant's
numeric value. -/
def transWideConstantValue (raw : List Nat) : Nat :=
  apIntValue (packWords raw)

end IntWidth

/-! ## The legalizer pass (SPIRVRegularizeLLVM.cpp) -/

namespace Regularize

/-- Function names.  `kSPIRVName::EntrypointPrefix + name` (the wrapper
name built at SPIRVRegularizeLLVM.cpp line 216) is modelled as the tagged
constructor `entryPt`, which keeps the prefixed namespace disjoint and
prefix application injective, exactly as the C++ string prefix is used. -/
inductive FName where
  | base (s : String) : FName
  | entryPt (n : FName) : FName
  deriving DecidableEq, Repr

/-- LLVM calling conventions distinguished by the pass. -/
inductive CallConv where
  | spirKernel : CallConv
  | spirFunc : CallConv
  | otherCC : CallConv
  deriving DecidableEq, Repr

/-- Linkage, as far as the pass manipulates it. -/
inductive Linkage where
  | internalLink : Linkage
  | externalLink : Linkage
  deriving DecidableEq, Repr

/-- An LLVM instruction, restricted to the state the regularize loop
(SPIRVRegularizeLLVM.cpp lines 122-147) inspects and mutates: the callee
of a direct call (if the instruction is one), the tail-call marker, the
`exact` flag of division/shift operators, and the attached metadata kind
names. -/
structure Inst where
  callee : Option FName
  tailCall : Bool
  isExact : Bool
  md : List String
  deriving DecidableEq, Repr

/-- An LLVM function: name, calling convention, whether it is only a
declaration, linkage, its function-level metadata (kind ids, copied
wholesale onto the wrapper at lines 238-243), and its body. -/
structure Func where
  name : FName
  conv : CallConv
  isDecl : Bool
  linkage : Linkage
  fnMd : List Nat
  body : List Inst
  deriving DecidableEq, Repr

/-- An LLVM module: its functions and the `spirv.ExecutionMode` named
metadata, each entry pointing at a function (operand 0, here by name)
with its payload. -/
structure LLVMModule where
  funcs : List Func
  execModes : List (FName × Nat)
  deriving DecidableEq, Repr

/-- Demote the function of the given name to the SPIR_FUNC calling
convention (`F->setCallingConv(CallingConv::SPIR_FUNC)`, line 210). -/
def demoteAt (fs : List Func) (fn : FName) : List Func :=
  fs.map (fun g => if g.name = fn then { g with conv := .spirFunc } else g)

/-- The wrapper function built at SPIRVRegularizeLLVM.cpp lines 214-247:
same signature, a single basic block containing a call to the wrapped
function and a return, all of the original's function metadata copied
over, SPIR_KERNEL calling convention and internal linkage. -/
def mkWrapper (f : Func) : Func :=
  { name := .entryPt f.name
    conv := .spirKernel
    isDecl := false
    linkage := .internalLink
    fnMd := f.fnMd
    body := [{ callee := some f.name, tailCall := false, isExact := false, md := [] }] }

/-- One iteration of the `for (auto &F : Work)` loop of
`addKernelEntryPoint` (lines 208-260): demote the function to SPIR_FUNC;
declarations are done; otherwise create the entry-point wrapper (via
`getOrCreateFunction`, which only creates when no function of that name
exists) and redirect every `spirv.ExecutionMode` entry that referenced the
function to the wrapper. -/
def addKernelEntryPointStep (st : List Func × List (FName × Nat)) (fn : FName) :
    List Func × List (FName × Nat) :=
  let fs := demoteAt st.1 fn
  match fs.find? (fun g => g.name = fn) with
  | none => (fs, st.2)
  | some f =>
    if f.isDecl then (fs, st.2)
    else
      let wn := FName.entryPt fn
      let fs' := if fs.any (fun g => g.name = wn) then fs else fs ++ [mkWrapper f]
      let em := st.2.map (fun p => if p.1 = fn then (wn, p.2) else p)
      (fs', em)

/-- `SPIRVRegularizeLLVM::addKernelEntryPoint` (lines 200-261): collect
every function with the SPIR_KERNEL calling convention first (`Work`),
then process each one. -/
def addKernelEntryPoint (m : LLVMModule) : LLVMModule :=
  let work := (m.funcs.filter (fun f => f.conv = .spirKernel)).map (fun f => f.name)
  let (fs, em) := work.foldl addKernelEntryPointStep (m.funcs, m.execModes)
  { funcs := fs, execModes := em }

/-- The per-instruction normalization of the regularize loop (lines
122-147): clear the tail-call marker on calls, clear the `exact` flag, and
drop the `fpmath`, `tbaa` and `range` metadata kinds, which SPIR-V cannot
represent. -/
def normalizeInst (i : Inst) : Inst :=
  { i with
    tailCall := if i.callee.isSome then false else i.tailCall
    isExact := false
    md := i.md.filter (fun s => ¬ (s = "fpmath" ∨ s = "tbaa" ∨ s = "range")) }

/-- Whether some instruction of the module calls the given function (the
`use_empty()` test of line 117; declarations have no body, so erasing an
unused declaration never removes uses of another one). -/
def isUsed (fs : List Func) (fn : FName) : Bool :=
  fs.any (fun g => g.body.any (fun i => i.callee = some fn))

/-- The function-erasure and instruction-normalization loop of
`SPIRVRegularizeLLVM::regularize` (lines 115-149): unused declarations are
erased, every remaining instruction is normalized. -/
def regularizeLoop (fs : List Func) : List Func :=
  (fs.filter (fun f => ¬(f.isDecl ∧ ¬ isUsed fs f.name))).map
    (fun f => { f with body := f.body.map normalizeInst })

/-- `SPIRVRegularizeLLVM::regularize` (lines 110-161).  The verifier
(`llvm::verifyModule`, an external collaborator that returns `true` on a
broken module) is passed in as a parameter.  The `eraseUselessFunctions`
and `lowerFuncPtr` steps rewrite only specific builtin-call patterns using
name tables outside the four source files and are identity on modules
without such builtins; they are not modelled.  After normalization the
module is re-verified and `false` is returned on verification failure
(lines 151-156). -/
def regularize (verifyModule : LLVMModule → Bool) (m : LLVMModule) :
    LLVMModule × Bool :=
  let m1 := addKernelEntryPoint m
  let m2 : LLVMModule := { m1 with funcs := regularizeLoop m1.funcs }
  if verifyModule m2 then (m2, false) else (m2, true)

/-- `SPIRVRegularizeLLVM::runOnModule` (lines 93-107): run `regularize`,
discarding its result (line 98 `regularize();`), re-verify once more with
the outcome only written to the debug log (lines 101-105), and return
`true` unconditionally, so the caller receives no failure signal. -/
def runOnModule (verifyModule : LLVMModule → Bool) (m : LLVMModule) :
    LLVMModule × Bool :=
  let r := regularize verifyModule m
  let _dbg := verifyModule r.1
  (r.1, true)

/-- Demotion of a kernel to an ordinary SPIR function, used to state what
`addKernelEntryPoint` does to the pre-existing functions. -/
def demoteKernel (f : Func) : Func :=
  if f.conv = .spirKernel then { f with conv := .spirFunc } else f

/-- Pointwise form of `demoteAt`. -/
def demAt (fn : FName) (g : Func) : Func :=
  if g.name = fn then { g with conv := .spirFunc } else g

/-- Demote a function when its name is in the given work list. -/
def demoteIfMem (W : List FName) (g : Func) : Func :=
  if g.name ∈ W then { g with conv := .spirFunc } else g

/-- The wrapper `addKernelEntryPoint` will append for a work-list name, if
any: none for names of declarations. -/
def wrapOf (fs : List Func) (n : FName) : Option Func :=
  match fs.find? (fun g => g.name = n) with
  | some f => if f.isDecl then none else some (mkWrapper f)
  | none => none

/-- A one-function test module: a single defined kernel with an
execution-mode entry; no instruction in the module calls it. -/
def sampleKernel : Func :=
  { name := .base "k", conv := .spirKernel, isDecl := false,
    linkage := .externalLink, fnMd := [7], body := [] }

/-- The module holding only `sampleKernel`. -/
def sampleModule : LLVMModule :=
  { funcs := [sampleKernel], execModes := [(.base "k", 5)] }

/-- The execution-mode retargeting `addKernelEntryPoint` performs for a
whole work list: an entry pointing at a defined work-list function is
redirected to that function's wrapper. -/
def retargetEM (W : List FName) (fs : List Func) (p : FName × Nat) : FName × Nat :=
  if p.1 ∈ W ∧ (fs.find? (fun g => g.name = p.1)).any (fun f => !f.isDecl) then
    (.entryPt p.1, p.2)
  else p

end Regularize

/-! ## Decode-direction value translation protocol
(SPIRVReader.cpp `SPIRVToLLVM::transValue`, `transValueWithoutDecoration`
placeholder creation, `SPIRVToLLVM::mapValue`, and the per-function
translation loop of `SPIRVToLLVM::transFunction`) -/

namespace Reader

/-- The shape of an LLVM value, as far as the decode-direction value
protocol inspects it: a global variable (`pfxed` records whether its name
starts with `KPlaceholderPrefix`), a load instruction with its pointer
operand, or an ordinary translated value carrying its operand list.
The only loads this protocol itself creates are placeholder loads. -/
inductive VDesc where
  | globalVar (pfxed : Bool) : VDesc
  | load (ptr : Nat) : VDesc
  | plain (operands : List Nat) : VDesc
  deriving DecidableEq, Repr

/-- The value ids a value description references (its uses of other values). -/
def refsOf : VDesc → List Nat
  | .globalVar _ => []
  | .load p => [p]
  | .plain ops => ops

/-- The translator state: `ValueMap` (SPIRV value id to LLVM value),
`PlaceholderMap`'s domain (the source inserts into it at placeholder
creation and never erases), the LLVM values in existence, the instruction
stream of the function under construction (values appended to basic
blocks, in order), and the next fresh LLVM value identity. -/
structure RState where
  valueMap : List (Nat × Nat)
  placeholderSet : List Nat
  values : List (Nat × VDesc)
  stream : List Nat
  nextId : Nat
  deriving DecidableEq, Repr

/-- `ValueMap` lookup. -/
def lookupVM (s : RState) (bv : Nat) : Option Nat :=
  (s.valueMap.find? (fun p => p.1 = bv)).map (fun p => p.2)

/-- The description of an LLVM value, if it exists. -/
def descOf (s : RState) (v : Nat) : Option VDesc :=
  (s.values.find? (fun p => p.1 = v)).map (fun p => p.2)

/-- Whether `v` is a placeholder: a load whose pointer operand is a
global variable with the placeholder name prefix (the shape tested by the
assertion in `SPIRVToLLVM::mapValue`). -/
def isPlaceholderLoad (s : RState) (v : Nat) : Bool :=
  match descOf s v with
  | some (.load p) =>
    match descOf s p with
    | some (.globalVar pfxed) => pfxed
    | _ => false
  | _ => false

/-- Substitute value references: `old` becomes `new`
(`LD->replaceAllUsesWith(V)`). -/
def substVD (old new : Nat) : VDesc → VDesc
  | .globalVar b => .globalVar b
  | .load p => .load (if p = old then new else p)
  | .plain ops => .plain (ops.map (fun o => if o = old then new else o))

/-- Replace all uses of the placeholder load `ld` with `v`, then erase the
load and its placeholder global `gv` from the module and the instruction
stream (`LD->replaceAllUsesWith(V); LD->eraseFromParent();
Placeholder->eraseFromParent();`). -/
def rauwErase (s : RState) (ld gv v : Nat) : RState :=
  { s with
    values := (s.values.filter (fun p => ¬(p.1 = ld ∨ p.1 = gv))).map
      (fun p => (p.1, substVD ld v p.2))
    stream := s.stream.filter (fun i => ¬ i = ld) }

/-- Possible outcomes of `SPIRVToLLVM::mapValue`: success, the undefined
behaviour of calling `getPointerOperand` on the null result of
`dyn_cast<LoadInst>` (which happens BEFORE the assertion), or the
assertion `LD && Placeholder && startswith(KPlaceholderPrefix)` firing. -/
inductive MVRes where
  | ok (s : RState) (v : Nat) : MVRes
  | nullDeref : MVRes
  | assertFail : MVRes
  deriving DecidableEq, Repr

/-- `SPIRVToLLVM::mapValue` (SPIRVReader.cpp lines 919-936).  If the value
is already mapped to something else, the old mapping is unconditionally
treated as a `LoadInst` and dereferenced for its pointer operand; only
then does the assertion check that it really was a load of a
placeholder-prefixed global.  On that placeholder shape, all uses of the
load are rewritten to the new value and the load and global are erased. -/
def mapValue (s : RState) (bv : Nat) (v : Nat) : MVRes :=
  match lookupVM s bv with
  | none => .ok { s with valueMap := (bv, v) :: s.valueMap } v
  | some old =>
    if old = v then .ok s v
    else
      match descOf s old with
      | some (.load ptr) =>
        match descOf s ptr with
        | some (.globalVar pfxed) =>
          if pfxed then
            .ok { rauwErase s old ptr v with
                  valueMap := (bv, v) :: (rauwErase s old ptr v).valueMap } v
          else .assertFail
        | _ => .assertFail
      | _ => .nullDeref

/-- A SPIRV instruction of the function being decoded: its result id and
its operand ids. -/
structure SInst where
  id : Nat
  ops : List Nat
  deriving DecidableEq, Repr

/-- Operand-list translation: `transValue` is invoked on each operand with
`CreatePlaceHolder` (the `BB ? true : false` default of operand
translation sites). -/
def goOps (tv : RState → Nat → Bool → Option (Nat × RState)) :
    RState → List Nat → Option (List Nat × RState)
  | s, [] => some ([], s)
  | s, o :: rest =>
    match tv s o true with
    | none => none
    | some (v, s1) =>
      match goOps tv s1 rest with
      | none => none
      | some (vs, s2) => some (v :: vs, s2)

/-- Turn a `mapValue` outcome into the translation result: the UB and
assertion outcomes end the translation (they do not return a value). -/
def ofMV : MVRes → Option (Nat × RState)
  | .ok s v => some (v, s)
  | _ => none

/-- The placeholder-creation branch of `transValueWithoutDecoration`
(SPIRVReader.cpp lines 1386-1395): a fresh global variable with the
placeholder name prefix, a load of it inserted into the current block,
the load recorded in `PlaceholderMap` and `mapValue`d. -/
def createPlaceHolderR (s : RState) (bv : Nat) : Option (Nat × RState) :=
  let gv := s.nextId
  let ld := s.nextId + 1
  let s1 : RState :=
    { s with
      values := s.values ++ [(gv, .globalVar true), (ld, .load gv)]
      stream := s.stream ++ [ld]
      placeholderSet := bv :: s.placeholderSet
      nextId := s.nextId + 2 }
  ofMV (mapValue s1 bv ld)

/-- Emission of the real instruction for `bv` from its translated
operands: the new value is appended to the block and `mapValue`d
(resolving the placeholder when one exists). -/
def emitInst (s : RState) (bv : Nat) (vs : List Nat) : Option (Nat × RState) :=
  let v := s.nextId
  let s3 : RState :=
    { s with
      values := s.values ++ [(v, .plain vs)]
      stream := s.stream ++ [v]
      nextId := s.nextId + 1 }
  ofMV (mapValue s3 bv v)

/-- `SPIRVToLLVM::transValue` (SPIRVReader.cpp lines 770-793) together
with the instruction part of `transValueWithoutDecoration`, for function
local instructions: return the memoized value unless the entry is a
placeholder and a real (defining) translation was requested; otherwise
either create a placeholder (a fresh prefixed global plus a load of it
inserted into the current block, recorded in `PlaceholderMap`) when
`CreatePlaceHolder` is set, or translate the defining instruction: its
operands first (recursively, possibly creating placeholders), then the
new instruction, which is `mapValue`d, resolving a pending placeholder.
The `fuel` argument only bounds the (shallow) recursion depth. -/
def transValueR (F : List SInst) : Nat → RState → Nat → Bool → Option (Nat × RState)
  | 0, _, _, _ => none
  | fuel + 1, s, bv, createPH =>
    let body := fun (_ : Unit) =>
      if createPH then createPlaceHolderR s bv
      else
        match F.find? (fun i => i.id = bv) with
        | none => none
        | some inst =>
          match goOps (transValueR F fuel) s inst.ops with
          | none => none
          | some (vs, s2) => emitInst s2 bv vs
    match lookupVM s bv with
    | some v =>
      if bv ∉ s.placeholderSet ∨ createPH then some (v, s)
      else body ()
    | none => body ()

/-- The initial decoding state of a function. -/
def initR : RState := ⟨[], [], [], [], 0⟩

/-- The instruction loop of `SPIRVToLLVM::transFunction` (SPIRVReader.cpp
lines 2299-2306): every instruction of the function is translated as a
defining occurrence, `transValue(BInst, F, BB, false)`, in order. -/
def transFunctionR (F : List SInst) : Option RState :=
  F.foldlM (fun s inst => (transValueR F (F.length + 2) s inst.id false).map
    (fun r => r.2)) initR

/-- Every reference of the state points at an existing value: the
closedness part of "no dangling placeholder references survive". -/
def closedState (s : RState) : Prop :=
  (∀ v ∈ s.stream, (descOf s v).isSome) ∧
  (∀ p ∈ s.values, ∀ r ∈ refsOf p.2, (descOf s r).isSome)

/-- Bookkeeping invariant of the decoding state: everything in the state
mentions only already-created value identities, and value identities are
unique. -/
def freshState (s : RState) : Prop :=
  (∀ p ∈ s.valueMap, p.2 < s.nextId) ∧
  (∀ p ∈ s.values, p.1 < s.nextId) ∧
  (∀ p ∈ s.values, ∀ r ∈ refsOf p.2, r < s.nextId) ∧
  (∀ v ∈ s.stream, v < s.nextId) ∧
  (s.values.map (fun p => p.1)).Nodup

/-- Structural invariant of the protocol state: loads read
placeholder-prefixed globals, globals are referenced only by their load,
distinct loads read distinct globals, the stream holds no globals, and
plain operands are translated (mapped) values. -/
def shapeInv (s : RState) : Prop :=
  (∀ p ∈ s.values, ∀ q, p.2 = VDesc.load q → descOf s q = some (.globalVar true)) ∧
  (∀ p ∈ s.values, ∀ r ∈ refsOf p.2, ∀ b, descOf s r = some (.globalVar b) →
    p.2 = VDesc.load r) ∧
  (∀ p ∈ s.values, ∀ p' ∈ s.values, ∀ q, p.2 = VDesc.load q → p'.2 = VDesc.load q →
    p.1 = p'.1) ∧
  (∀ v ∈ s.stream, ∀ b, descOf s v ≠ some (.globalVar b)) ∧
  (∀ p ∈ s.values, ∀ ops, p.2 = VDesc.plain ops → ∀ o ∈ ops, ∃ bv,
    lookupVM s bv = some o)

/-- Protocol invariant tying the state to the set `P` of instruction ids
whose defining translation has completed: processed ids are mapped to real
(plain) values, mapped ids are processed or placeholdered, every live
placeholder load is owned by exactly one not-yet-processed id of the
function, and a mapped unprocessed id is mapped to a placeholder load. -/
def protoInv (F : List SInst) (P : List Nat) (s : RState) : Prop :=
  freshState s ∧
  closedState s ∧
  shapeInv s ∧
  (∀ bv ∈ P, ∃ v ops, lookupVM s bv = some v ∧ descOf s v = some (.plain ops)) ∧
  (∀ bv v, lookupVM s bv = some v → bv ∈ P ∨ bv ∈ s.placeholderSet) ∧
  (∀ v, isPlaceholderLoad s v = true →
    ∃ bv, bv ∈ F.map (fun i => i.id) ∧ bv ∉ P ∧ lookupVM s bv = some v) ∧
  (∀ bv v, lookupVM s bv = some v → bv ∉ P → isPlaceholderLoad s v = true) ∧
  (∀ b1 b2 v, lookupVM s b1 = some v → lookupVM s b2 = some v → b1 = b2)

end Reader

/-! ## Encode-direction value translation protocol (SPIRVWriter.cpp
`LLVMToSPIRV::transValue`, the forward-creation branch of
`transValueWithoutDecoration`, and `LLVMToSPIRV::mapValue`) -/

namespace Writer

/-- Kinds of LLVM source values this embedded fragment translates:
integer constants and functions. -/
inductive LVKind where
  | constInt (w v : Nat) : LVKind
  | functionV : LVKind
  deriving DecidableEq, Repr

/-- SPIRV entries the fragment produces: a forward placeholder
(`SPIRVForward`), a translated integer constant, a translated function,
or an `OpConstFunctionPointerINTEL` constant. -/
inductive SVDesc where
  | forwardEntry : SVDesc
  | constEntry (w v : Nat) : SVDesc
  | funcEntry : SVDesc
  | funcPtrEntry : SVDesc
  deriving DecidableEq, Repr

/-- Writer state: `ValueMap` from LLVM value identity to SPIRV id, the
SPIRV module entries, and the next fresh SPIRV id. -/
structure WState where
  valueMap : List (Nat × Nat)
  entries : List (Nat × SVDesc)
  nextId : Nat
  deriving DecidableEq, Repr

/-- `ValueMap` lookup. -/
def lookupW (s : WState) (v : Nat) : Option Nat :=
  (s.valueMap.find? (fun p => p.1 = v)).map (fun p => p.2)

/-- The SPIRV entry of an id. -/
def entryOf (s : WState) (bv : Nat) : Option SVDesc :=
  (s.entries.find? (fun p => p.1 = bv)).map (fun p => p.2)

/-- `SPIRVValue::isForward`. -/
def isFwd (s : WState) (bv : Nat) : Bool :=
  entryOf s bv = some .forwardEntry

/-- `SPIRVModule::replaceForward`: all uses of the forward are rewritten
to the real value and the forward entry is removed (the entry kinds of
this fragment carry no operand ids, so only the removal is visible). -/
def replaceFwd (s : WState) (old : Nat) : WState :=
  { s with entries := s.entries.filter (fun p => ¬ p.1 = old) }

/-- Outcomes of the writer's `mapValue`: success, or the assertion
`Loc->second->isForward() && "LLVM Value is mapped to different SPIRV
Values"` firing. -/
inductive WMVRes where
  | ok (s : WState) (bv : Nat) : WMVRes
  | assertFail : WMVRes
  deriving DecidableEq, Repr

/-- `LLVMToSPIRV::mapValue` (SPIRVWriter.cpp lines 1528-1541): a
pre-existing different mapping must be a forward placeholder, which is
then replaced by the new value and the entry overwritten. -/
def mapValueW (s : WState) (v bv : Nat) : WMVRes :=
  match lookupW s v with
  | none => .ok { s with valueMap := (v, bv) :: s.valueMap } bv
  | some old =>
    if old = bv then .ok s bv
    else if isFwd s old then
      .ok { replaceFwd s old with
            valueMap := (v, bv) :: (replaceFwd s old).valueMap } bv
    else .assertFail

/-- Turn a writer `mapValue` outcome into the translation result. -/
def ofWMV : WMVRes → Option (Nat × WState)
  | .ok s bv => some (bv, s)
  | .assertFail => none

/-- Create and map a fresh entry of the given kind (the common shape of
the forward-creation, constant and function-declaration paths). -/
def addAndMap (s : WState) (v : Nat) (d : SVDesc) : Option (Nat × WState) :=
  let bv := s.nextId
  let s1 : WState := { s with entries := s.entries ++ [(bv, d)],
                              nextId := s.nextId + 1 }
  ofWMV (mapValueW s1 v bv)

/-- `LLVMToSPIRV::transValue` (SPIRVWriter.cpp lines 796-818) with the
fragment of `transValueWithoutDecoration` for forwards, constants and
functions: return the memoized construct unless it is a forward and no
forward was requested, or it is a function requested as a function
pointer (the explicit exception of lines 800-803); otherwise translate:
`CreateForward` makes a fresh `SPIRVForward` (mapped); a constant is
translated and mapped; a function requested as a pointer becomes a fresh
`OpConstFunctionPointerINTEL` constant, which the source does NOT record
in the value map (SPIRVWriter.cpp lines 1092-1097). -/
def transValueW (src : List (Nat × LVKind)) (s : WState) (v : Nat)
    (createForward funcTransPtr : Bool) : Option (Nat × WState) :=
  let kind : Option LVKind := (src.find? (fun p => p.1 = v)).map (fun p => p.2)
  let body := fun (_ : Unit) =>
    if createForward then addAndMap s v .forwardEntry
    else
      match kind with
      | some (.constInt w n) => addAndMap s v (.constEntry w n)
      | some .functionV =>
        if funcTransPtr then
          some (s.nextId,
            { s with entries := s.entries ++ [(s.nextId, .funcPtrEntry)],
                     nextId := s.nextId + 1 })
        else addAndMap s v .funcEntry
      | none => none
  match lookupW s v with
  | some bv =>
    if (¬ isFwd s bv = true ∨ createForward = true) ∧
        ¬(funcTransPtr = true ∧ kind = some .functionV) then some (bv, s)
    else body ()
  | none => body ()

end Writer


/-! ## Type translation (SPIRVReader.cpp `SPIRVToLLVM::transType` and
SPIRVWriter.cpp `LLVMToSPIRV::transType`, struct forward registration) -/

namespace TyR

/-- SPIRV type descriptors of the embedded fragment: integers, pointers,
arrays and structs (member lists are type ids). -/
inductive STy where
  | intT (w : Nat) : STy
  | ptrT (elem : Nat) : STy
  | arrT (elem : Nat) (len : Nat) : STy
  | structT (members : List Nat) : STy
  deriving DecidableEq, Repr

/-- LLVM types as the decoder builds them: scalars and composites are
structural, named structs are identities whose body lives in the module
(they may refer to themselves through their body). -/
inductive LTy where
  | intL (w : Nat) : LTy
  | ptrL (t : LTy) : LTy
  | arrL (t : LTy) (len : Nat) : LTy
  | namedL (sid : Nat) : LTy
  deriving DecidableEq, Repr

/-- Decoder type-translation state: `TypeMap`, the created named structs
with their bodies (`none` until `setBody`), and the next fresh struct
identity. -/
structure TState where
  typeMap : List (Nat × LTy)
  bodies : List (Nat × Option (List LTy))
  nextSid : Nat
  deriving DecidableEq, Repr

/-- The SPIRV descriptor of a type id. -/
def descR (tbl : List (Nat × STy)) (tid : Nat) : Option STy :=
  (tbl.find? (fun p => p.1 = tid)).map (fun p => p.2)

/-- `TypeMap` lookup. -/
def lookupT (s : TState) (tid : Nat) : Option LTy :=
  (s.typeMap.find? (fun p => p.1 = tid)).map (fun p => p.2)

/-- The body of a created named struct (`none` while opaque). -/
def bodyOf (s : TState) (sid : Nat) : Option (Option (List LTy)) :=
  (s.bodies.find? (fun p => p.1 = sid)).map (fun p => p.2)

/-- `SPIRVToLLVM::mapType`. -/
def mapT (s : TState) (tid : Nat) (t : LTy) : TState :=
  { s with typeMap := (tid, t) :: s.typeMap }

/-- `StructTy->setBody(MT, ...)` on a created struct. -/
def setBodyT (bodies : List (Nat × Option (List LTy))) (sid : Nat)
    (ts : List LTy) : List (Nat × Option (List LTy)) :=
  bodies.map (fun p => if p.1 = sid then (p.1, some ts) else p)

/-- Member-list translation (the `MT.push_back(transType(...))` loop). -/
def goTypes (tv : TState → Nat → Option (LTy × TState)) :
    TState → List Nat → Option (List LTy × TState)
  | s, [] => some ([], s)
  | s, m :: rest =>
    match tv s m with
    | none => none
    | some (t, s1) =>
      match goTypes tv s1 rest with
      | none => none
      | some (ts, s2) => some (t :: ts, s2)

/-- `SPIRVToLLVM::transType` (SPIRVReader.cpp lines 315-392) for the
embedded fragment: memoized; scalars and pointer/array composites are
mapped after their element type is translated; a struct is created named
and `mapType`d BEFORE its members are translated (lines 383-385), and its
body is set afterwards.  `fuel` bounds the recursion depth only. -/
def transTypeR (tbl : List (Nat × STy)) : Nat → TState → Nat → Option (LTy × TState)
  | 0, _, _ => none
  | fuel + 1, s, tid =>
    match lookupT s tid with
    | some t => some (t, s)
    | none =>
      match descR tbl tid with
      | none => none
      | some (.intT w) => some (.intL w, mapT s tid (.intL w))
      | some (.ptrT e) =>
        match transTypeR tbl fuel s e with
        | none => none
        | some (t, s1) => some (.ptrL t, mapT s1 tid (.ptrL t))
      | some (.arrT e n) =>
        match transTypeR tbl fuel s e with
        | none => none
        | some (t, s1) => some (.arrL t n, mapT s1 tid (.arrL t n))
      | some (.structT mems) =>
        let sid := s.nextSid
        let s1 : TState :=
          { mapT s tid (.namedL sid) with
            bodies := s.bodies ++ [(sid, none)], nextSid := sid + 1 }
        match goTypes (transTypeR tbl fuel) s1 mems with
        | none => none
        | some (ts, s2) =>
          some (.namedL sid, { s2 with bodies := setBodyT s2.bodies sid ts })

/-- The empty type-translation state. -/
def initT : TState := ⟨[], [], 0⟩

end TyR

namespace TyW

/-- LLVM type descriptors on the encode side (input table). -/
inductive LDesc where
  | intD (w : Nat) : LDesc
  | ptrD (elem : Nat) : LDesc
  | arrD (elem : Nat) (len : Nat) : LDesc
  | structD (members : List Nat) : LDesc
  deriving DecidableEq, Repr

/-- SPIRV type entries the encoder creates: a struct's member slots are
filled by `setMemberType` (`none` = not yet set). -/
inductive WEntry where
  | intW (w : Nat) : WEntry
  | ptrW (t : Nat) : WEntry
  | arrW (t : Nat) (len : Nat) : WEntry
  | structW (members : List (Option Nat)) : WEntry
  deriving DecidableEq, Repr

/-- Encoder type-translation state: `TypeMap` (LLVM type id to SPIRV id),
the SPIRV module's type entries, the next fresh SPIRV id. -/
structure WTState where
  typeMap : List (Nat × Nat)
  entries : List (Nat × WEntry)
  nextId : Nat
  deriving DecidableEq, Repr

/-- The descriptor of an LLVM type id. -/
def descW (tbl : List (Nat × LDesc)) (lid : Nat) : Option LDesc :=
  (tbl.find? (fun p => p.1 = lid)).map (fun p => p.2)

/-- `TypeMap` lookup. -/
def lookupTW (s : WTState) (lid : Nat) : Option Nat :=
  (s.typeMap.find? (fun p => p.1 = lid)).map (fun p => p.2)

/-- Create a fresh non-struct entry and map the LLVM type to it. -/
def addMapW (s : WTState) (lid : Nat) (e : WEntry) : Option (Nat × WTState) :=
  some (s.nextId,
    { s with typeMap := (lid, s.nextId) :: s.typeMap,
             entries := s.entries ++ [(s.nextId, e)],
             nextId := s.nextId + 1 })

/-- `Struct->setMemberType(I, ...)`. -/
def setMemberW (entries : List (Nat × WEntry)) (sid i t : Nat) :
    List (Nat × WEntry) :=
  entries.map (fun p =>
    if p.1 = sid then
      (p.1, match p.2 with
            | .structW ms => .structW (ms.set i (some t))
            | e => e)
    else p)

/-- `recursiveType` (SPIRVWriter.cpp lines 222-261): does `cur` reach the
struct `st` through struct members, pointer elements and array elements,
with a `Seen` set cutting repeated struct visits. -/
def reaches (tbl : List (Nat × LDesc)) : Nat → List Nat → Nat → Nat → Bool
  | 0, _, _, _ => false
  | fuel + 1, seen, st, cur =>
    match descW tbl cur with
    | some (.structD mems) =>
      if cur = st then true
      else if cur ∈ seen then false
      else mems.any (reaches tbl fuel (cur :: seen) st)
    | some (.ptrD e) => reaches tbl fuel seen st e
    | some (.arrD e _) => reaches tbl fuel seen st e
    | _ => false

/-- One first-pass member step (SPIRVWriter.cpp lines 433-440): a
composite or pointer member on a recursive path is deferred, any other is
translated and set. -/
def memberPass1 (tbl : List (Nat × LDesc)) (tv : WTState → Nat → Option (Nat × WTState))
    (lid sid : Nat) :
    Option (List Nat × WTState) → Nat × Nat → Option (List Nat × WTState)
  | none, _ => none
  | some (defs, s), (i, m) =>
    if reaches tbl (tbl.length + 1) [] lid m then some (defs ++ [i], s)
    else
      match tv s m with
      | none => none
      | some (t, s1) =>
        some (defs, { s1 with entries := setMemberW s1.entries sid i t })

/-- One deferred-member step (SPIRVWriter.cpp lines 444-445). -/
def memberPass2 (mems : List Nat) (tv : WTState → Nat → Option (Nat × WTState))
    (sid : Nat) : Option WTState → Nat → Option WTState
  | none, _ => none
  | some s, i =>
    match mems.get? i with
    | none => none
    | some m =>
      match tv s m with
      | none => none
      | some (t, s1) =>
        some { s1 with entries := setMemberW s1.entries sid i t }

/-- `LLVMToSPIRV::transType` (SPIRVWriter.cpp lines 263-456) for the
embedded fragment: memoized; scalar and pointer/array types translate
their element first; a struct is opened and `mapType`d BEFORE the member
loop (lines 417-418), recursive members are deferred past
`closeStructType` and set afterwards. -/
def transTypeW (tbl : List (Nat × LDesc)) : Nat → WTState → Nat → Option (Nat × WTState)
  | 0, _, _ => none
  | fuel + 1, s, lid =>
    match lookupTW s lid with
    | some bv => some (bv, s)
    | none =>
      match descW tbl lid with
      | none => none
      | some (.intD w) => addMapW s lid (.intW w)
      | some (.ptrD e) =>
        match transTypeW tbl fuel s e with
        | none => none
        | some (t, s1) => addMapW s1 lid (.ptrW t)
      | some (.arrD e n) =>
        match transTypeW tbl fuel s e with
        | none => none
        | some (t, s1) => addMapW s1 lid (.arrW t n)
      | some (.structD mems) =>
        let sid := s.nextId
        let s1 : WTState :=
          { s with typeMap := (lid, sid) :: s.typeMap,
                   entries := s.entries ++ [(sid, .structW (mems.map (fun _ => none)))],
                   nextId := s.nextId + 1 }
        match mems.enum.foldl (memberPass1 tbl (transTypeW tbl fuel) lid sid)
            (some ([], s1)) with
        | none => none
        | some (defs, s2) =>
          match defs.foldl (memberPass2 mems (transTypeW tbl fuel) sid) (some s2) with
          | none => none
          | some s3 => some (sid, s3)

/-- The SPIRV entry of a created type id. -/
def entryOfW (s : WTState) (bv : Nat) : Option WEntry :=
  (s.entries.find? (fun p => p.1 = bv)).map (fun p => p.2)

/-- The empty encoder type state. -/
def initW : WTState := ⟨[], [], 0⟩

end TyW


/-! ## Floating-point contraction propagation (SPIRVWriter.cpp
`LLVMToSPIRV::transDirectCallInst` fp-contract joins,
`LLVMToSPIRV::fpContractUpdateRecursive`, `LLVMToSPIRV::transFunction`,
the definition loop of `LLVMToSPIRV::translate`, and
`getFPContract`/`joinFPContract`) -/

namespace FP

/-- `LLVMToSPIRV::FPContract`. -/
inductive FPContract where
  | UNDEF : FPContract
  | ENABLED : FPContract
  | DISABLED : FPContract
  deriving DecidableEq, Repr

/-- A function of the module as the fp-contract fragment sees it: its
identity, whether it is only a declaration, and the ids of its direct
callees in body order. -/
structure FuncW where
  id : Nat
  isDecl : Bool
  callees : List Nat
  deriving DecidableEq, Repr

/-- `LLVMToSPIRV::getFPContract`: absent means `UNDEF`. -/
def getFPC (m : List (Nat × FPContract)) (f : Nat) : FPContract :=
  ((m.find? (fun p => p.1 = f)).map (fun p => p.2)).getD .UNDEF

/-- The status after `joinFPContract`'s switch: `UNDEF` is overwritten by
anything defined, `ENABLED` only by `DISABLED`, `DISABLED` is final. -/
def joinVal (old c : FPContract) : FPContract :=
  match old with
  | .UNDEF => if c = .UNDEF then .UNDEF else c
  | .ENABLED => if c = .DISABLED then .DISABLED else .ENABLED
  | .DISABLED => .DISABLED

/-- `LLVMToSPIRV::joinFPContract` (SPIRVWriter.cpp lines 3247-3265):
updates the map entry and reports whether it changed. -/
def joinFPC (m : List (Nat × FPContract)) (f : Nat) (c : FPContract) :
    List (Nat × FPContract) × Bool :=
  let old := getFPC m f
  let nv := joinVal old c
  if nv = old then (m, false) else ((f, nv) :: m, true)

/-- The users of function `f`: one entry per call site, resolved to the
calling function (the Instruction-to-Function step of the BFS). -/
def usersOf (M : List FuncW) (f : Nat) : List Nat :=
  M.foldr (fun g acc =>
    (g.callees.filter (fun c => c = f)).map (fun _ => g.id) ++ acc) []

/-- The queue loop of `LLVMToSPIRV::fpContractUpdateRecursive`
(SPIRVWriter.cpp lines 2659-2717): pop a user, join the fixed status into
it; if the join changed the status, enqueue that function's users in turn.
`fuel` bounds the number of iterations only. -/
def bfs (M : List FuncW) (fpc : FPContract) :
    Nat → List (Nat × FPContract) → List Nat → Option (List (Nat × FPContract))
  | 0, _, _ => none
  | _ + 1, m, [] => some m
  | fuel + 1, m, u :: q =>
    match joinFPC m u fpc with
    | (m1, true) => bfs M fpc fuel m1 (q ++ usersOf M u)
    | (_, false) => bfs M fpc fuel m q

/-- The fp-contract effect of translating one direct call from `fid`
(SPIRVWriter.cpp lines 2426-2440): a declaration callee joins `DISABLED`
into the caller, a defined callee joins its own current status. -/
def callStep (M : List FuncW) (m : List (Nat × FPContract)) (fid c : Nat) :
    List (Nat × FPContract) :=
  match M.find? (fun g => g.id = c) with
  | some g =>
    if g.isDecl then (joinFPC m fid .DISABLED).1
    else (joinFPC m fid (getFPC m c)).1
  | none => m

/-- The fp-contract fragment of `LLVMToSPIRV::transFunction`
(SPIRVWriter.cpp lines 2719-2741): translate the body (joining at each
direct call), enable contraction unless proven otherwise, then propagate
the resulting status to the callers. -/
def transFunctionFPC (M : List FuncW) (fuel : Nat)
    (m : List (Nat × FPContract)) (f : FuncW) :
    Option (List (Nat × FPContract)) :=
  let m1 := f.callees.foldl (fun m c => callStep M m f.id c) m
  let m2 := (joinFPC m1 f.id .ENABLED).1
  bfs M (getFPC m2 f.id) fuel m2 (usersOf M f.id)

/-- The definition loop of `LLVMToSPIRV::translate` (SPIRVWriter.cpp
lines 2769-2784): declarations set no contraction state; definitions are
translated in module order. -/
def transModuleFPC (fuel : Nat) (M : List FuncW) :
    Option (List (Nat × FPContract)) :=
  (M.filter (fun f => !f.isDecl)).foldlM (transFunctionFPC M fuel) []

/-- `x` is directly called by (the module function with id) `y`. -/
def callerRel (M : List FuncW) (x y : Nat) : Prop :=
  ∃ g, g ∈ M ∧ g.id = y ∧ x ∈ g.callees

/-- Every module function calling a contraction-disabled id is itself
disabled. -/
def dClosed (M : List FuncW) (m : List (Nat × FPContract)) : Prop :=
  ∀ g ∈ M, ∀ x ∈ g.callees, getFPC m x = .DISABLED →
    getFPC m g.id = .DISABLED

/-- BFS loop invariant: a caller of a disabled id is disabled or still
queued. -/
def bfsInv (M : List FuncW) (m : List (Nat × FPContract)) (q : List Nat) : Prop :=
  ∀ g ∈ M, ∀ x ∈ g.callees, getFPC m x = .DISABLED →
    getFPC m g.id = .DISABLED ∨ g.id ∈ q

end FP

/-! ## Theorems -/

namespace LoopCtl

/-- Helper: or-ing in a mask constant that has the DontUnroll bit clear
keeps the DontUnroll bit clear. -/
theorem and_dontunroll_or (m c : Nat) (h : m &&& 2 = 0) (hc : 2 &&& c = 0) :
    (m ||| c) &&& 2 = 0 := by
  rw [Nat.and_comm, Nat.and_or_distrib_left]
  rw [Nat.and_comm] at h
  simp [h, hc]

/-- The metadata-operand walk of `getLoopControl` accumulates scalar
parameters in source-metadata order and the dependency-array pairs in
source-metadata order, provided no `llvm.loop.unroll.disable` hint occurs
(the only hint that can suppress a later parameter). -/
theorem getLoopControl_foldl_spec (hints : List Hint) :
    ∀ acc : LCAcc, Hint.unrollDisable ∉ hints → acc.mask &&& LoopControlDontUnrollMask = 0 →
    (hints.foldl getLoopControlStep acc).params = acc.params ++ hints.filterMap hintParam ∧
    (hints.foldl getLoopControlStep acc).depArray =
      acc.depArray ++ hints.foldr (fun h r => hintDepPairs h ++ r) [] := by
  induction hints with
  | nil => intro acc _ _; simp
  | cons h t ih =>
    intro acc hnd hm
    have hnd' : Hint.unrollDisable ∉ t := fun hmem => hnd (List.mem_cons_of_mem _ hmem)
    have hne : h ≠ Hint.unrollDisable := fun he => hnd (he ▸ List.mem_cons_self h t)
    cases h with
    | unrollDisable => exact absurd rfl hne
    | unrollFull =>
      have := ih { acc with mask := acc.mask ||| LoopControlUnrollMask } hnd'
        (and_dontunroll_or _ _ hm (by decide))
      simpa [getLoopControlStep, hintParam, hintDepPairs] using this
    | unrollEnable =>
      have := ih { acc with mask := acc.mask ||| LoopControlUnrollMask } hnd'
        (and_dontunroll_or _ _ hm (by decide))
      simpa [getLoopControlStep, hintParam, hintDepPairs] using this
    | unrollCount n =>
      have hstep : getLoopControlStep acc (Hint.unrollCount n) =
          { acc with params := acc.params ++ [n],
                     mask := acc.mask ||| LoopControlPartialCountMask } := by
        simp [getLoopControlStep, LoopControlDontUnrollMask] at hm ⊢
        intro hcon; exact absurd hm hcon
      rw [List.foldl_cons, hstep]
      have := ih { acc with params := acc.params ++ [n],
                            mask := acc.mask ||| LoopControlPartialCountMask } hnd'
        (and_dontunroll_or _ _ hm (by decide))
      simpa [hintParam, hintDepPairs] using this
    | ivdepEnable =>
      have := ih { acc with mask := acc.mask ||| LoopControlDependencyInfiniteMask } hnd'
        (and_dontunroll_or _ _ hm (by decide))
      simpa [getLoopControlStep, hintParam, hintDepPairs] using this
    | ivdepSafelen n =>
      have := ih { acc with params := acc.params ++ [n],
                            mask := acc.mask ||| LoopControlDependencyLengthMask } hnd'
        (and_dontunroll_or _ _ hm (by decide))
      simpa [getLoopControlStep, hintParam, hintDepPairs] using this
    | iiCount n =>
      have := ih { acc with params := acc.params ++ [n],
                            mask := acc.mask ||| InitiationIntervalINTEL } hnd'
        (and_dontunroll_or _ _ hm (by decide))
      simpa [getLoopControlStep, hintParam, hintDepPairs] using this
    | maxConcurrency n =>
      have := ih { acc with params := acc.params ++ [n],
                            mask := acc.mask ||| MaxConcurrencyINTEL } hnd'
        (and_dontunroll_or _ _ hm (by decide))
      simpa [getLoopControlStep, hintParam, hintDepPairs] using this
    | parallelAccessIndices arrays safelen =>
      have := ih { acc with depArray :=
          acc.depArray ++ arrays.map (fun a => (a, safelen)) } hnd' hm
      simpa [getLoopControlStep, hintParam, hintDepPairs] using this
    | otherHint s =>
      have := ih acc hnd' hm
      simpa [getLoopControlStep, hintParam, hintDepPairs] using this

/-- C7: encoding a loop that carries an unroll-count-of-4 hint produces a
loop-merge loop-control mask with exactly the PartialCount bit (bit 8) set
and the parameter list `[4]`, and decoding that mask and parameter list
recovers the `llvm.loop.unroll.count = 4` hint. -/
theorem c7_unroll_count_four_roundtrip :
    getLoopControl [Hint.unrollCount 4] = (LoopControlPartialCountMask, [4]) ∧
    LoopControlPartialCountMask = 2 ^ 8 ∧
    setLLVMLoopMetadata LoopControlPartialCountMask [4] =
      [LMD.mdNameParam "llvm.loop.unroll.count" 4] := by
  decide

/-- C8 counterexample: the emitted hint parameter list is NOT ordered by a
fixed precedence table; it depends on the order in which the hints appear
in the source metadata.  With the initiation-interval hint listed before
the unroll-count hint the writer emits `[2, 4]`, with the opposite source
order it emits `[4, 2]` for the same mask, and the positional decoder then
reads the initiation-interval literal as the unroll count. -/
theorem c8_source_order_counterexample :
    getLoopControl [Hint.iiCount 2, Hint.unrollCount 4] = (65792, [2, 4]) ∧
    getLoopControl [Hint.unrollCount 4, Hint.iiCount 2] = (65792, [4, 2]) ∧
    ([2, 4] : List Nat) ≠ [4, 2] ∧
    setLLVMLoopMetadata 65792 [2, 4] =
      [LMD.mdNameParam "llvm.loop.unroll.count" 2,
       LMD.mdNameParam "llvm.loop.ii.count" 4] := by
  decide

/-- C8 amended: for a loop carrying several hints (none of them
`unroll.disable`), the emitted parameter list consists of the scalar hint
parameters in the order the hints appear in the source metadata, followed
by the dependency-array block (pair count, then the `<array, safelen>`
pairs) which is always emitted last; no reordering to the decoder's fixed
positional (mask-bit) order takes place. -/
theorem c8_parameters_in_source_metadata_order (hints : List Hint)
    (hnd : Hint.unrollDisable ∉ hints) :
    (getLoopControl hints).2 =
      hints.filterMap hintParam ++
        (if hints.foldr (fun h r => hintDepPairs h ++ r) [] = [] then []
         else (hints.foldr (fun h r => hintDepPairs h ++ r) []).length ::
           (hints.foldr (fun h r => hintDepPairs h ++ r) []).foldr
             (fun p r => [p.1, p.2] ++ r) []) := by
  have hspec := getLoopControl_foldl_spec hints ⟨0, [], []⟩ hnd (by decide)
  unfold getLoopControl
  rcases hspec with ⟨hp, hd⟩
  simp only [hp, hd]
  by_cases hdep : hints.foldr (fun h r => hintDepPairs h ++ r) [] = [] <;>
    simp [hdep]

/-- C8 amended, witness: at the concrete source metadata
`[ii.count 2, unroll.count 4]` the hypotheses hold and the parameters come
out in source order. -/
theorem c8_parameters_in_source_metadata_order_witness :
    Hint.unrollDisable ∉ [Hint.iiCount 2, Hint.unrollCount 4] ∧
    (getLoopControl [Hint.iiCount 2, Hint.unrollCount 4]).2 = [2, 4] :=
  ⟨by decide,
   (c8_parameters_in_source_metadata_order
     [Hint.iiCount 2, Hint.unrollCount 4] (by decide)).trans (by decide)⟩

end LoopCtl

namespace IntWidth

/-- Helper: packing `b <<< 32 ||| a` with `a` in 32-bit range is ordinary
radix-2^32 composition. -/
theorem shl_or_eq_add (b a : Nat) (h : a < 2 ^ 32) :
    b <<< 32 ||| a = 2 ^ 32 * b + a := by
  apply Nat.eq_of_testBit_eq
  intro j
  rw [Nat.testBit_lor, Nat.testBit_shiftLeft, Nat.testBit_mul_pow_two_add b h]
  by_cases hj : j < 32
  · simp [hj, Nat.not_le_of_lt hj]
  · have : a.testBit j = false := by
      apply Nat.testBit_eq_false_of_lt
      calc a < 2 ^ 32 := h
        _ ≤ 2 ^ j := Nat.pow_le_pow_right (by decide) (Nat.le_of_not_lt hj)
    simp [hj, Nat.le_of_not_lt hj, this]

/-- Helper: the word payload of a 128-bit constant is its four 32-bit
digits, least significant first. -/
theorem encodeWords_128 (v : Nat) : encodeWords 128 v =
    [v % 2 ^ 32, v / 2 ^ 32 % 2 ^ 32, v / 2 ^ 64 % 2 ^ 32, v / 2 ^ 96 % 2 ^ 32] := by
  simp [encodeWords, List.range_succ]

/-- C9: an integer type whose bit width is outside the natively supported
set {8, 16, 32, 64} (and is not the i1 bool case) fails to encode with the
invalid-bit-width error unless the arbitrary-precision-integers extension
is enabled; with the extension enabled a 128-bit integer constant encodes
into a multi-word payload whose decode (the reader's word-packing) gives
back exactly the original numeric value, and decoding any in-range 128-bit
payload and re-encoding it reproduces the payload. -/
theorem c9_arbitrary_precision_integers (w v a b c d : Nat)
    (hw : w ≠ 1 ∧ w ≠ 8 ∧ w ≠ 16 ∧ w ≠ 32 ∧ w ≠ 64)
    (hv : v < 2 ^ 128)
    (ha : a < 2 ^ 32) (hb : b < 2 ^ 32) (hc : c < 2 ^ 32) (hd : d < 2 ^ 32) :
    transIntType false w = .error (.invalidBitWidth w) ∧
    transConstantInt false 128 v = .error (.invalidBitWidth 128) ∧
    transIntType true w = .ok (.intTy w) ∧
    transConstantInt true 128 v = .ok ⟨.intTy 128, encodeWords 128 v⟩ ∧
    transWideConstantValue (encodeWords 128 v) = v ∧
    encodeWords 128 (transWideConstantValue [a, b, c, d]) = [a, b, c, d] := by
  obtain ⟨h1, h8, h16, h32, h64⟩ := hw
  refine ⟨?_, ?_, ?_, ?_, ?_, ?_⟩
  · simp [transIntType, h1, h8, h16, h32, h64]
  · simp [transConstantInt]
  · simp [transIntType, h1]
  · simp [transConstantInt, transIntType, Except.map]
  · rw [transWideConstantValue, encodeWords_128]
    simp only [packWords, apIntValue]
    rw [shl_or_eq_add _ _ (Nat.mod_lt _ (by norm_num)),
        shl_or_eq_add _ _ (Nat.mod_lt _ (by norm_num))]
    omega
  · rw [transWideConstantValue]
    simp only [packWords, apIntValue]
    rw [shl_or_eq_add _ _ ha, shl_or_eq_add _ _ hc]
    simp [encodeWords, List.range_succ]
    refine ⟨?_, ?_, ?_, ?_⟩ <;> omega

/-- C9 witness: width 128 is rejected without the extension, and the
concrete value 2^100 + 12345 survives the 128-bit round trip. -/
theorem c9_arbitrary_precision_integers_witness :
    ((128 : Nat) ≠ 1 ∧ (128 : Nat) ≠ 8 ∧ (128 : Nat) ≠ 16 ∧ (128 : Nat) ≠ 32 ∧
      (128 : Nat) ≠ 64) ∧
    2 ^ 100 + 12345 < 2 ^ 128 ∧
    transIntType false 128 = .error (.invalidBitWidth 128) ∧
    transWideConstantValue (encodeWords 128 (2 ^ 100 + 12345)) = 2 ^ 100 + 12345 :=
  ⟨by decide, by norm_num,
   (c9_arbitrary_precision_integers 128 (2 ^ 100 + 12345) 0 0 0 0
      (by decide) (by norm_num) (by decide) (by decide) (by decide) (by decide)).1,
   (c9_arbitrary_precision_integers 128 (2 ^ 100 + 12345) 0 0 0 0
      (by decide) (by norm_num) (by decide) (by decide) (by decide)
      (by decide)).2.2.2.2.1⟩

end IntWidth

namespace Regularize

/-- C1 counterexample: when the verifier reports the normalized module as
broken, `regularize` returns `false` but `runOnModule` still returns
`true`; moreover the `runOnModule` outcome is identical to the outcome
with a verifier that reports success, so the caller cannot observe the
verification failure at all. -/
theorem c1_verification_failure_not_reported :
    (runOnModule (fun _ => true) { funcs := [], execModes := [] }).2 = true ∧
    (regularize (fun _ => true) { funcs := [], execModes := [] }).2 = false ∧
    runOnModule (fun _ => true) { funcs := [], execModes := [] } =
      runOnModule (fun _ => false) { funcs := [], execModes := [] } := by
  refine ⟨rfl, rfl, rfl⟩

/-- C1 amended: after normalization the module IS re-verified and
`regularize` returns `false` exactly when the verifier flags the
normalized module, but `runOnModule` discards that result and returns
`true` unconditionally, so the verification failure is never reported to
the pass's caller. -/
theorem c1_reverify_but_discard (verifyModule : LLVMModule → Bool) (m : LLVMModule) :
    ((regularize verifyModule m).2 = false ↔
      verifyModule (regularize verifyModule m).1 = true) ∧
    (runOnModule verifyModule m).2 = true := by
  constructor
  · by_cases h : verifyModule
      { addKernelEntryPoint m with funcs := regularizeLoop (addKernelEntryPoint m).funcs } <;>
      simp [regularize, h]
  · rfl

/-- `demAt` never changes a function's name. -/
theorem demAt_name (n : FName) (g : Func) : (demAt n g).name = g.name := by
  unfold demAt; split <;> rfl

/-- `demoteAt` is the pointwise map of `demAt`. -/
theorem demoteAt_eq_map (fs : List Func) (n : FName) :
    demoteAt fs n = fs.map (demAt n) := rfl

/-- Searching by name commutes with a name-preserving map. -/
theorem find?_map_of_name_eq (u : Func → Func) (hu : ∀ g, (u g).name = g.name)
    (fs : List Func) (n : FName) :
    (fs.map u).find? (fun g => g.name = n) =
      (fs.find? (fun g => g.name = n)).map u := by
  induction fs with
  | nil => rfl
  | cons g t ih =>
    by_cases h : g.name = n
    · simp [List.find?, hu, h]
    · simp only [List.map_cons, List.find?]
      rw [show (decide ((u g).name = n)) = false by simp [hu, h],
          show (decide (g.name = n)) = false by simp [h]]
      exact ih

/-- With nodup names, searching for the name of a member finds exactly
that member. -/
theorem find?_of_mem_nodup {fs : List Func} {f : Func}
    (hmem : f ∈ fs) (hnd : (fs.map (fun g => g.name)).Nodup) :
    fs.find? (fun g => g.name = f.name) = some f := by
  induction fs with
  | nil => cases hmem
  | cons g t ih =>
    rcases List.mem_cons.mp hmem with rfl | hmem'
    · simp [List.find?]
    · have hne : g.name ≠ f.name := by
        intro he
        have : f.name ∈ t.map (fun g => g.name) :=
          List.mem_map.mpr ⟨f, hmem', rfl⟩
        rw [List.map_cons, List.nodup_cons] at hnd
        exact hnd.1 (he ▸ this)
      simp only [List.find?]
      rw [show (decide (g.name = f.name)) = false by simp [hne]]
      exact ih hmem' ((List.map_cons _ _ _ ▸ hnd).of_cons)

/-- `demAt` preserves the declaration flag. -/
theorem demAt_isDecl (n : FName) (g : Func) : (demAt n g).isDecl = g.isDecl := by
  unfold demAt; split <;> rfl

/-- The wrapper only reads name, metadata and body, which `demAt` keeps. -/
theorem mkWrapper_demAt (n : FName) (f : Func) :
    mkWrapper (demAt n f) = mkWrapper f := by
  unfold demAt mkWrapper; split <;> rfl

/-- `demoteAt` keeps the name list. -/
theorem demoteAt_names (fs : List Func) (n : FName) :
    (demoteAt fs n).map (fun g => g.name) = fs.map (fun g => g.name) := by
  rw [demoteAt_eq_map, List.map_map]
  exact List.map_congr_left (fun g _ => demAt_name n g)

/-- Searching a demoted list is searching the original, demoted. -/
theorem find?_demoteAt (fs : List Func) (n m : FName) :
    (demoteAt fs n).find? (fun g => g.name = m) =
      (fs.find? (fun g => g.name = m)).map (demAt n) := by
  rw [demoteAt_eq_map]
  exact find?_map_of_name_eq (demAt n) (demAt_name n) fs m

/-- Demoting at a single name then by a list is demoting by the extended
list, provided the single name is not in the list. -/
theorem demoteIfMem_demAt (n : FName) (W : List FName) (g : Func) :
    demoteIfMem W (demAt n g) = demoteIfMem (n :: W) g := by
  unfold demAt demoteIfMem
  by_cases h : g.name = n
  · subst h
    simp [List.mem_cons]
  · simp only [if_neg h]
    by_cases hw : g.name ∈ W
    · simp [hw, List.mem_cons, h]
    · simp [hw, List.mem_cons, h]

/-- The wrapper computed for a name is unaffected by demotion. -/
theorem wrapOf_demoteAt (fs : List Func) (n m : FName) :
    wrapOf (demoteAt fs n) m = wrapOf fs m := by
  unfold wrapOf
  rw [find?_demoteAt]
  cases fs.find? (fun g => g.name = m) with
  | none => rfl
  | some f => simp [demAt_isDecl, mkWrapper_demAt]

/-- The work-list fold of `addKernelEntryPoint`, characterised: under
unique function names, fresh wrapper names and work names present in the
module, the fold demotes exactly the work-list functions, appends one
wrapper per defined work-list function (in work-list order), and retargets
the execution-mode entries of defined work-list functions. -/
theorem addKernelEntryPoint_fold_spec (W : List FName) :
    ∀ (fs : List Func) (em : List (FName × Nat)),
    (fs.map (fun g => g.name)).Nodup →
    W.Nodup →
    (∀ n ∈ W, ∃ f, f ∈ fs ∧ f.name = n) →
    (∀ n ∈ W, ∀ g ∈ fs, g.name ≠ .entryPt n) →
    W.foldl addKernelEntryPointStep (fs, em) =
      (fs.map (demoteIfMem W) ++ W.filterMap (wrapOf fs),
       em.map (retargetEM W fs)) := by
  induction W with
  | nil =>
    intro fs em _ _ _ _
    have h1 : fs.map (demoteIfMem []) = fs := by
      have : demoteIfMem [] = fun g => g := by
        funext g; simp [demoteIfMem]
      rw [this, List.map_id']
    have h2 : em.map (retargetEM [] fs) = em := by
      have : retargetEM [] fs = fun p => p := by
        funext p; simp [retargetEM]
      rw [this, List.map_id']
    simp [h1, h2]
  | cons n W' ih =>
    intro fs em hnd hWnd hpres hfresh
    obtain ⟨f, hfmem, hfname⟩ := hpres n (List.mem_cons_self n W')
    have hnW' : n ∉ W' := (List.nodup_cons.mp hWnd).1
    have hfind : fs.find? (fun g => g.name = n) = some f := by
      rw [← hfname]; exact find?_of_mem_nodup hfmem hnd
    have hfind1 : (demoteAt fs n).find? (fun g => g.name = n) = some (demAt n f) := by
      rw [find?_demoteAt, hfind]; rfl
    have hentry_not : FName.entryPt n ∉ W' := by
      intro hmem
      obtain ⟨g, hgmem, hgname⟩ := hpres _ (List.mem_cons_of_mem _ hmem)
      exact hfresh n (List.mem_cons_self n W') g hgmem hgname
    have hnd1 : ((demoteAt fs n).map (fun g => g.name)).Nodup := by
      rw [demoteAt_names]; exact hnd
    have hpres1 : ∀ n' ∈ W', ∃ f', f' ∈ demoteAt fs n ∧ f'.name = n' := by
      intro n' hn'
      obtain ⟨f', hmem', hname'⟩ := hpres n' (List.mem_cons_of_mem _ hn')
      exact ⟨demAt n f', by
        rw [demoteAt_eq_map]; exact List.mem_map.mpr ⟨f', hmem', rfl⟩,
        (demAt_name n f').trans hname'⟩
    have hfresh1 : ∀ n' ∈ W', ∀ g ∈ demoteAt fs n, g.name ≠ .entryPt n' := by
      intro n' hn' g hg
      rw [demoteAt_eq_map] at hg
      obtain ⟨g0, hg0, rfl⟩ := List.mem_map.mp hg
      rw [demAt_name]
      exact hfresh n' (List.mem_cons_of_mem _ hn') g0 hg0
    rw [List.foldl_cons]
    by_cases hd : f.isDecl
    · -- declaration: only the demotion happens
      have hstep : addKernelEntryPointStep (fs, em) n = (demoteAt fs n, em) := by
        unfold addKernelEntryPointStep
        simp only [hfind1]
        have : (demAt n f).isDecl = true := by rw [demAt_isDecl]; exact hd
        simp [this]
      rw [hstep, ih (demoteAt fs n) em hnd1 (List.nodup_cons.mp hWnd).2 hpres1 hfresh1]
      refine Prod.ext ?_ ?_
      · show (demoteAt fs n).map (demoteIfMem W') ++ W'.filterMap (wrapOf (demoteAt fs n)) =
          fs.map (demoteIfMem (n :: W')) ++ (n :: W').filterMap (wrapOf fs)
        have e1 : (demoteAt fs n).map (demoteIfMem W') = fs.map (demoteIfMem (n :: W')) := by
          rw [demoteAt_eq_map, List.map_map]
          exact List.map_congr_left (fun g _ => demoteIfMem_demAt n W' g)
        have e2 : W'.filterMap (wrapOf (demoteAt fs n)) = W'.filterMap (wrapOf fs) :=
          List.filterMap_congr (fun n' _ => wrapOf_demoteAt fs n n')
        have e3 : wrapOf fs n = none := by
          unfold wrapOf; rw [hfind]; simp [hd]
        rw [e1, e2, List.filterMap_cons, e3]
      · show em.map (retargetEM W' (demoteAt fs n)) = em.map (retargetEM (n :: W') fs)
        refine List.map_congr_left (fun p _ => ?_)
        unfold retargetEM
        rw [find?_demoteAt]
        by_cases hp : p.1 = n
        · rw [hp, hfind]
          simp [hd, hnW']
        · by_cases hw : p.1 ∈ W'
          · have hmem : p.1 ∈ n :: W' := List.mem_cons_of_mem _ hw
            cases hf' : fs.find? (fun g => g.name = p.1) with
            | none => simp [hw, hmem]
            | some f' => simp [hw, hmem, demAt_isDecl]
          · have hmem : p.1 ∉ n :: W' := by
              simp [List.mem_cons, hp, hw]
            simp [hw, hmem]
    · -- definition: demote, append a wrapper, retarget the metadata
      have hany : ((demoteAt fs n).any (fun g => g.name = FName.entryPt n)) = false := by
        rw [List.any_eq_false]
        intro g hg
        rw [demoteAt_eq_map] at hg
        obtain ⟨g0, hg0, rfl⟩ := List.mem_map.mp hg
        simp only [demAt_name, decide_eq_true_eq]
        exact hfresh n (List.mem_cons_self n W') g0 hg0
      have hstep : addKernelEntryPointStep (fs, em) n =
          (demoteAt fs n ++ [mkWrapper f],
           em.map (fun p => if p.1 = n then (FName.entryPt n, p.2) else p)) := by
        unfold addKernelEntryPointStep
        simp only [hfind1]
        have hdd : (demAt n f).isDecl = false := by rw [demAt_isDecl]; simp [hd]
        simp [hdd, hany, mkWrapper_demAt, hfname]
      set fs2 := demoteAt fs n ++ [mkWrapper f] with hfs2
      set em2 := em.map (fun p => if p.1 = n then (FName.entryPt n, p.2) else p) with hem2
      have hwname : (mkWrapper f).name = FName.entryPt n := by
        unfold mkWrapper; rw [hfname]
      have hnd2 : (fs2.map (fun g => g.name)).Nodup := by
        rw [hfs2, List.map_append, demoteAt_names]
        rw [List.nodup_append]
        refine ⟨hnd, by simp, ?_⟩
        intro x hx
        simp only [List.map_cons, List.map_nil, List.mem_singleton, hwname]
        obtain ⟨g, hgmem, rfl⟩ := List.mem_map.mp hx
        intro he
        exact hfresh n (List.mem_cons_self n W') g hgmem he
      have hpres2 : ∀ n' ∈ W', ∃ f', f' ∈ fs2 ∧ f'.name = n' := by
        intro n' hn'
        obtain ⟨f', hmem', hname'⟩ := hpres1 n' hn'
        exact ⟨f', List.mem_append_left _ hmem', hname'⟩
      have hfresh2 : ∀ n' ∈ W', ∀ g ∈ fs2, g.name ≠ .entryPt n' := by
        intro n' hn' g hg
        rcases List.mem_append.mp hg with hg1 | hg1
        · exact hfresh1 n' hn' g hg1
        · rw [List.mem_singleton.mp hg1, hwname]
          intro he
          exact hnW' ((FName.entryPt.inj he).symm ▸ hn')
      rw [hstep, ih fs2 em2 hnd2 (List.nodup_cons.mp hWnd).2 hpres2 hfresh2]
      refine Prod.ext ?_ ?_
      · show fs2.map (demoteIfMem W') ++ W'.filterMap (wrapOf fs2) =
          fs.map (demoteIfMem (n :: W')) ++ (n :: W').filterMap (wrapOf fs)
        have e1 : (demoteAt fs n).map (demoteIfMem W') = fs.map (demoteIfMem (n :: W')) := by
          rw [demoteAt_eq_map, List.map_map]
          exact List.map_congr_left (fun g _ => demoteIfMem_demAt n W' g)
        have ewrap : demoteIfMem W' (mkWrapper f) = mkWrapper f := by
          unfold demoteIfMem
          rw [hwname]
          simp [hentry_not]
        have e2 : ∀ n' ∈ W', wrapOf fs2 n' = wrapOf fs n' := by
          intro n' hn'
          obtain ⟨f', hmem', hname'⟩ := hpres1 n' hn'
          have hfound : (demoteAt fs n).find? (fun g => g.name = n') = some f' := by
            rw [← hname']
            exact find?_of_mem_nodup hmem' hnd1
          unfold wrapOf
          rw [hfs2, List.find?_append, hfound, Option.or_some, ← hfound, find?_demoteAt]
          cases fs.find? (fun g => g.name = n') with
          | none => rfl
          | some f'' => simp [demAt_isDecl, mkWrapper_demAt]
        have e3 : wrapOf fs n = some (mkWrapper f) := by
          unfold wrapOf; rw [hfind]; simp [hd]
        rw [hfs2, List.map_append, e1, List.map_cons, List.map_nil, ewrap,
            List.filterMap_congr e2, List.filterMap_cons, e3,
            List.append_assoc, List.singleton_append]
      · show em2.map (retargetEM W' fs2) = em.map (retargetEM (n :: W') fs)
        rw [hem2, List.map_map]
        refine List.map_congr_left (fun p _ => ?_)
        simp only [Function.comp]
        by_cases hp : p.1 = n
        · rw [if_pos hp]
          unfold retargetEM
          have hc2 : p.1 ∈ n :: W' := by rw [hp]; exact List.mem_cons_self n W'
          have hc3 : (fs.find? (fun g => g.name = p.1)).any (fun g => !g.isDecl) = true := by
            rw [hp, hfind]; simp [hd]
          rw [if_neg (by simp [hentry_not]), if_pos ⟨hc2, hc3⟩, hp]
        · rw [if_neg hp]
          unfold retargetEM
          by_cases hw : p.1 ∈ W'
          · obtain ⟨f', hmem', hname'⟩ := hpres1 p.1 hw
            have hfound : (demoteAt fs n).find? (fun g => g.name = p.1) = some f' := by
              rw [← hname']; exact find?_of_mem_nodup hmem' hnd1
            have hf2 : fs2.find? (fun g => g.name = p.1) = some f' := by
              rw [hfs2, List.find?_append, hfound, Option.or_some]
            have hmapped := hfound
            rw [find?_demoteAt] at hmapped
            cases hff : fs.find? (fun g => g.name = p.1) with
            | none => rw [hff] at hmapped; exact absurd hmapped (by simp)
            | some f0 =>
              rw [hff] at hmapped
              have hf' : f' = demAt n f0 := by simpa using hmapped.symm
              have hdecl : f'.isDecl = f0.isDecl := by rw [hf', demAt_isDecl]
              rw [hf2]
              by_cases hdec : f0.isDecl <;> simp [hw, hdecl, hdec]
          · have hmem : p.1 ∉ n :: W' := by simp [List.mem_cons, hp, hw]
            rw [if_neg (by simp [hw]), if_neg (by simp [hmem])]

end Regularize

namespace Regularize

/-- Members with equal names are equal when the name list is nodup. -/
theorem eq_of_name_eq_nodup {fs : List Func} {f g : Func}
    (hnd : (fs.map (fun x => x.name)).Nodup)
    (hf : f ∈ fs) (hg : g ∈ fs) (h : f.name = g.name) : f = g :=
  List.inj_on_of_nodup_map hnd hf hg h

/-- A `filterMap` that drops by a flag and wraps the rest is a filtered map. -/
theorem filterMap_guard_eq_map_filter (l : List Func) (w : Func → Func) :
    l.filterMap (fun f => if f.isDecl then none else some (w f)) =
      (l.filter (fun f => !f.isDecl)).map w := by
  induction l with
  | nil => rfl
  | cons f t ih =>
    by_cases hd : f.isDecl <;>
      simp [List.filterMap_cons, List.filter_cons, hd, ih]

/-- C2 amended: `addKernelEntryPoint` wraps every function that has the
kernel calling convention and a body, whether or not it is ever called:
the resulting function list is the original functions with kernels demoted
to SPIR_FUNC, followed by one wrapper (internal linkage, kernel calling
convention, the original's full metadata, a single call to the original)
per defined kernel, and every execution-mode entry naming a defined kernel
is redirected to that kernel's wrapper.  Declarations are demoted without
a wrapper.  No part of the transformation depends on whether the kernel is
used as a callee. -/
theorem c2_every_defined_kernel_wrapped (m : LLVMModule)
    (hnd : (m.funcs.map (fun g => g.name)).Nodup)
    (hfresh : ∀ f ∈ m.funcs, ∀ g ∈ m.funcs, f.name ≠ .entryPt g.name) :
    (addKernelEntryPoint m).funcs =
      m.funcs.map demoteKernel ++
        (m.funcs.filter (fun f => f.conv = .spirKernel && !f.isDecl)).map mkWrapper ∧
    (addKernelEntryPoint m).execModes =
      m.execModes.map (fun p =>
        if m.funcs.any (fun f => f.name = p.1 && f.conv = .spirKernel && !f.isDecl) then
          (.entryPt p.1, p.2)
        else p) := by
  have hker : ∀ f ∈ m.funcs.filter (fun f => f.conv = .spirKernel), f ∈ m.funcs ∧
      f.conv = .spirKernel := by
    intro f hf
    have := List.mem_filter.mp hf
    exact ⟨this.1, by simpa using this.2⟩
  set W := (m.funcs.filter (fun f => f.conv = .spirKernel)).map (fun f => f.name) with hW
  have hWnd : W.Nodup := by
    rw [hW]
    exact List.Nodup.sublist (List.Sublist.map _ (List.filter_sublist _)) hnd
  have hpres : ∀ n ∈ W, ∃ f, f ∈ m.funcs ∧ f.name = n := by
    intro n hn
    rw [hW] at hn
    obtain ⟨f, hf, rfl⟩ := List.mem_map.mp hn
    exact ⟨f, (hker f hf).1, rfl⟩
  have hfresh' : ∀ n ∈ W, ∀ g ∈ m.funcs, g.name ≠ .entryPt n := by
    intro n hn g hg
    obtain ⟨f, hf, rfl⟩ := hpres n hn
    exact hfresh g hg f hf
  have hmemW : ∀ g ∈ m.funcs, (g.name ∈ W ↔ g.conv = .spirKernel) := by
    intro g hg
    constructor
    · intro hmem
      rw [hW] at hmem
      obtain ⟨f, hf, hfe⟩ := List.mem_map.mp hmem
      obtain ⟨hfm, hfk⟩ := hker f hf
      rw [← eq_of_name_eq_nodup hnd hfm hg hfe]
      exact hfk
    · intro hk
      rw [hW]
      exact List.mem_map.mpr ⟨g, List.mem_filter.mpr ⟨hg, by simp [hk]⟩, rfl⟩
  have hspec := addKernelEntryPoint_fold_spec W m.funcs m.execModes hnd hWnd hpres hfresh'
  have hout : addKernelEntryPoint m =
      { funcs := m.funcs.map (demoteIfMem W) ++ W.filterMap (wrapOf m.funcs),
        execModes := m.execModes.map (retargetEM W m.funcs) } := by
    show (match List.foldl addKernelEntryPointStep (m.funcs, m.execModes) W with
          | (fs, em) => LLVMModule.mk fs em) = _
    rw [hspec]
  rw [hout]
  constructor
  · show m.funcs.map (demoteIfMem W) ++ W.filterMap (wrapOf m.funcs) = _
    have e1 : m.funcs.map (demoteIfMem W) = m.funcs.map demoteKernel := by
      refine List.map_congr_left (fun g hg => ?_)
      unfold demoteIfMem demoteKernel
      by_cases hk : g.conv = .spirKernel
      · rw [if_pos ((hmemW g hg).mpr hk), if_pos hk]
      · rw [if_neg (fun hmem => hk ((hmemW g hg).mp hmem)), if_neg hk]
    have e2 : W.filterMap (wrapOf m.funcs) =
        (m.funcs.filter (fun f => f.conv = .spirKernel && !f.isDecl)).map mkWrapper := by
      rw [hW, List.filterMap_map]
      have e21 : ∀ f ∈ m.funcs.filter (fun f => f.conv = .spirKernel),
          wrapOf m.funcs f.name = if f.isDecl then none else some (mkWrapper f) := by
        intro f hf
        unfold wrapOf
        rw [find?_of_mem_nodup (hker f hf).1 hnd]
      simp only [Function.comp_def]
      rw [List.filterMap_congr e21, filterMap_guard_eq_map_filter, List.filter_filter]
      exact congrArg (List.map mkWrapper)
        (List.filter_congr (fun f _ => Bool.and_comm _ _))
    rw [e1, e2]
  · show m.execModes.map (retargetEM W m.funcs) = _
    refine List.map_congr_left (fun p _ => ?_)
    unfold retargetEM
    by_cases hc : m.funcs.any (fun f => f.name = p.1 && f.conv = .spirKernel && !f.isDecl)
    · rw [if_pos, if_pos hc]
      obtain ⟨f, hfm, hfp⟩ := List.any_eq_true.mp hc
      simp only [Bool.and_eq_true, decide_eq_true_eq, Bool.not_eq_true'] at hfp
      obtain ⟨⟨hfn, hfk⟩, hfd⟩ := hfp
      constructor
      · rw [← hfn]; exact (hmemW f hfm).mpr hfk
      · rw [← hfn, find?_of_mem_nodup hfm hnd]
        simp [hfd]
    · rw [if_neg, if_neg hc]
      intro hcon
      obtain ⟨hmem, hany⟩ := hcon
      obtain ⟨f, hfm, hfn⟩ := hpres p.1 hmem
      rw [← hfn, find?_of_mem_nodup hfm hnd] at hany
      simp only [Option.any_some, Bool.not_eq_true'] at hany
      exact hc (List.any_eq_true.mpr ⟨f, hfm, by
        simp [hfn, (hmemW f hfm).mp (hfn ▸ hmem), hany]⟩)

end Regularize

namespace Regularize

/-- C2 counterexample: a kernel that is never used as a callee anywhere in
the module (the module contains no call instruction at all) is still
wrapped: the pass produces two functions out of one, refuting "functions
not used in both roles are left unwrapped". -/
theorem c2_uncalled_kernel_still_wrapped :
    isUsed sampleModule.funcs sampleKernel.name = false ∧
    addKernelEntryPoint sampleModule =
      { funcs := [{ sampleKernel with conv := .spirFunc },
                  { name := .entryPt (.base "k"), conv := .spirKernel, isDecl := false,
                    linkage := .internalLink, fnMd := [7],
                    body := [{ callee := some (.base "k"), tailCall := false,
                               isExact := false, md := [] }] }],
        execModes := [(.entryPt (.base "k"), 5)] } := by
  refine ⟨rfl, rfl⟩

/-- C2 witness: the amended theorem applied to the one-kernel module, its
hypotheses discharged by computation. -/
theorem c2_every_defined_kernel_wrapped_witness :
    ((sampleModule.funcs.map (fun g => g.name)).Nodup ∧
     ∀ f ∈ sampleModule.funcs, ∀ g ∈ sampleModule.funcs, f.name ≠ .entryPt g.name) ∧
    (addKernelEntryPoint sampleModule).funcs =
      sampleModule.funcs.map demoteKernel ++
        (sampleModule.funcs.filter
          (fun f => f.conv = .spirKernel && !f.isDecl)).map mkWrapper :=
  ⟨⟨by decide, by decide⟩,
   (c2_every_defined_kernel_wrapped sampleModule (by decide) (by decide)).1⟩

end Regularize

namespace Reader

/-- Association lookup on a consed key. -/
theorem find?_key_cons {α : Type} (l : List (Nat × α)) (k k' : Nat) (v : α) :
    ((k, v) :: l).find? (fun p => p.1 = k') =
      if k = k' then some (k, v) else l.find? (fun p => p.1 = k') := by
  by_cases h : k = k' <;> simp [List.find?, h]

/-- `lookupVM` after the `ValueMap[BV] = V` insertion. -/
theorem lookupVM_insert (s s' : RState) (bv : Nat) (v : Nat)
    (h : s'.valueMap = (bv, v) :: s.valueMap) (bv' : Nat) :
    lookupVM s' bv' = if bv = bv' then some v else lookupVM s bv' := by
  unfold lookupVM
  rw [h, find?_key_cons]
  by_cases hb : bv = bv' <;> simp [hb]

/-- `lookupVM` only reads the value map. -/
theorem lookupVM_congr (s s' : RState) (h : s'.valueMap = s.valueMap) :
    lookupVM s' = lookupVM s := by
  funext bv; unfold lookupVM; rw [h]

/-- `descOf` only reads the value table. -/
theorem descOf_congr (s s' : RState) (h : s'.values = s.values) :
    descOf s' = descOf s := by
  funext v; unfold descOf; rw [h]

/-- Whatever `mapValue` returns as `ok` has the new value recorded: the
table entry is the new value afterwards (Forward overwritten by
Resolved). -/
theorem mapValue_ok_lookup (s : RState) (bv : Nat) (v : Nat) :
    ∀ s' v', mapValue s bv v = .ok s' v' →
      v' = v ∧ lookupVM s' bv = some v := by
  intro s' v' h
  unfold mapValue at h
  split at h
  case _ hm =>
    cases h
    refine ⟨rfl, ?_⟩
    rw [lookupVM_insert s _ bv v rfl]
    simp
  case _ old hm =>
    split at h
    case isTrue he =>
      cases h
      exact ⟨rfl, by rw [he] at hm; exact hm⟩
    case isFalse he =>
      split at h
      case _ ptr hd =>
        split at h
        case _ pfxed hp =>
          split at h
          case isTrue hpt =>
            cases h
            refine ⟨rfl, ?_⟩
            rw [lookupVM_insert (rauwErase s old ptr v) _ bv v rfl]
            simp
          case isFalse => cases h
        case _ => cases h
      case _ => cases h

/-- Characterisation of being a placeholder load. -/
theorem isPlaceholderLoad_iff (s : RState) (v : Nat) :
    isPlaceholderLoad s v = true ↔
      ∃ p, descOf s v = some (.load p) ∧ descOf s p = some (.globalVar true) := by
  unfold isPlaceholderLoad
  cases hd : descOf s v with
  | none => simp
  | some d =>
    cases d with
    | globalVar b => simp
    | plain ops => simp
    | load p =>
      cases hp : descOf s p with
      | none => simp [hp]
      | some d' =>
        cases d' with
        | globalVar b => cases b <;> simp [hp]
        | plain ops => simp [hp]
        | load q => simp [hp]

/-- Association search after deleting two keys and mapping the rest. -/
theorem find?_filter_map_key {α : Type} (l : List (Nat × α)) (a b x : Nat)
    (f : α → α) :
    ((l.filter (fun p => ¬(p.1 = a ∨ p.1 = b))).map
        (fun p => (p.1, f p.2))).find? (fun p => p.1 = x) =
      if x = a ∨ x = b then none
      else (l.find? (fun p => p.1 = x)).map (fun p => (p.1, f p.2)) := by
  by_cases hx : x = a ∨ x = b
  · rw [if_pos hx, List.find?_eq_none]
    intro q hq
    obtain ⟨q0, hq0, rfl⟩ := List.mem_map.mp hq
    have h2 := (List.mem_filter.mp hq0).2
    simp only [decide_eq_true_eq] at h2 ⊢
    intro he
    exact h2 (by rw [he]; exact hx)
  · rw [if_neg hx]
    induction l with
    | nil => rfl
    | cons p t ih =>
      by_cases hk : p.1 = a ∨ p.1 = b
      · rw [List.filter_cons_of_neg (by simp only [decide_eq_true_eq, not_not]; exact hk),
            List.find?_cons_of_neg _ (by
              simp only [decide_eq_true_eq]
              intro he
              exact hx (he ▸ hk)), ih]
      · rw [List.filter_cons_of_pos (by simp only [decide_eq_true_eq, not_not]; exact hk),
            List.map_cons]
        by_cases hpx : p.1 = x
        · rw [List.find?_cons_of_pos _ (by simpa using hpx),
              List.find?_cons_of_pos _ (by simpa using hpx)]
          rfl
        · rw [List.find?_cons_of_neg _ (by simpa using hpx),
              List.find?_cons_of_neg _ (by simpa using hpx), ih]

/-- The value table after placeholder resolution: the load and its global
are gone, everything else has its uses of the load rewritten. -/
theorem descOf_rauwErase (s : RState) (ld gv v x : Nat) :
    descOf (rauwErase s ld gv v) x =
      if x = ld ∨ x = gv then none
      else (descOf s x).map (substVD ld v) := by
  unfold descOf rauwErase
  simp only
  rw [find?_filter_map_key]
  by_cases hx : x = ld ∨ x = gv
  · rw [if_pos hx, if_pos hx]
    rfl
  · rw [if_neg hx, if_neg hx]
    cases s.values.find? (fun p => p.1 = x) <;> rfl

/-- `substVD` removes every use of `old` as long as the replacement is
different. -/
theorem not_mem_refsOf_substVD (old new : Nat) (d : VDesc) (h : old ≠ new) :
    old ∉ refsOf (substVD old new d) := by
  cases d with
  | globalVar b => simp [substVD, refsOf]
  | load p =>
    simp only [substVD, refsOf, List.mem_singleton]
    by_cases hp : p = old
    · rw [if_pos hp]
      exact h
    · rw [if_neg hp]
      exact fun he => hp he.symm
  | plain ops =>
    simp only [substVD, refsOf, List.mem_map]
    rintro ⟨o, _, ho⟩
    by_cases hp : o = old
    · rw [if_pos hp] at ho; exact h ho.symm
    · rw [if_neg hp] at ho; exact hp ho

/-- C10: the decode-direction `mapValue` is safe only when a pre-existing
different mapping is a load of a placeholder-prefixed global.  If the old
mapping is not a load at all, the null result of `dyn_cast<LoadInst>` is
dereferenced BEFORE the assertion (undefined behaviour); if it is a load
of something that is not a prefixed global, the assertion fires
(fail-fast).  In neither situation is a translation error reported: the
result type has no error outcome.  On the placeholder shape the call
succeeds, rewrites every use, discards the load and its global, and
resolves the entry. -/
theorem c10_mapValue_requires_placeholder_load (s : RState) (bv : Nat) (v old : Nat)
    (hold : lookupVM s bv = some old) (hne : old ≠ v) :
    ((∀ p, descOf s old ≠ some (.load p)) → mapValue s bv v = .nullDeref) ∧
    (∀ p, descOf s old = some (.load p) →
      ((∀ b, descOf s p ≠ some (.globalVar b)) → mapValue s bv v = .assertFail) ∧
      (descOf s p = some (.globalVar false) → mapValue s bv v = .assertFail)) ∧
    (isPlaceholderLoad s old = true →
      ∃ s', mapValue s bv v = .ok s' v ∧ lookupVM s' bv = some v ∧
        descOf s' old = none ∧ old ∉ s'.stream ∧
        ∀ q ∈ s'.values, old ∉ refsOf q.2) := by
  have hnev : ¬ old = v := hne
  refine ⟨?_, ?_, ?_⟩
  · intro hnl
    unfold mapValue
    rw [hold]
    cases hd : descOf s old with
    | none => simp [hnev]
    | some d =>
      cases d with
      | globalVar b => simp [hnev]
      | plain ops => simp [hnev]
      | load p => exact absurd hd (hnl p)
  · intro p hd
    constructor
    · intro hng
      unfold mapValue
      rw [hold]
      cases hp : descOf s p with
      | none => simp [hnev, hd, hp]
      | some d' =>
        cases d' with
        | globalVar b => exact absurd hp (hng b)
        | plain ops => simp [hnev, hd, hp]
        | load q => simp [hnev, hd, hp]
    · intro hp
      unfold mapValue
      rw [hold]
      simp [hnev, hd, hp]
  · intro hph
    obtain ⟨p, hd, hp⟩ := (isPlaceholderLoad_iff s old).mp hph
    refine ⟨{ rauwErase s old p v with
              valueMap := (bv, v) :: (rauwErase s old p v).valueMap }, ?_, ?_, ?_, ?_, ?_⟩
    · unfold mapValue
      rw [hold]
      simp [hnev, hd, hp]
    · rw [lookupVM_insert (rauwErase s old p v) _ bv v rfl]
      simp
    · show descOf (rauwErase s old p v) old = none
      rw [descOf_rauwErase, if_pos (Or.inl rfl)]
    · show old ∉ (rauwErase s old p v).stream
      simp only [rauwErase]
      intro hmem
      have h2 := (List.mem_filter.mp hmem).2
      simp at h2
    · show ∀ q ∈ (rauwErase s old p v).values, old ∉ refsOf q.2
      simp only [rauwErase]
      intro q hq
      obtain ⟨q0, _, rfl⟩ := List.mem_map.mp hq
      exact not_mem_refsOf_substVD old v q0.2 hne

end Reader

namespace Writer

/-- `lookupW` after the `ValueMap[V] = BV` insertion. -/
theorem lookupW_insert (s s' : WState) (v bv : Nat)
    (h : s'.valueMap = (v, bv) :: s.valueMap) (v' : Nat) :
    lookupW s' v' = if v = v' then some bv else lookupW s v' := by
  unfold lookupW
  rw [h, Reader.find?_key_cons]
  by_cases hb : v = v' <;> simp [hb]

/-- Every `ok` outcome of the writer's `mapValue` records the new value:
the table entry is the real value afterwards. -/
theorem mapValueW_ok_lookup (s : WState) (v bv : Nat) :
    ∀ s' bv', mapValueW s v bv = .ok s' bv' →
      bv' = bv ∧ lookupW s' v = some bv := by
  intro s' bv' h
  unfold mapValueW at h
  split at h
  case _ hm =>
    cases h
    refine ⟨rfl, ?_⟩
    rw [lookupW_insert s _ v bv rfl]
    simp
  case _ old hm =>
    split at h
    case isTrue he =>
      cases h
      exact ⟨rfl, by rw [he] at hm; exact hm⟩
    case isFalse he =>
      split at h
      case isTrue hf =>
        cases h
        refine ⟨rfl, ?_⟩
        rw [lookupW_insert (replaceFwd s old) _ v bv rfl]
        simp
      case isFalse => cases h

end Writer

namespace Reader

/-- An `ofMV` success comes from an `ok` outcome. -/
theorem ofMV_eq_some (r : MVRes) (v : Nat) (s' : RState)
    (h : ofMV r = some (v, s')) : r = .ok s' v := by
  cases r with
  | ok s2 v2 => cases h; rfl
  | nullDeref => cases h
  | assertFail => cases h

/-- Placeholder creation records the placeholder in the table. -/
theorem createPlaceHolderR_lookup (s : RState) (bv : Nat) (v : Nat) (s' : RState)
    (h : createPlaceHolderR s bv = some (v, s')) : lookupVM s' bv = some v := by
  unfold createPlaceHolderR at h
  obtain ⟨h1, h2⟩ := mapValue_ok_lookup _ _ _ _ _ (ofMV_eq_some _ _ _ h)
  rw [h1]
  exact h2

/-- Emitting the real instruction records it in the table. -/
theorem emitInst_lookup (s : RState) (bv : Nat) (vs : List Nat) (v : Nat)
    (s' : RState) (h : emitInst s bv vs = some (v, s')) :
    lookupVM s' bv = some v := by
  unfold emitInst at h
  obtain ⟨h1, h2⟩ := mapValue_ok_lookup _ _ _ _ _ (ofMV_eq_some _ _ _ h)
  rw [h1]
  exact h2

end Reader

namespace Writer

/-- An `ofWMV` success comes from an `ok` outcome. -/
theorem ofWMV_eq_some (r : WMVRes) (bv : Nat) (s' : WState)
    (h : ofWMV r = some (bv, s')) : r = .ok s' bv := by
  cases r with
  | ok s2 v2 => cases h; rfl
  | assertFail => cases h

/-- Creating and mapping a fresh entry records it in the table. -/
theorem addAndMap_lookup (s : WState) (v : Nat) (d : SVDesc) (bv : Nat)
    (s' : WState) (h : addAndMap s v d = some (bv, s')) :
    lookupW s' v = some bv := by
  unfold addAndMap at h
  obtain ⟨h1, h2⟩ := mapValueW_ok_lookup _ _ _ _ _ (ofWMV_eq_some _ _ _ h)
  rw [h1]
  exact h2

end Writer

/-- C3: in both translation directions, a repeated translation request for
an already-mapped construct returns exactly the memoized target construct
and leaves the state unchanged — except while the entry is still in
forward/placeholder state (the reader tests `PlaceholderMap.count(BV) &&
!CreatePlaceHolder`, the writer `isForward() && !CreateForward`, and the
writer additionally bypasses the table for a function requested as a
function pointer); and every successful translation records its result in
the table, so repeated requests after the first successful translation
return that same construct. -/
theorem c3_repeated_translation_memoized :
    (∀ (F : List Reader.SInst) (fuel : Nat) (s : Reader.RState) (bv : Nat)
       (v : Nat) (c : Bool),
      Reader.lookupVM s bv = some v → (bv ∉ s.placeholderSet ∨ c = true) →
      Reader.transValueR F (fuel + 1) s bv c = some (v, s)) ∧
    (∀ (F : List Reader.SInst) (fuel : Nat) (s : Reader.RState) (bv : Nat)
       (c : Bool) (v : Nat) (s' : Reader.RState),
      Reader.transValueR F fuel s bv c = some (v, s') →
      Reader.lookupVM s' bv = some v) ∧
    (∀ (src : List (Nat × Writer.LVKind)) (s : Writer.WState) (v bv : Nat)
       (c fp : Bool),
      Writer.lookupW s v = some bv →
      (¬ Writer.isFwd s bv = true ∨ c = true) →
      ¬(fp = true ∧ ((src.find? (fun p => p.1 = v)).map (fun p => p.2)) =
          some Writer.LVKind.functionV) →
      Writer.transValueW src s v c fp = some (bv, s)) ∧
    (∀ (src : List (Nat × Writer.LVKind)) (s : Writer.WState) (v : Nat)
       (c fp : Bool) (bv : Nat) (s' : Writer.WState),
      ¬(fp = true ∧ ((src.find? (fun p => p.1 = v)).map (fun p => p.2)) =
          some Writer.LVKind.functionV) →
      Writer.transValueW src s v c fp = some (bv, s') →
      Writer.lookupW s' v = some bv) := by
  refine ⟨?_, ?_, ?_, ?_⟩
  · intro F fuel s bv v c hm hc
    unfold Reader.transValueR
    rw [hm]
    simp only [if_pos hc]
  · intro F fuel s bv c v s' h
    cases fuel with
    | zero => cases h
    | succ fuel =>
      unfold Reader.transValueR at h
      have hbody : ∀ (h' : (if c = true then Reader.createPlaceHolderR s bv
          else match F.find? (fun i => i.id = bv) with
            | none => none
            | some inst =>
              match Reader.goOps (Reader.transValueR F fuel) s inst.ops with
              | none => none
              | some (vs, s2) => Reader.emitInst s2 bv vs) = some (v, s')),
          Reader.lookupVM s' bv = some v := by
        intro h'
        by_cases hcp : c = true
        · rw [if_pos hcp] at h'
          exact Reader.createPlaceHolderR_lookup _ _ _ _ h'
        · rw [if_neg hcp] at h'
          split at h'
          next => cases h'
          next inst hf =>
            split at h'
            next => cases h'
            next vs s2 hops => exact Reader.emitInst_lookup _ _ _ _ _ h'
      rcases hm : Reader.lookupVM s bv with _ | v0
      all_goals rw [hm] at h
      all_goals try dsimp only at h
      · exact hbody h
      · split at h
        case isTrue hc =>
          cases h
          exact hm
        case isFalse hc =>
          exact hbody h
  · intro src s v bv c fp hm hc hnp
    unfold Writer.transValueW
    rw [hm]
    simp only [if_pos (And.intro hc hnp)]
  · intro src s v c fp bv s' hnp h
    unfold Writer.transValueW at h
    have hbody : ∀ (h' : (if c = true then Writer.addAndMap s v .forwardEntry
        else match ((src.find? (fun p => p.1 = v)).map (fun p => p.2) :
            Option Writer.LVKind) with
          | some (.constInt w n) => Writer.addAndMap s v (.constEntry w n)
          | some .functionV =>
            if fp = true then
              some (s.nextId,
                { s with entries := s.entries ++ [(s.nextId, .funcPtrEntry)],
                         nextId := s.nextId + 1 })
            else Writer.addAndMap s v .funcEntry
          | none => none) = some (bv, s')),
        Writer.lookupW s' v = some bv := by
      intro h'
      by_cases hcp : c = true
      · rw [if_pos hcp] at h'
        exact Writer.addAndMap_lookup _ _ _ _ _ h'
      · rw [if_neg hcp] at h'
        split at h'
        next w n hk => exact Writer.addAndMap_lookup _ _ _ _ _ h'
        next hk =>
          by_cases hfp : fp = true
          · exact absurd ⟨hfp, hk⟩ hnp
          · rw [if_neg hfp] at h'
            exact Writer.addAndMap_lookup _ _ _ _ _ h'
        next hk => cases h'
    rcases hm : Writer.lookupW s v with _ | bv0
    all_goals rw [hm] at h
    all_goals try dsimp only at h
    · exact hbody h
    · split at h
      case isTrue hc =>
        cases h
        exact hm
      case isFalse hc =>
        exact hbody h

/-- C3 witness: concrete memoized lookups in both directions. -/
theorem c3_repeated_translation_memoized_witness :
    Reader.lookupVM ⟨[(4, 9)], [], [], [], 10⟩ 4 = some 9 ∧
    ((4 : Nat) ∉ ([] : List Nat) ∨ true = true) ∧
    Reader.transValueR [] 3 ⟨[(4, 9)], [], [], [], 10⟩ 4 true =
      some (9, ⟨[(4, 9)], [], [], [], 10⟩) ∧
    Writer.lookupW ⟨[(2, 6)], [(6, .constEntry 32 5)], 7⟩ 2 = some 6 ∧
    Writer.transValueW [] ⟨[(2, 6)], [(6, .constEntry 32 5)], 7⟩ 2 false false =
      some (6, ⟨[(2, 6)], [(6, .constEntry 32 5)], 7⟩) :=
  ⟨rfl, Or.inr rfl,
   c3_repeated_translation_memoized.1 [] 2 ⟨[(4, 9)], [], [], [], 10⟩ 4 9 true
     rfl (Or.inr rfl),
   rfl,
   c3_repeated_translation_memoized.2.2.1 [] ⟨[(2, 6)], [(6, .constEntry 32 5)], 7⟩
     2 6 false false rfl (Or.inl (by decide)) (by decide)⟩

namespace Reader

/-- C10 witness: the theorem applied to a state whose entry for SPIRV id 5
is the placeholder load 7 of the prefixed global 6. -/
theorem c10_mapValue_requires_placeholder_load_witness :
    lookupVM ⟨[(5, 7)], [5], [(7, .load 6), (6, .globalVar true)], [7], 8⟩ 5 =
      some 7 ∧
    (7 : Nat) ≠ 9 ∧
    (isPlaceholderLoad ⟨[(5, 7)], [5], [(7, .load 6), (6, .globalVar true)], [7], 8⟩
        7 = true →
      ∃ s', mapValue ⟨[(5, 7)], [5], [(7, .load 6), (6, .globalVar true)], [7], 8⟩
          5 9 = .ok s' 9 ∧
        lookupVM s' 5 = some 9 ∧ descOf s' 7 = none ∧ 7 ∉ s'.stream ∧
        ∀ q ∈ s'.values, 7 ∉ refsOf q.2) :=
  ⟨rfl, by decide,
   (c10_mapValue_requires_placeholder_load
     ⟨[(5, 7)], [5], [(7, .load 6), (6, .globalVar true)], [7], 8⟩ 5 9 7
     rfl (by decide)).2.2⟩

end Reader

namespace Reader

/-- A key below every key bound is not found among fresh keys. -/
theorem find?_key_none_of_bound {α : Type} (l : List (Nat × α)) (n x : Nat)
    (hb : ∀ p ∈ l, p.1 < n) (hx : n ≤ x) :
    l.find? (fun p => p.1 = x) = none := by
  rw [List.find?_eq_none]
  intro p hp
  simp only [decide_eq_true_eq]
  intro he
  exact absurd (he ▸ hb p hp) (Nat.not_lt.mpr hx)

/-- `descOf` is stable under appending values when the id is already
present. -/
theorem descOf_append_found (s s' : RState) (L : List (Nat × VDesc))
    (hv : s'.values = s.values ++ L) (x : Nat) (d : VDesc)
    (hfound : descOf s x = some d) : descOf s' x = some d := by
  unfold descOf at hfound ⊢
  rw [hv, List.find?_append]
  cases hf : s.values.find? (fun p => p.1 = x) with
  | none => rw [hf] at hfound; cases hfound
  | some p =>
    rw [hf] at hfound
    rw [Option.or_some]
    exact hfound

/-- `descOf` after appending values, for an id absent before. -/
theorem descOf_append_new (s s' : RState) (L : List (Nat × VDesc))
    (hv : s'.values = s.values ++ L) (x : Nat)
    (hnone : descOf s x = none) :
    descOf s' x = (L.find? (fun p => p.1 = x)).map (fun p => p.2) := by
  unfold descOf at hnone ⊢
  rw [hv, List.find?_append]
  cases hf : s.values.find? (fun p => p.1 = x) with
  | none => simp
  | some p => rw [hf] at hnone; cases hnone

/-- A found description comes from the old values or from the appended
ones. -/
theorem descOf_append_cases (s s' : RState) (L : List (Nat × VDesc))
    (hv : s'.values = s.values ++ L) (x : Nat) (d : VDesc)
    (hfound : descOf s' x = some d) :
    descOf s x = some d ∨
      (descOf s x = none ∧ (L.find? (fun p => p.1 = x)).map (fun p => p.2) = some d) := by
  cases hf : descOf s x with
  | some d' =>
    left
    rw [descOf_append_found s s' L hv x d' hf] at hfound
    exact hfound
  | none =>
    right
    rw [descOf_append_new s s' L hv x hf] at hfound
    exact ⟨rfl, hfound⟩

/-- Membership of a found association pair. -/
theorem find?_key_mem {α : Type} {l : List (Nat × α)} {x : Nat} {p : Nat × α}
    (h : l.find? (fun q => q.1 = x) = some p) : p ∈ l ∧ p.1 = x := by
  refine ⟨List.mem_of_find?_eq_some h, ?_⟩
  have := List.find?_some h
  simpa using this

/-- `descOf … = some d` exhibits a member pair. -/
theorem descOf_mem (s : RState) (x : Nat) (d : VDesc)
    (h : descOf s x = some d) : (x, d) ∈ s.values := by
  unfold descOf at h
  cases hf : s.values.find? (fun p => p.1 = x) with
  | none => rw [hf] at h; cases h
  | some p =>
    rw [hf] at h
    obtain ⟨hmem, hkey⟩ := find?_key_mem hf
    cases h
    cases p
    cases hkey
    exact hmem

/-- With nodup keys, a member pair is found. -/
theorem find?_assoc_of_mem_nodup {α : Type} (l : List (Nat × α)) (x : Nat) (d : α)
    (hnd : (l.map (fun p => p.1)).Nodup) (hmem : (x, d) ∈ l) :
    l.find? (fun p => p.1 = x) = some (x, d) := by
  induction l with
  | nil => cases hmem
  | cons q t ih =>
    rcases List.mem_cons.mp hmem with rfl | hmem2
    · simp [List.find?]
    · have hne : q.1 ≠ x := by
        intro he
        rw [List.map_cons, List.nodup_cons] at hnd
        exact hnd.1 (he ▸ List.mem_map.mpr ⟨(x, d), hmem2, rfl⟩)
      rw [List.find?_cons_of_neg _ (by simpa using hne)]
      exact ih (List.map_cons _ _ _ ▸ hnd).of_cons hmem2

/-- With nodup keys, a member value pair determines `descOf`. -/
theorem descOf_of_mem_nodup (s : RState) (x : Nat) (d : VDesc)
    (hnd : (s.values.map (fun p => p.1)).Nodup)
    (hmem : (x, d) ∈ s.values) : descOf s x = some d := by
  unfold descOf
  rw [find?_assoc_of_mem_nodup s.values x d hnd hmem]
  rfl

/-- `refsOf` after a substitution. -/
theorem refsOf_substVD (old new : Nat) (d : VDesc) :
    refsOf (substVD old new d) = (refsOf d).map (fun o => if o = old then new else o) := by
  cases d <;> rfl

/-- Placeholder creation: the fresh load is recorded for `bv`, previous
mappings survive, and the protocol invariant is preserved (the new load is
a placeholder load owned by the not-yet-processed id `bv`). -/
theorem createPlaceHolderR_spec (F : List SInst) (P : List Nat) (s : RState) (bv : Nat)
    (hI : protoInv F P s) (hbv : bv ∈ F.map (fun i => i.id)) (hbvP : bv ∉ P)
    (hnm : lookupVM s bv = none) :
    ∃ v s', createPlaceHolderR s bv = some (v, s') ∧ lookupVM s' bv = some v ∧
      protoInv F P s' ∧ (∀ b w, lookupVM s b = some w → lookupVM s' b = some w) := by
  obtain ⟨⟨f1, f2, f3, f4, f5⟩, ⟨c1, c2⟩, ⟨g1, g2, g3, g4, g5⟩, i4, i5, i6, i7, i8⟩ := hI
  have main : ∀ s' : RState,
      s'.valueMap = (bv, s.nextId + 1) :: s.valueMap →
      s'.placeholderSet = bv :: s.placeholderSet →
      s'.values = s.values ++
        [(s.nextId, VDesc.globalVar true), (s.nextId + 1, VDesc.load s.nextId)] →
      s'.stream = s.stream ++ [s.nextId + 1] →
      s'.nextId = s.nextId + 2 →
      lookupVM s' bv = some (s.nextId + 1) ∧ protoInv F P s' ∧
        (∀ b w, lookupVM s b = some w → lookupVM s' b = some w) := by
    intro s' hm hp hv hst hn
    have hgvnone : descOf s s.nextId = none := by
      unfold descOf
      rw [find?_key_none_of_bound s.values s.nextId s.nextId f2 (le_refl _)]
      rfl
    have hldnone : descOf s (s.nextId + 1) = none := by
      unfold descOf
      rw [find?_key_none_of_bound s.values s.nextId (s.nextId + 1) f2 (by omega)]
      rfl
    have hDgv : descOf s' s.nextId = some (.globalVar true) := by
      rw [descOf_append_new s s' _ hv _ hgvnone]
      simp [List.find?]
    have hne1 : ¬ s.nextId = s.nextId + 1 := by omega
    have hDld : descOf s' (s.nextId + 1) = some (.load s.nextId) := by
      rw [descOf_append_new s s' _ hv _ hldnone]
      simp [List.find?, hne1]
    have hDold : ∀ x d, descOf s x = some d → descOf s' x = some d :=
      fun x d h => descOf_append_found s s' _ hv x d h
    have hkey : ∀ x d, descOf s x = some d → x < s.nextId :=
      fun x d h => f2 _ (descOf_mem s x d h)
    have hrefs : ∀ x d, descOf s x = some d → ∀ r ∈ refsOf d, r < s.nextId :=
      fun x d h => f3 _ (descOf_mem s x d h)
    have hDcases : ∀ x d, descOf s' x = some d →
        descOf s x = some d ∨ (x = s.nextId ∧ d = .globalVar true) ∨
          (x = s.nextId + 1 ∧ d = .load s.nextId) := by
      intro x d h
      rcases descOf_append_cases s s' _ hv x d h with h1 | ⟨_, h2⟩
      · exact Or.inl h1
      · right
        by_cases hx1 : s.nextId = x
        · subst hx1
          rw [show ([(s.nextId, VDesc.globalVar true),
                (s.nextId + 1, VDesc.load s.nextId)].find? (fun p => p.1 = s.nextId)) =
              some (s.nextId, VDesc.globalVar true) from by simp [List.find?]] at h2
          cases h2
          exact Or.inl ⟨rfl, rfl⟩
        · by_cases hx2 : s.nextId + 1 = x
          · subst hx2
            rw [show ([(s.nextId, VDesc.globalVar true),
                  (s.nextId + 1, VDesc.load s.nextId)].find? (fun p => p.1 = s.nextId + 1)) =
                some (s.nextId + 1, VDesc.load s.nextId) from by simp [List.find?, hne1]] at h2
            cases h2
            exact Or.inr ⟨rfl, rfl⟩
          · rw [show ([(s.nextId, VDesc.globalVar true),
                  (s.nextId + 1, VDesc.load s.nextId)].find? (fun p => p.1 = x)) =
                none from by simp [List.find?, hx1, hx2]] at h2
            cases h2
    have hLK : ∀ b, lookupVM s' b = if bv = b then some (s.nextId + 1) else lookupVM s b :=
      fun b => lookupVM_insert s s' bv _ hm b
    have hPL : ∀ x, isPlaceholderLoad s x = true → isPlaceholderLoad s' x = true := by
      intro x h
      rw [isPlaceholderLoad_iff] at h ⊢
      obtain ⟨p, h1, h2⟩ := h
      exact ⟨p, hDold _ _ h1, hDold _ _ h2⟩
    have hLKbv : lookupVM s' bv = some (s.nextId + 1) := by rw [hLK]; simp
    have hpres : ∀ b w, lookupVM s b = some w → lookupVM s' b = some w := by
      intro b w h
      rw [hLK]
      by_cases hb : bv = b
      · rw [← hb] at h; rw [hnm] at h; cases h
      · rw [if_neg hb]; exact h
    refine ⟨hLKbv, ⟨⟨?_, ?_, ?_, ?_, ?_⟩, ⟨?_, ?_⟩, ⟨?_, ?_, ?_, ?_, ?_⟩, ?_, ?_, ?_, ?_, ?_⟩, hpres⟩
    · -- valueMap values fresh
      intro p hpm
      rw [hm, List.mem_cons] at hpm
      rw [hn]
      rcases hpm with rfl | hpm
      · show s.nextId + 1 < s.nextId + 2
        omega
      · have := f1 p hpm; omega
    · -- value keys fresh
      intro p hpm
      rw [hv, List.mem_append, List.mem_cons, List.mem_singleton] at hpm
      rw [hn]
      rcases hpm with hpm | rfl | rfl
      · have := f2 p hpm; omega
      · omega
      · omega
    · -- value refs fresh
      intro p hpm r hr
      rw [hv, List.mem_append, List.mem_cons, List.mem_singleton] at hpm
      rw [hn]
      rcases hpm with hpm | rfl | rfl
      · have := f3 p hpm r hr; omega
      · cases hr
      · simp only [refsOf, List.mem_singleton] at hr
        omega
    · -- stream fresh
      intro v hvm
      rw [hst, List.mem_append, List.mem_singleton] at hvm
      rw [hn]
      rcases hvm with hvm | rfl
      · have := f4 v hvm; omega
      · omega
    · -- value keys nodup
      rw [hv, List.map_append, List.nodup_append]
      refine ⟨f5, by simp [hne1], ?_⟩
      intro a ha hb
      simp only [List.map_cons, List.map_nil, List.mem_cons, List.mem_singleton,
        List.not_mem_nil, or_false] at hb
      obtain ⟨p, hpm, rfl⟩ := List.mem_map.mp ha
      have := f2 p hpm
      rcases hb with hb | hb <;> omega
    · -- stream closed
      intro v hvm
      rw [hst, List.mem_append, List.mem_singleton] at hvm
      rcases hvm with hvm | rfl
      · obtain ⟨d, hd⟩ := Option.isSome_iff_exists.mp (c1 v hvm)
        rw [hDold v d hd]
        rfl
      · rw [hDld]
        rfl
    · -- refs closed
      intro p hpm r hr
      rw [hv, List.mem_append, List.mem_cons, List.mem_singleton] at hpm
      rcases hpm with hpm | rfl | rfl
      · obtain ⟨d, hd⟩ := Option.isSome_iff_exists.mp (c2 p hpm r hr)
        rw [hDold r d hd]
        rfl
      · cases hr
      · simp only [refsOf, List.mem_singleton] at hr
        subst hr
        rw [hDgv]
        rfl
    · -- loads read prefixed globals
      intro p hpm q hq
      rw [hv, List.mem_append, List.mem_cons, List.mem_singleton] at hpm
      rcases hpm with hpm | rfl | rfl
      · exact hDold _ _ (g1 p hpm q hq)
      · cases hq
      · cases hq
        exact hDgv
    · -- globals referenced only by their load
      intro p hpm r hr b hb
      rw [hv, List.mem_append, List.mem_cons, List.mem_singleton] at hpm
      rcases hpm with hpm | rfl | rfl
      · have hrlt : r < s.nextId := f3 p hpm r hr
        rcases hDcases r _ hb with hb' | ⟨rfl, _⟩ | ⟨rfl, _⟩
        · exact g2 p hpm r hr b hb'
        · omega
        · omega
      · cases hr
      · simp only [refsOf, List.mem_singleton] at hr
        subst hr
        rfl
    · -- distinct loads, distinct globals
      intro p hpm p' hpm' q hq hq'
      rw [hv, List.mem_append, List.mem_cons, List.mem_singleton] at hpm hpm'
      rcases hpm with hpm | rfl | rfl <;> rcases hpm' with hpm' | rfl | rfl
      · exact g3 p hpm p' hpm' q hq hq'
      · cases hq'
      · cases hq'
        have := f3 p hpm _ (by rw [hq]; exact List.mem_singleton.mpr rfl)
        omega
      · cases hq
      · rfl
      · cases hq
      · cases hq
        have := f3 p' hpm' _ (by rw [hq']; exact List.mem_singleton.mpr rfl)
        omega
      · cases hq'
      · rfl
    · -- stream holds no globals
      intro v hvm b hb
      rw [hst, List.mem_append, List.mem_singleton] at hvm
      rcases hvm with hvm | rfl
      · have hvlt := f4 v hvm
        rcases hDcases v _ hb with hb' | ⟨rfl, _⟩ | ⟨rfl, heq⟩
        · exact g4 v hvm b hb'
        · omega
        · omega
      · rw [hDld] at hb
        cases hb
    · -- plain operands are mapped
      intro p hpm ops hops o ho
      rw [hv, List.mem_append, List.mem_cons, List.mem_singleton] at hpm
      rcases hpm with hpm | rfl | rfl
      · obtain ⟨b, hb⟩ := g5 p hpm ops hops o ho
        exact ⟨b, hpres b o hb⟩
      · cases hops
      · cases hops
    · -- processed ids map to plain values
      intro b hbP
      obtain ⟨v, ops, hbm, hdm⟩ := i4 b hbP
      exact ⟨v, ops, hpres b v hbm, hDold v _ hdm⟩
    · -- mapped ids are processed or placeholdered
      intro b v hbm
      rw [hLK] at hbm
      rw [hp]
      by_cases hb : bv = b
      · right
        rw [← hb]
        exact List.mem_cons_self _ _
      · rw [if_neg hb] at hbm
        rcases i5 b v hbm with h | h
        · exact Or.inl h
        · exact Or.inr (List.mem_cons_of_mem _ h)
    · -- placeholder loads are owned
      intro x hx
      rw [isPlaceholderLoad_iff] at hx
      obtain ⟨p, h1, h2⟩ := hx
      rcases hDcases x _ h1 with h1' | ⟨rfl, heq⟩ | ⟨rfl, heq⟩
      · have hplt : p < s.nextId := hrefs x _ h1' p (List.mem_singleton.mpr rfl)
        rcases hDcases p _ h2 with h2' | ⟨rfl, _⟩ | ⟨rfl, _⟩
        · obtain ⟨b, hbF, hbP', hbm⟩ := i6 x (by
            rw [isPlaceholderLoad_iff]
            exact ⟨p, h1', h2'⟩)
          exact ⟨b, hbF, hbP', hpres b x hbm⟩
        · omega
        · omega
      · cases heq
      · cases heq
        rw [hDgv] at h2
        exact ⟨bv, hbv, hbvP, hLKbv⟩
    · -- unprocessed mapped ids are placeholdered
      intro b v hbm hbP'
      rw [hLK] at hbm
      by_cases hb : bv = b
      · rw [if_pos hb] at hbm
        cases hbm
        rw [isPlaceholderLoad_iff]
        exact ⟨s.nextId, hDld, hDgv⟩
      · rw [if_neg hb] at hbm
        exact hPL v (i7 b v hbm hbP')
    · -- map is injective
      intro b1 b2 v h1 h2
      rw [hLK] at h1 h2
      have hbound : ∀ b w, lookupVM s b = some w → w < s.nextId := by
        intro b w h
        unfold lookupVM at h
        cases hf : s.valueMap.find? (fun p => p.1 = b) with
        | none => rw [hf] at h; cases h
        | some q =>
          rw [hf] at h
          cases h
          exact f1 q (List.mem_of_find?_eq_some hf)
      by_cases hb1 : bv = b1 <;> by_cases hb2 : bv = b2
      · omega
      · rw [if_pos hb1] at h1
        rw [if_neg hb2] at h2
        cases h1
        have := hbound b2 _ h2
        omega
      · rw [if_neg hb1] at h1
        rw [if_pos hb2] at h2
        cases h2
        have := hbound b1 _ h1
        omega
      · rw [if_neg hb1] at h1
        rw [if_neg hb2] at h2
        exact i8 b1 b2 v h1 h2
  refine ⟨s.nextId + 1,
    { valueMap := (bv, s.nextId + 1) :: s.valueMap,
      placeholderSet := bv :: s.placeholderSet,
      values := s.values ++
        [(s.nextId, VDesc.globalVar true), (s.nextId + 1, VDesc.load s.nextId)],
      stream := s.stream ++ [s.nextId + 1],
      nextId := s.nextId + 2 }, ?_, main _ rfl rfl rfl rfl rfl⟩
  have h1 : lookupVM
      { s with
        values := s.values ++
          [(s.nextId, VDesc.globalVar true), (s.nextId + 1, VDesc.load s.nextId)],
        stream := s.stream ++ [s.nextId + 1],
        placeholderSet := bv :: s.placeholderSet,
        nextId := s.nextId + 2 } bv = none := hnm
  unfold createPlaceHolderR
  dsimp only
  unfold mapValue
  rw [h1]
  rfl

/-- An operand translation (`CreatePlaceHolder` set): always succeeds in
one step, leaves the operand mapped, preserves the invariant and all
existing mappings. -/
theorem transValueR_true_spec (F : List SInst) (P : List Nat) (fuel : Nat) (s : RState)
    (o : Nat) (hI : protoInv F P s) (ho : o ∈ F.map (fun i => i.id)) :
    ∃ v s', transValueR F (fuel + 1) s o true = some (v, s') ∧
      lookupVM s' o = some v ∧ protoInv F P s' ∧
      (∀ b w, lookupVM s b = some w → lookupVM s' b = some w) := by
  cases hm : lookupVM s o with
  | some v =>
    refine ⟨v, s, ?_, hm, hI, fun b w h => h⟩
    unfold transValueR
    dsimp only
    rw [hm]
    dsimp only
    rw [if_pos (Or.inr rfl)]
  | none =>
    have hoP : o ∉ P := by
      intro hmem
      obtain ⟨v, ops, hl, _⟩ := hI.2.2.2.1 o hmem
      rw [hm] at hl
      cases hl
    obtain ⟨v, s', hrun, hlk, hI', hpres⟩ := createPlaceHolderR_spec F P s o hI ho hoP hm
    refine ⟨v, s', ?_, hlk, hI', hpres⟩
    unfold transValueR
    dsimp only
    rw [hm]
    dsimp only
    rw [if_pos rfl]
    exact hrun

/-- Translating an operand list preserves the invariant and existing
mappings, and yields translated (mapped) values. -/
theorem goOps_spec (F : List SInst) (P : List Nat) (fuel : Nat) :
    ∀ (ops : List Nat) (s : RState), protoInv F P s →
      (∀ o ∈ ops, o ∈ F.map (fun i => i.id)) →
      ∃ vs s2, goOps (transValueR F (fuel + 1)) s ops = some (vs, s2) ∧
        protoInv F P s2 ∧
        (∀ b w, lookupVM s b = some w → lookupVM s2 b = some w) ∧
        (∀ v ∈ vs, ∃ b, lookupVM s2 b = some v) := by
  intro ops
  induction ops with
  | nil =>
    intro s hI _
    exact ⟨[], s, rfl, hI, fun b w h => h, by intro v hv; cases hv⟩
  | cons o rest ih =>
    intro s hI hcl
    obtain ⟨v, s1, h1, hlk1, hI1, hp1⟩ :=
      transValueR_true_spec F P fuel s o hI (hcl o (List.mem_cons_self _ _))
    obtain ⟨vs, s2, h2, hI2, hp2, hmap⟩ :=
      ih s1 hI1 (fun o' ho' => hcl o' (List.mem_cons_of_mem _ ho'))
    refine ⟨v :: vs, s2, ?_, hI2, fun b w h => hp2 b w (hp1 b w h), ?_⟩
    · unfold goOps
      rw [h1]
      dsimp only
      rw [h2]
    · intro w hw
      rcases List.mem_cons.mp hw with rfl | hw'
      · exact ⟨o, hp2 o w hlk1⟩
      · exact hmap w hw'

/-- With nodup ids, a member instruction is found by id. -/
theorem find?_sinst_of_mem_nodup (F : List SInst) (inst : SInst)
    (hnd : (F.map (fun i => i.id)).Nodup) (hmem : inst ∈ F) :
    F.find? (fun i => i.id = inst.id) = some inst := by
  induction F with
  | nil => cases hmem
  | cons j t ih =>
    rcases List.mem_cons.mp hmem with rfl | hmem2
    · simp [List.find?]
    · have hne : j.id ≠ inst.id := by
        intro he
        rw [List.map_cons, List.nodup_cons] at hnd
        exact hnd.1 (he ▸ List.mem_map.mpr ⟨inst, hmem2, rfl⟩)
      rw [List.find?_cons_of_neg _ (by simpa using hne)]
      exact ih (List.map_cons _ _ _ ▸ hnd).of_cons hmem2

/-- A value mapped by the protocol state has a description (real values
are plain, pending values are placeholder loads). -/
theorem mapped_desc_isSome (F : List SInst) (P : List Nat) (s : RState)
    (hI : protoInv F P s) (b w : Nat) (h : lookupVM s b = some w) :
    (descOf s w).isSome := by
  by_cases hb : b ∈ P
  · obtain ⟨v, ops, hl, hd⟩ := hI.2.2.2.1 b hb
    rw [h] at hl
    cases hl
    rw [hd]
    rfl
  · have := hI.2.2.2.2.2.2.1 b w h hb
    rw [isPlaceholderLoad_iff] at this
    obtain ⟨p, h1, _⟩ := this
    rw [h1]
    rfl

/-- A mapped value is never a global variable. -/
theorem mapped_not_global (F : List SInst) (P : List Nat) (s : RState)
    (hI : protoInv F P s) (b w : Nat) (h : lookupVM s b = some w) (c : Bool)
    (hg : descOf s w = some (.globalVar c)) : False := by
  by_cases hb : b ∈ P
  · obtain ⟨v, ops, hl, hd⟩ := hI.2.2.2.1 b hb
    rw [h] at hl
    cases hl
    rw [hg] at hd
    cases hd
  · have := hI.2.2.2.2.2.2.1 b w h hb
    rw [isPlaceholderLoad_iff] at this
    obtain ⟨p, h1, _⟩ := this
    rw [hg] at h1
    cases h1

/-- Mapped values are below the fresh-id counter. -/
theorem mapped_lt_nextId (s : RState) (hf : ∀ p ∈ s.valueMap, p.2 < s.nextId)
    (b w : Nat) (h : lookupVM s b = some w) : w < s.nextId := by
  unfold lookupVM at h
  cases hfind : s.valueMap.find? (fun p => p.1 = b) with
  | none => rw [hfind] at h; cases h
  | some q =>
    rw [hfind] at h
    cases h
    exact hf q (List.mem_of_find?_eq_some hfind)

/-- Emitting the real instruction when no placeholder is pending (first
mapping of `bv`): the state extended with the new plain value satisfies
the invariant with `bv` now processed. -/
theorem emit_fresh_protoInv (F : List SInst) (P : List Nat) (s : RState) (bv : Nat)
    (vs : List Nat) (hI : protoInv F P s) (hbv : bv ∈ F.map (fun i => i.id))
    (hnm : lookupVM s bv = none)
    (hvs : ∀ o ∈ vs, ∃ b, lookupVM s b = some o) :
    ∀ s' : RState,
      s'.valueMap = (bv, s.nextId) :: s.valueMap →
      s'.placeholderSet = s.placeholderSet →
      s'.values = s.values ++ [(s.nextId, VDesc.plain vs)] →
      s'.stream = s.stream ++ [s.nextId] →
      s'.nextId = s.nextId + 1 →
      protoInv F (P ++ [bv]) s' := by
  obtain ⟨⟨f1, f2, f3, f4, f5⟩, ⟨c1, c2⟩, ⟨g1, g2, g3, g4, g5⟩, i4, i5, i6, i7, i8⟩ := hI
  have hIfull : protoInv F P s :=
    ⟨⟨f1, f2, f3, f4, f5⟩, ⟨c1, c2⟩, ⟨g1, g2, g3, g4, g5⟩, i4, i5, i6, i7, i8⟩
  intro s' hm hp hv hst hn
  have hbvP : bv ∉ P := by
    intro hmem
    obtain ⟨v, ops, hl, _⟩ := i4 bv hmem
    rw [hnm] at hl
    cases hl
  have hvnone : descOf s s.nextId = none := by
    unfold descOf
    rw [find?_key_none_of_bound s.values s.nextId s.nextId f2 (le_refl _)]
    rfl
  have hDn : descOf s' s.nextId = some (.plain vs) := by
    rw [descOf_append_new s s' _ hv _ hvnone]
    simp [List.find?]
  have hDold : ∀ x d, descOf s x = some d → descOf s' x = some d :=
    fun x d h => descOf_append_found s s' _ hv x d h
  have hkey : ∀ x d, descOf s x = some d → x < s.nextId :=
    fun x d h => f2 _ (descOf_mem s x d h)
  have hDcases : ∀ x d, descOf s' x = some d →
      descOf s x = some d ∨ (x = s.nextId ∧ d = .plain vs) := by
    intro x d h
    rcases descOf_append_cases s s' _ hv x d h with h1 | ⟨_, h2⟩
    · exact Or.inl h1
    · right
      by_cases hx1 : s.nextId = x
      · subst hx1
        rw [show ([(s.nextId, VDesc.plain vs)].find? (fun p => p.1 = s.nextId)) =
            some (s.nextId, VDesc.plain vs) from by simp [List.find?]] at h2
        cases h2
        exact ⟨rfl, rfl⟩
      · rw [show ([(s.nextId, VDesc.plain vs)].find? (fun p => p.1 = x)) =
            none from by simp [List.find?, hx1]] at h2
        cases h2
  have hvslt : ∀ o ∈ vs, o < s.nextId := by
    intro o ho
    obtain ⟨b, hb⟩ := hvs o ho
    exact mapped_lt_nextId s f1 b o hb
  have hLK : ∀ b, lookupVM s' b = if bv = b then some s.nextId else lookupVM s b :=
    fun b => lookupVM_insert s s' bv _ hm b
  have hpres : ∀ b w, lookupVM s b = some w → lookupVM s' b = some w := by
    intro b w h
    rw [hLK]
    by_cases hb : bv = b
    · rw [← hb] at h
      rw [hnm] at h
      cases h
    · rw [if_neg hb]
      exact h
  have hLKbv : lookupVM s' bv = some s.nextId := by rw [hLK]; simp
  have hPL : ∀ x, isPlaceholderLoad s x = true → isPlaceholderLoad s' x = true := by
    intro x h
    rw [isPlaceholderLoad_iff] at h ⊢
    obtain ⟨p, h1, h2⟩ := h
    exact ⟨p, hDold _ _ h1, hDold _ _ h2⟩
  refine ⟨⟨?_, ?_, ?_, ?_, ?_⟩, ⟨?_, ?_⟩, ⟨?_, ?_, ?_, ?_, ?_⟩, ?_, ?_, ?_, ?_, ?_⟩
  · -- valueMap values fresh
    intro p hpm
    rw [hm, List.mem_cons] at hpm
    rw [hn]
    rcases hpm with rfl | hpm
    · show s.nextId < s.nextId + 1
      omega
    · have := f1 p hpm
      omega
  · -- value keys fresh
    intro p hpm
    rw [hv, List.mem_append, List.mem_singleton] at hpm
    rw [hn]
    rcases hpm with hpm | rfl
    · have := f2 p hpm
      omega
    · show s.nextId < s.nextId + 1
      omega
  · -- value refs fresh
    intro p hpm r hr
    rw [hv, List.mem_append, List.mem_singleton] at hpm
    rw [hn]
    rcases hpm with hpm | rfl
    · have := f3 p hpm r hr
      omega
    · simp only [refsOf] at hr
      have := hvslt r hr
      omega
  · -- stream fresh
    intro v hvm
    rw [hst, List.mem_append, List.mem_singleton] at hvm
    rw [hn]
    rcases hvm with hvm | rfl
    · have := f4 v hvm
      omega
    · show s.nextId < s.nextId + 1
      omega
  · -- value keys nodup
    rw [hv, List.map_append, List.nodup_append]
    refine ⟨f5, List.nodup_singleton _, ?_⟩
    intro a ha hb
    simp only [List.map_cons, List.map_nil, List.mem_singleton] at hb
    obtain ⟨p, hpm, rfl⟩ := List.mem_map.mp ha
    have := f2 p hpm
    omega
  · -- stream closed
    intro v hvm
    rw [hst, List.mem_append, List.mem_singleton] at hvm
    rcases hvm with hvm | rfl
    · obtain ⟨d, hd⟩ := Option.isSome_iff_exists.mp (c1 v hvm)
      rw [hDold v d hd]
      rfl
    · rw [hDn]
      rfl
  · -- refs closed
    intro p hpm r hr
    rw [hv, List.mem_append, List.mem_singleton] at hpm
    rcases hpm with hpm | rfl
    · obtain ⟨d, hd⟩ := Option.isSome_iff_exists.mp (c2 p hpm r hr)
      rw [hDold r d hd]
      rfl
    · simp only [refsOf] at hr
      obtain ⟨b, hb⟩ := hvs r hr
      obtain ⟨d, hd⟩ := Option.isSome_iff_exists.mp
        (mapped_desc_isSome F P s hIfull b r hb)
      rw [hDold r d hd]
      rfl
  · -- loads read prefixed globals
    intro p hpm q hq
    rw [hv, List.mem_append, List.mem_singleton] at hpm
    rcases hpm with hpm | rfl
    · exact hDold _ _ (g1 p hpm q hq)
    · cases hq
  · -- globals referenced only by their load
    intro p hpm r hr b hb
    rw [hv, List.mem_append, List.mem_singleton] at hpm
    rcases hpm with hpm | rfl
    · have hrlt : r < s.nextId := f3 p hpm r hr
      rcases hDcases r _ hb with hb' | ⟨rfl, _⟩
      · exact g2 p hpm r hr b hb'
      · omega
    · simp only [refsOf] at hr
      rcases hDcases r _ hb with hb' | ⟨rfl, heq⟩
      · obtain ⟨b', hb'2⟩ := hvs r hr
        exact absurd hb' (fun h => mapped_not_global F P s hIfull b' r hb'2 b h)
      · cases heq
  · -- distinct loads, distinct globals
    intro p hpm p' hpm' q hq hq'
    rw [hv, List.mem_append, List.mem_singleton] at hpm hpm'
    rcases hpm with hpm | rfl <;> rcases hpm' with hpm' | rfl
    · exact g3 p hpm p' hpm' q hq hq'
    · cases hq'
    · cases hq
    · rfl
  · -- stream holds no globals
    intro v hvm b hb
    rw [hst, List.mem_append, List.mem_singleton] at hvm
    rcases hvm with hvm | rfl
    · rcases hDcases v _ hb with hb' | ⟨rfl, heq⟩
      · exact g4 v hvm b hb'
      · cases heq
    · rw [hDn] at hb
      cases hb
  · -- plain operands are mapped
    intro p hpm ops hops o ho
    rw [hv, List.mem_append, List.mem_singleton] at hpm
    rcases hpm with hpm | rfl
    · obtain ⟨b, hb⟩ := g5 p hpm ops hops o ho
      exact ⟨b, hpres b o hb⟩
    · cases hops
      obtain ⟨b, hb⟩ := hvs o ho
      exact ⟨b, hpres b o hb⟩
  · -- processed ids map to plain values
    intro b hbP
    rw [List.mem_append, List.mem_singleton] at hbP
    rcases hbP with hbP | rfl
    · obtain ⟨v, ops, hbm, hdm⟩ := i4 b hbP
      exact ⟨v, ops, hpres b v hbm, hDold v _ hdm⟩
    · exact ⟨s.nextId, vs, hLKbv, hDn⟩
  · -- mapped ids are processed or placeholdered
    intro b v hbm
    rw [hLK] at hbm
    rw [hp]
    by_cases hb : bv = b
    · left
      rw [← hb, List.mem_append, List.mem_singleton]
      exact Or.inr rfl
    · rw [if_neg hb] at hbm
      rcases i5 b v hbm with h | h
      · exact Or.inl (List.mem_append.mpr (Or.inl h))
      · exact Or.inr h
  · -- placeholder loads are owned
    intro x hx
    rw [isPlaceholderLoad_iff] at hx
    obtain ⟨p, h1, h2⟩ := hx
    rcases hDcases x _ h1 with h1' | ⟨rfl, heq⟩
    · rcases hDcases p _ h2 with h2' | ⟨rfl, heq⟩
      · obtain ⟨b, hbF, hbP', hbm⟩ := i6 x (by
          rw [isPlaceholderLoad_iff]
          exact ⟨p, h1', h2'⟩)
        have hbne : ¬ bv = b := by
          intro he
          rw [← he, hnm] at hbm
          cases hbm
        refine ⟨b, hbF, ?_, hpres b x hbm⟩
        rw [List.mem_append, List.mem_singleton]
        intro hcon
        rcases hcon with hcon | rfl
        · exact hbP' hcon
        · exact hbne rfl
      · cases heq
    · cases heq
  · -- unprocessed mapped ids are placeholdered
    intro b v hbm hbP'
    rw [hLK] at hbm
    by_cases hb : bv = b
    · exact absurd (by rw [← hb, List.mem_append, List.mem_singleton]; exact Or.inr rfl) hbP'
    · rw [if_neg hb] at hbm
      have hbnotP : b ∉ P := fun h =>
        hbP' (List.mem_append.mpr (Or.inl h))
      exact hPL v (i7 b v hbm hbnotP)
  · -- map is injective
    intro b1 b2 v h1 h2
    rw [hLK] at h1 h2
    by_cases hb1 : bv = b1 <;> by_cases hb2 : bv = b2
    · omega
    · rw [if_pos hb1] at h1
      rw [if_neg hb2] at h2
      cases h1
      have := mapped_lt_nextId s f1 b2 _ h2
      omega
    · rw [if_neg hb1] at h1
      rw [if_pos hb2] at h2
      cases h2
      have := mapped_lt_nextId s f1 b1 _ h1
      omega
    · rw [if_neg hb1] at h1
      rw [if_neg hb2] at h2
      exact i8 b1 b2 v h1 h2

/-- Inversion: only a load substitutes to a load. -/
theorem substVD_load_inv (old new t : Nat) (d : VDesc)
    (h : substVD old new d = .load t) :
    ∃ t0, d = .load t0 ∧ t = if t0 = old then new else t0 := by
  cases d with
  | globalVar b => cases h
  | load q =>
    cases h
    exact ⟨q, rfl, rfl⟩
  | plain ops => cases h

/-- Inversion: only a global substitutes to a global. -/
theorem substVD_global_inv (old new : Nat) (b : Bool) (d : VDesc)
    (h : substVD old new d = .globalVar b) : d = .globalVar b := by
  cases d with
  | globalVar c => cases h; rfl
  | load q => cases h
  | plain ops => cases h

/-- Inversion: only a plain value substitutes to a plain value. -/
theorem substVD_plain_inv (old new : Nat) (ops' : List Nat) (d : VDesc)
    (h : substVD old new d = .plain ops') :
    ∃ ops, d = .plain ops ∧
      ops' = ops.map (fun o => if o = old then new else o) := by
  cases d with
  | globalVar c => cases h
  | load q => cases h
  | plain ops =>
    cases h
    exact ⟨ops, rfl, rfl⟩

/-- Emitting the real instruction when a placeholder is pending: after
`replaceAllUsesWith` and erasure of the placeholder load and its global,
the invariant holds with `bv` now processed. -/
theorem emit_resolve_protoInv (F : List SInst) (P : List Nat) (s : RState) (bv : Nat)
    (vs : List Nat) (old p : Nat) (hI : protoInv F P s)
    (hbv : bv ∈ F.map (fun i => i.id)) (hbvP : bv ∉ P)
    (hold : lookupVM s bv = some old)
    (hdo : descOf s old = some (.load p))
    (hdp : descOf s p = some (.globalVar true))
    (hvs : ∀ o ∈ vs, ∃ b, lookupVM s b = some o) :
    ∀ s' : RState,
      s'.valueMap = (bv, s.nextId) :: s.valueMap →
      s'.placeholderSet = s.placeholderSet →
      s'.values = ((s.values ++ [(s.nextId, VDesc.plain vs)]).filter
        (fun q => ¬(q.1 = old ∨ q.1 = p))).map
        (fun q => (q.1, substVD old s.nextId q.2)) →
      s'.stream = (s.stream ++ [s.nextId]).filter (fun i => ¬ i = old) →
      s'.nextId = s.nextId + 1 →
      protoInv F (P ++ [bv]) s' := by
  obtain ⟨⟨f1, f2, f3, f4, f5⟩, ⟨c1, c2⟩, ⟨g1, g2, g3, g4, g5⟩, i4, i5, i6, i7, i8⟩ := hI
  have hIfull : protoInv F P s :=
    ⟨⟨f1, f2, f3, f4, f5⟩, ⟨c1, c2⟩, ⟨g1, g2, g3, g4, g5⟩, i4, i5, i6, i7, i8⟩
  intro s' hm hph hv hst hn
  -- the intermediate state with the new plain value appended
  have holdlt : old < s.nextId := mapped_lt_nextId s f1 bv old hold
  have hplt : p < s.nextId :=
    f3 _ (descOf_mem s old _ hdo) p (List.mem_singleton.mpr rfl)
  have hpo : ¬ p = old := by
    intro he
    rw [he, hdo] at hdp
    cases hdp
  have hno : ¬ s.nextId = old := by omega
  have hnp : ¬ s.nextId = p := by omega
  have hvslt : ∀ o ∈ vs, o < s.nextId := by
    intro o ho
    obtain ⟨b, hb⟩ := hvs o ho
    exact mapped_lt_nextId s f1 b o hb
  have hvnone : descOf s s.nextId = none := by
    unfold descOf
    rw [find?_key_none_of_bound s.values s.nextId s.nextId f2 (le_refl _)]
    rfl
  have hD3old : ∀ x d, descOf s x = some d →
      descOf ⟨s.valueMap, s.placeholderSet,
        s.values ++ [(s.nextId, VDesc.plain vs)], s.stream ++ [s.nextId],
        s.nextId + 1⟩ x = some d :=
    fun x d h => descOf_append_found s _ _ rfl x d h
  have hD3n : descOf ⟨s.valueMap, s.placeholderSet,
      s.values ++ [(s.nextId, VDesc.plain vs)], s.stream ++ [s.nextId],
      s.nextId + 1⟩ s.nextId = some (.plain vs) := by
    rw [descOf_append_new s _ _ rfl _ hvnone]
    simp [List.find?]
  have hD3cases : ∀ x d, descOf ⟨s.valueMap, s.placeholderSet,
      s.values ++ [(s.nextId, VDesc.plain vs)], s.stream ++ [s.nextId],
      s.nextId + 1⟩ x = some d →
      descOf s x = some d ∨ (x = s.nextId ∧ d = .plain vs) := by
    intro x d h
    rcases descOf_append_cases s _ _ rfl x d h with h1 | ⟨_, h2⟩
    · exact Or.inl h1
    · right
      by_cases hx1 : s.nextId = x
      · subst hx1
        rw [show ([(s.nextId, VDesc.plain vs)].find? (fun q => q.1 = s.nextId)) =
            some (s.nextId, VDesc.plain vs) from by simp [List.find?]] at h2
        cases h2
        exact ⟨rfl, rfl⟩
      · rw [show ([(s.nextId, VDesc.plain vs)].find? (fun q => q.1 = x)) =
            none from by simp [List.find?, hx1]] at h2
        cases h2
  have hD4 : ∀ x, descOf s' x =
      if x = old ∨ x = p then none
      else (descOf ⟨s.valueMap, s.placeholderSet,
        s.values ++ [(s.nextId, VDesc.plain vs)], s.stream ++ [s.nextId],
        s.nextId + 1⟩ x).map (substVD old s.nextId) := by
    intro x
    rw [congrFun (descOf_congr
      (rauwErase ⟨s.valueMap, s.placeholderSet,
        s.values ++ [(s.nextId, VDesc.plain vs)], s.stream ++ [s.nextId],
        s.nextId + 1⟩ old p s.nextId) s' hv) x]
    exact descOf_rauwErase _ old p s.nextId x
  have hMap : ∀ x d, descOf s' x = some d →
      ¬ x = old ∧ ¬ x = p ∧ ∃ d0, descOf ⟨s.valueMap, s.placeholderSet,
        s.values ++ [(s.nextId, VDesc.plain vs)], s.stream ++ [s.nextId],
        s.nextId + 1⟩ x = some d0 ∧ d = substVD old s.nextId d0 := by
    intro x d h
    rw [hD4 x] at h
    by_cases hx : x = old ∨ x = p
    · rw [if_pos hx] at h
      cases h
    · rw [if_neg hx] at h
      obtain ⟨hx1, hx2⟩ := not_or.mp hx
      cases hd3 : descOf ⟨s.valueMap, s.placeholderSet,
          s.values ++ [(s.nextId, VDesc.plain vs)], s.stream ++ [s.nextId],
          s.nextId + 1⟩ x with
      | none => rw [hd3] at h; cases h
      | some d0 =>
        rw [hd3] at h
        refine ⟨hx1, hx2, d0, rfl, ?_⟩
        rw [Option.map_some', Option.some.injEq] at h
        exact h.symm
  have hMapFwd : ∀ x d0, descOf ⟨s.valueMap, s.placeholderSet,
      s.values ++ [(s.nextId, VDesc.plain vs)], s.stream ++ [s.nextId],
      s.nextId + 1⟩ x = some d0 → ¬ x = old → ¬ x = p →
      descOf s' x = some (substVD old s.nextId d0) := by
    intro x d0 h hx1 hx2
    rw [hD4 x, if_neg (not_or.mpr ⟨hx1, hx2⟩), h]
    rfl
  have hMem4 : ∀ q ∈ s'.values, ∃ d0,
      (q.1, d0) ∈ s.values ++ [(s.nextId, VDesc.plain vs)] ∧
      q.2 = substVD old s.nextId d0 ∧ ¬ q.1 = old ∧ ¬ q.1 = p := by
    intro q hq
    rw [hv] at hq
    obtain ⟨q0, hq0, rfl⟩ := List.mem_map.mp hq
    have hfil := List.mem_filter.mp hq0
    have hcond := hfil.2
    simp only [decide_eq_true_eq, not_or] at hcond
    exact ⟨q0.2, hfil.1, rfl, hcond.1, hcond.2⟩
  have hRef3 : ∀ q ∈ s.values ++ [(s.nextId, VDesc.plain vs)],
      ∀ r ∈ refsOf q.2, r < s.nextId := by
    intro q hq r hr
    rcases List.mem_append.mp hq with hq | hq
    · exact f3 q hq r hr
    · rw [List.mem_singleton] at hq
      subst hq
      exact hvslt r hr
  have hNd3 : ((s.values ++ [(s.nextId, VDesc.plain vs)]).map
      (fun q => q.1)).Nodup := by
    rw [List.map_append, List.nodup_append]
    refine ⟨f5, List.nodup_singleton _, ?_⟩
    intro a ha hb
    simp only [List.map_cons, List.map_nil, List.mem_singleton] at hb
    obtain ⟨q, hqm, rfl⟩ := List.mem_map.mp ha
    have := f2 q hqm
    omega
  have hnoloadold : ∀ q ∈ s.values ++ [(s.nextId, VDesc.plain vs)],
      ¬ q.2 = VDesc.load old := by
    intro q hq hload
    rcases List.mem_append.mp hq with hq | hq
    · have := g1 q hq old hload
      rw [hdo] at this
      cases this
    · rw [List.mem_singleton] at hq
      subst hq
      cases hload
  have hnoloadp : ∀ q ∈ s.values ++ [(s.nextId, VDesc.plain vs)],
      q.2 = VDesc.load p → q.1 = old := by
    intro q hq hload
    rcases List.mem_append.mp hq with hq | hq
    · exact g3 q hq (old, .load p) (descOf_mem s old _ hdo) p hload rfl
    · rw [List.mem_singleton] at hq
      subst hq
      cases hload
  have hrefp : ∀ q ∈ s.values ++ [(s.nextId, VDesc.plain vs)],
      ¬ q.1 = old → ∀ o ∈ refsOf q.2, ¬ o = p := by
    intro q hq hqold o ho hop
    rcases List.mem_append.mp hq with hq' | hq'
    · have hd := g2 q hq' o ho true (by rw [hop]; exact hdp)
      exact hqold (g3 q hq' (old, .load p) (descOf_mem s old _ hdo) p
        (by rw [hd, hop]) rfl)
    · rw [List.mem_singleton] at hq'
      subst hq'
      obtain ⟨b, hb⟩ := hvs o ho
      exact mapped_not_global F P s hIfull b o hb true (by rw [hop]; exact hdp)
  have hLK : ∀ b, lookupVM s' b =
      if bv = b then some s.nextId else lookupVM s b :=
    fun b => lookupVM_insert s s' bv _ hm b
  have hLKbv : lookupVM s' bv = some s.nextId := by rw [hLK]; simp
  have hpres2 : ∀ b w, ¬ bv = b → lookupVM s b = some w →
      lookupVM s' b = some w := by
    intro b w hb h
    rw [hLK, if_neg hb]
    exact h
  have hstmem : ∀ v ∈ s'.stream, (v ∈ s.stream ∨ v = s.nextId) ∧ ¬ v = old := by
    intro v hvm
    rw [hst] at hvm
    have h2 := List.mem_filter.mp hvm
    refine ⟨?_, by simpa using h2.2⟩
    rcases List.mem_append.mp h2.1 with h | h
    · exact Or.inl h
    · exact Or.inr (List.mem_singleton.mp h)
  refine ⟨⟨?_, ?_, ?_, ?_, ?_⟩, ⟨?_, ?_⟩, ⟨?_, ?_, ?_, ?_, ?_⟩, ?_, ?_, ?_, ?_, ?_⟩
  · -- valueMap values fresh
    intro q hq
    rw [hm, List.mem_cons] at hq
    rw [hn]
    rcases hq with rfl | hq
    · show s.nextId < s.nextId + 1
      omega
    · have := f1 q hq
      omega
  · -- value keys fresh
    intro q hq
    obtain ⟨d0, hd0mem, _, _, _⟩ := hMem4 q hq
    rw [hn]
    rcases List.mem_append.mp hd0mem with hmem | hmem
    · have h2 : q.1 < s.nextId := f2 (q.1, d0) hmem
      omega
    · rw [List.mem_singleton, Prod.mk.injEq] at hmem
      have := hmem.1
      omega
  · -- value refs fresh
    intro q hq r hr
    obtain ⟨d0, hd0mem, hq2, hqold, hqp⟩ := hMem4 q hq
    rw [hn]
    rw [hq2, refsOf_substVD] at hr
    obtain ⟨o, ho, rfl⟩ := List.mem_map.mp hr
    by_cases hoo : o = old
    · rw [if_pos hoo]
      omega
    · rw [if_neg hoo]
      have h2 : o < s.nextId := hRef3 _ hd0mem o ho
      omega
  · -- stream fresh
    intro v hvm
    obtain ⟨hv2, _⟩ := hstmem v hvm
    rw [hn]
    rcases hv2 with h | rfl
    · have := f4 v h
      omega
    · omega
  · -- value keys nodup
    have hkeys : s'.values.map (fun q => q.1) =
        ((s.values ++ [(s.nextId, VDesc.plain vs)]).filter
          (fun q => ¬(q.1 = old ∨ q.1 = p))).map (fun q => q.1) := by
      rw [hv, List.map_map]
      rfl
    rw [hkeys]
    exact hNd3.sublist (List.Sublist.map _ (List.filter_sublist _))
  · -- stream closed
    intro v hvm
    obtain ⟨hv2, hvold⟩ := hstmem v hvm
    rcases hv2 with h | rfl
    · have hvp : ¬ v = p := by
        intro he
        exact g4 v h true (by rw [he]; exact hdp)
      obtain ⟨d, hd⟩ := Option.isSome_iff_exists.mp (c1 v h)
      rw [hMapFwd v d (hD3old v d hd) hvold hvp]
      rfl
    · rw [hMapFwd s.nextId _ hD3n hno hnp]
      rfl
  · -- refs closed
    intro q hq r hr
    obtain ⟨d0, hd0mem, hq2, hqold, hqp⟩ := hMem4 q hq
    rw [hq2, refsOf_substVD] at hr
    obtain ⟨o, ho, rfl⟩ := List.mem_map.mp hr
    by_cases hoo : o = old
    · rw [if_pos hoo]
      rw [hMapFwd s.nextId _ hD3n hno hnp]
      rfl
    · rw [if_neg hoo]
      have hop : ¬ o = p := hrefp _ hd0mem hqold o ho
      rcases List.mem_append.mp hd0mem with hmem | hmem
      · obtain ⟨d, hd⟩ := Option.isSome_iff_exists.mp (c2 _ hmem o ho)
        rw [hMapFwd o d (hD3old o d hd) hoo hop]
        rfl
      · rw [List.mem_singleton, Prod.mk.injEq] at hmem
        have hovs : o ∈ vs := by
          have h2 := hmem.2
          rw [h2] at ho
          simpa [refsOf] using ho
        obtain ⟨b, hb⟩ := hvs o hovs
        obtain ⟨d, hd⟩ := Option.isSome_iff_exists.mp
          (mapped_desc_isSome F P s hIfull b o hb)
        rw [hMapFwd o d (hD3old o d hd) hoo hop]
        rfl
  · -- loads read prefixed globals
    intro q hq t ht
    obtain ⟨d0, hd0mem, hq2, hqold, hqp⟩ := hMem4 q hq
    rw [hq2] at ht
    obtain ⟨t0, hd0eq, hteq⟩ := substVD_load_inv _ _ _ _ ht
    by_cases ht0 : t0 = old
    · exact absurd (by rw [hd0eq, ht0]) (hnoloadold _ hd0mem)
    · rw [if_neg ht0] at hteq
      subst hteq
      rcases List.mem_append.mp hd0mem with hmem | hmem
      · have hgl : descOf s t = some (.globalVar true) :=
          g1 _ hmem t (by rw [hd0eq])
        have htp2 : ¬ t = p := by
          intro he
          exact hqold (hnoloadp (q.1, d0) hd0mem (by
            show d0 = VDesc.load p
            rw [hd0eq, he]))
        rw [hMapFwd t _ (hD3old t _ hgl) ht0 htp2]
        rfl
      · rw [List.mem_singleton, Prod.mk.injEq] at hmem
        rw [hmem.2] at hd0eq
        cases hd0eq
  · -- globals referenced only by their load
    intro q hq r hr b hb
    obtain ⟨d0, hd0mem, hq2, hqold, hqp⟩ := hMem4 q hq
    rw [hq2, refsOf_substVD] at hr
    obtain ⟨o, ho, rfl⟩ := List.mem_map.mp hr
    by_cases hoo : o = old
    · rw [if_pos hoo] at hb
      rw [hMapFwd s.nextId _ hD3n hno hnp] at hb
      cases hb
    · rw [if_neg hoo] at hb ⊢
      obtain ⟨hrold, hrp, d1, hd1, hd1eq⟩ := hMap o _ hb
      have hd1g : d1 = .globalVar b := substVD_global_inv _ _ _ _ hd1eq.symm
      subst hd1g
      rcases hD3cases o _ hd1 with hso | ⟨rfl, heq⟩
      · rcases List.mem_append.mp hd0mem with hmem | hmem
        · have hload : (q.1, d0).2 = VDesc.load o := g2 _ hmem o ho b hso
          rw [hq2, show d0 = VDesc.load o from hload]
          show VDesc.load (if o = old then s.nextId else o) = VDesc.load o
          rw [if_neg hoo]
        · rw [List.mem_singleton, Prod.mk.injEq] at hmem
          have hovs : o ∈ vs := by
            have h2 := hmem.2
            rw [h2] at ho
            simpa [refsOf] using ho
          obtain ⟨b2, hb2⟩ := hvs o hovs
          exact absurd hso (fun h => mapped_not_global F P s hIfull b2 o hb2 b h)
      · cases heq
  · -- distinct loads, distinct globals
    intro q hq q2 hq2m t ht ht2
    obtain ⟨d0, hd0mem, hqe, hqold, hqp⟩ := hMem4 q hq
    obtain ⟨d1, hd1mem, hqe2, hqold2, hqp2⟩ := hMem4 q2 hq2m
    rw [hqe] at ht
    rw [hqe2] at ht2
    obtain ⟨t0, he0, hte0⟩ := substVD_load_inv _ _ _ _ ht
    obtain ⟨t1, he1, hte1⟩ := substVD_load_inv _ _ _ _ ht2
    have ht0 : ¬ t0 = old := fun h => (hnoloadold _ hd0mem) (by rw [he0, h])
    have ht1 : ¬ t1 = old := fun h => (hnoloadold _ hd1mem) (by rw [he1, h])
    rw [if_neg ht0] at hte0
    rw [if_neg ht1] at hte1
    have heq01 : t0 = t1 := by omega
    subst heq01
    rcases List.mem_append.mp hd0mem with hmem | hmem
    · rcases List.mem_append.mp hd1mem with hmem2 | hmem2
      · exact g3 (q.1, d0) hmem (q2.1, d1) hmem2 t0
          (by show d0 = VDesc.load t0; rw [he0])
          (by show d1 = VDesc.load t0; rw [he1])
      · rw [List.mem_singleton, Prod.mk.injEq] at hmem2
        rw [hmem2.2] at he1
        cases he1
    · rw [List.mem_singleton, Prod.mk.injEq] at hmem
      rw [hmem.2] at he0
      cases he0
  · -- stream holds no globals
    intro v hvm b hb
    obtain ⟨hv2, hvold⟩ := hstmem v hvm
    obtain ⟨_, hvp, d1, hd1, hd1eq⟩ := hMap v _ hb
    have hd1g : d1 = .globalVar b := substVD_global_inv _ _ _ _ hd1eq.symm
    subst hd1g
    rcases hD3cases v _ hd1 with hso | ⟨rfl, heq⟩
    · rcases hv2 with h | rfl
      · exact g4 v h b hso
      · rw [hvnone] at hso
        cases hso
    · cases heq
  · -- plain operands are mapped
    intro q hq ops2 hops o2 ho2
    obtain ⟨d0, hd0mem, hqe, hqold, hqp⟩ := hMem4 q hq
    rw [hqe] at hops
    obtain ⟨ops, hd0eq, hopseq⟩ := substVD_plain_inv _ _ _ _ hops
    subst hopseq
    obtain ⟨o, ho, rfl⟩ := List.mem_map.mp ho2
    by_cases hoo : o = old
    · rw [if_pos hoo]
      exact ⟨bv, hLKbv⟩
    · rw [if_neg hoo]
      have hombed : ∃ b, lookupVM s b = some o := by
        rcases List.mem_append.mp hd0mem with hmem | hmem
        · exact g5 _ hmem ops (by rw [hd0eq]) o ho
        · rw [List.mem_singleton, Prod.mk.injEq] at hmem
          have hov : ops = vs := by
            have h2 := hmem.2
            rw [hd0eq] at h2
            cases h2
            rfl
          exact hvs o (hov ▸ ho)
      obtain ⟨b0, hb0⟩ := hombed
      have hb0bv : ¬ bv = b0 := by
        intro he
        rw [← he, hold] at hb0
        cases hb0
        exact hoo rfl
      exact ⟨b0, hpres2 b0 o hb0bv hb0⟩
  · -- processed ids map to plain values
    intro b hbP2
    rw [List.mem_append, List.mem_singleton] at hbP2
    rcases hbP2 with hbP2 | rfl
    · obtain ⟨w, ops, hbm, hdm⟩ := i4 b hbP2
      have hbbv : ¬ bv = b := fun he => hbvP (he ▸ hbP2)
      have hwold : ¬ w = old := by
        intro he
        have hbm2 := hbm
        rw [he] at hbm2
        exact hbbv (i8 bv b old hold hbm2)
      have hwp : ¬ w = p := by
        intro he
        rw [he, hdp] at hdm
        cases hdm
      refine ⟨w, ops.map (fun o => if o = old then s.nextId else o),
        hpres2 b w hbbv hbm, ?_⟩
      rw [hMapFwd w _ (hD3old w _ hdm) hwold hwp]
      rfl
    · refine ⟨s.nextId, vs.map (fun o => if o = old then s.nextId else o),
        hLKbv, ?_⟩
      rw [hMapFwd s.nextId _ hD3n hno hnp]
      rfl
  · -- mapped ids are processed or placeholdered
    intro b w hbm
    rw [hLK] at hbm
    rw [hph]
    by_cases hb : bv = b
    · left
      rw [← hb, List.mem_append, List.mem_singleton]
      exact Or.inr rfl
    · rw [if_neg hb] at hbm
      rcases i5 b w hbm with h | h
      · exact Or.inl (List.mem_append.mpr (Or.inl h))
      · exact Or.inr h
  · -- placeholder loads are owned
    intro x hx
    rw [isPlaceholderLoad_iff] at hx
    obtain ⟨t, h1, h2⟩ := hx
    obtain ⟨hxold, hxp, d1, hd1, hd1eq⟩ := hMap x _ h1
    obtain ⟨t0, hd1load, hteq⟩ := substVD_load_inv _ _ _ _ hd1eq.symm
    subst hd1load
    have ht0 : ¬ t0 = old := by
      intro he
      exact hnoloadold _ (descOf_mem _ x _ hd1) (by rw [he])
    rw [if_neg ht0] at hteq
    subst hteq
    obtain ⟨ht0old, ht0p, d2, hd2, hd2eq⟩ := hMap t _ h2
    have hd2g : d2 = .globalVar true := substVD_global_inv _ _ _ _ hd2eq.symm
    subst hd2g
    rcases hD3cases t _ hd2 with hst0 | ⟨rfl, heq⟩
    · rcases hD3cases x _ hd1 with hsx | ⟨rfl, heq⟩
      · have hplx : isPlaceholderLoad s x = true := by
          rw [isPlaceholderLoad_iff]
          exact ⟨t, hsx, hst0⟩
        obtain ⟨b, hbF, hbP2, hbm⟩ := i6 x hplx
        have hbbv : ¬ bv = b := by
          intro he
          rw [← he, hold] at hbm
          cases hbm
          exact hxold rfl
        refine ⟨b, hbF, ?_, hpres2 b x hbbv hbm⟩
        rw [List.mem_append, List.mem_singleton]
        intro hc
        rcases hc with hc | rfl
        · exact hbP2 hc
        · exact hbbv rfl
      · cases heq
    · cases heq
  · -- unprocessed mapped ids are placeholdered
    intro b w hbm hbP2
    have hbbv : ¬ bv = b := by
      intro he
      exact hbP2 (by rw [← he, List.mem_append, List.mem_singleton]; exact Or.inr rfl)
    rw [hLK, if_neg hbbv] at hbm
    have hbnotP : b ∉ P := fun h => hbP2 (List.mem_append.mpr (Or.inl h))
    have hplw := i7 b w hbm hbnotP
    rw [isPlaceholderLoad_iff] at hplw
    obtain ⟨t, hw1, hw2⟩ := hplw
    have hwold : ¬ w = old := by
      intro he
      have hbm2 := hbm
      rw [he] at hbm2
      exact hbbv (i8 bv b old hold hbm2)
    have htp : ¬ t = p := by
      intro he
      exact hwold (hnoloadp (w, .load t)
        (List.mem_append.mpr (Or.inl (descOf_mem s w _ hw1))) (by rw [he]))
    have hwp : ¬ w = p := by
      intro he
      rw [he, hdp] at hw1
      cases hw1
    have htold : ¬ t = old := by
      intro he
      rw [he, hdo] at hw2
      cases hw2
    rw [isPlaceholderLoad_iff]
    refine ⟨t, ?_, ?_⟩
    · rw [hMapFwd w _ (hD3old w _ hw1) hwold hwp]
      show some (VDesc.load (if t = old then s.nextId else t)) = some (VDesc.load t)
      rw [if_neg htold]
    · rw [hMapFwd t _ (hD3old t _ hw2) htold htp]
      rfl
  · -- map is injective
    intro b1 b2 w h1 h2
    rw [hLK] at h1 h2
    by_cases hb1 : bv = b1 <;> by_cases hb2 : bv = b2
    · omega
    · rw [if_pos hb1] at h1
      rw [if_neg hb2] at h2
      cases h1
      have := mapped_lt_nextId s f1 b2 _ h2
      omega
    · rw [if_neg hb1] at h1
      rw [if_pos hb2] at h2
      cases h2
      have := mapped_lt_nextId s f1 b1 _ h1
      omega
    · rw [if_neg hb1] at h1
      rw [if_neg hb2] at h2
      exact i8 b1 b2 w h1 h2

/-- `emitInst` succeeds under the protocol invariant and marks the id
processed, whether or not a placeholder was pending. -/
theorem emitInst_spec (F : List SInst) (P : List Nat) (s : RState) (bv : Nat)
    (vs : List Nat) (hI : protoInv F P s) (hbv : bv ∈ F.map (fun i => i.id))
    (hbvP : bv ∉ P) (hvs : ∀ o ∈ vs, ∃ b, lookupVM s b = some o) :
    ∃ v s', emitInst s bv vs = some (v, s') ∧ protoInv F (P ++ [bv]) s' := by
  cases hm : lookupVM s bv with
  | none =>
    have hm3 : lookupVM
      { s with
        values := s.values ++ [(s.nextId, VDesc.plain vs)],
        stream := s.stream ++ [s.nextId],
        nextId := s.nextId + 1 } bv = none := hm
    refine ⟨s.nextId,
      { valueMap := (bv, s.nextId) :: s.valueMap,
        placeholderSet := s.placeholderSet,
        values := s.values ++ [(s.nextId, VDesc.plain vs)],
        stream := s.stream ++ [s.nextId],
        nextId := s.nextId + 1 }, ?_,
      emit_fresh_protoInv F P s bv vs hI hbv hm hvs _ rfl rfl rfl rfl rfl⟩
    unfold emitInst
    dsimp only
    unfold mapValue
    rw [hm3]
    rfl
  | some old =>
    have hplold : isPlaceholderLoad s old = true :=
      hI.2.2.2.2.2.2.1 bv old hm hbvP
    rw [isPlaceholderLoad_iff] at hplold
    obtain ⟨p, hdo, hdp⟩ := hplold
    have holdlt : old < s.nextId := mapped_lt_nextId s hI.1.1 bv old hm
    have holdne : ¬ old = s.nextId := by omega
    refine ⟨s.nextId,
      { valueMap := (bv, s.nextId) :: s.valueMap,
        placeholderSet := s.placeholderSet,
        values := ((s.values ++ [(s.nextId, VDesc.plain vs)]).filter
          (fun q => ¬(q.1 = old ∨ q.1 = p))).map
          (fun q => (q.1, substVD old s.nextId q.2)),
        stream := (s.stream ++ [s.nextId]).filter (fun i => ¬ i = old),
        nextId := s.nextId + 1 }, ?_,
      emit_resolve_protoInv F P s bv vs old p hI hbv hbvP hm hdo hdp hvs _
        rfl rfl rfl rfl rfl⟩
    have hm3 : lookupVM
      { s with
        values := s.values ++ [(s.nextId, VDesc.plain vs)],
        stream := s.stream ++ [s.nextId],
        nextId := s.nextId + 1 } bv = some old := hm
    have hdo3 : descOf
      { s with
        values := s.values ++ [(s.nextId, VDesc.plain vs)],
        stream := s.stream ++ [s.nextId],
        nextId := s.nextId + 1 } old =
      some (VDesc.load p) := descOf_append_found s _ _ rfl old _ hdo
    have hdp3 : descOf
      { s with
        values := s.values ++ [(s.nextId, VDesc.plain vs)],
        stream := s.stream ++ [s.nextId],
        nextId := s.nextId + 1 } p =
      some (VDesc.globalVar true) := descOf_append_found s _ _ rfl p _ hdp
    unfold emitInst
    dsimp only
    unfold mapValue
    rw [hm3]
    dsimp only
    rw [if_neg holdne]
    rw [hdo3]
    dsimp only
    rw [hdp3]
    dsimp only
    rw [if_pos rfl]
    rfl

/-- The defining translation of an instruction (`CreatePlaceHolder` not
set): operands first, then the emitted instruction, `mapValue`d; the
instruction id becomes processed. -/
theorem transValueR_define_spec (F : List SInst) (P : List Nat) (s : RState)
    (inst : SInst) (hnd : (F.map (fun i => i.id)).Nodup)
    (hI : protoInv F P s) (hmem : inst ∈ F) (hP : inst.id ∉ P)
    (hops : ∀ o ∈ inst.ops, o ∈ F.map (fun i => i.id)) (fuel : Nat) :
    ∃ v s', transValueR F (fuel + 2) s inst.id false = some (v, s') ∧
      protoInv F (P ++ [inst.id]) s' := by
  have hbv : inst.id ∈ F.map (fun i => i.id) := List.mem_map.mpr ⟨inst, hmem, rfl⟩
  have hfind : F.find? (fun i => i.id = inst.id) = some inst :=
    find?_sinst_of_mem_nodup F inst hnd hmem
  obtain ⟨vs, s2, hgo, hI2, hp2, hmap⟩ := goOps_spec F P fuel inst.ops s hI hops
  obtain ⟨v, s', hemit, hI'⟩ := emitInst_spec F P s2 inst.id vs hI2 hbv hP hmap
  refine ⟨v, s', ?_, hI'⟩
  show transValueR F (fuel + 1 + 1) s inst.id false = some (v, s')
  unfold transValueR
  dsimp only
  cases hm : lookupVM s inst.id with
  | none =>
    dsimp only
    rw [if_neg Bool.false_ne_true, hfind]
    dsimp only
    rw [hgo]
    dsimp only
    exact hemit
  | some w =>
    dsimp only
    have hph : inst.id ∈ s.placeholderSet := by
      rcases hI.2.2.2.2.1 inst.id w hm with h | h
      · exact absurd h hP
      · exact h
    have hcond : ¬(inst.id ∉ s.placeholderSet ∨ false = true) := by
      intro hh
      rcases hh with hh | hh
      · exact hh hph
      · cases hh
    rw [if_neg hcond]
    rw [if_neg Bool.false_ne_true, hfind]
    dsimp only
    rw [hgo]
    dsimp only
    exact hemit

/-- The initial decoding state satisfies the invariant with nothing
processed. -/
theorem protoInv_initR (F : List SInst) : protoInv F [] initR := by
  refine ⟨⟨?_, ?_, ?_, ?_, ?_⟩, ⟨?_, ?_⟩, ⟨?_, ?_, ?_, ?_, ?_⟩, ?_, ?_, ?_, ?_, ?_⟩
  · intro q hq; cases hq
  · intro q hq; cases hq
  · intro q hq; cases hq
  · intro v hv; cases hv
  · exact List.nodup_nil
  · intro v hv; cases hv
  · intro q hq; cases hq
  · intro q hq; cases hq
  · intro q hq; cases hq
  · intro q hq; cases hq
  · intro v hv; cases hv
  · intro q hq; cases hq
  · intro b hb; cases hb
  · intro b w h; cases h
  · intro v h
    rw [isPlaceholderLoad_iff] at h
    obtain ⟨q, h1, _⟩ := h
    cases h1
  · intro b w h _; cases h
  · intro b1 b2 w h1 _; cases h1

/-- The instruction fold of `transFunction`: processing a suffix of the
function extends the processed set by exactly that suffix. -/
theorem transFunctionR_go (F : List SInst) (hnd : (F.map (fun i => i.id)).Nodup)
    (hcl : ∀ i ∈ F, ∀ o ∈ i.ops, o ∈ F.map (fun i => i.id)) :
    ∀ (suf pre : List SInst) (s : RState), F = pre ++ suf →
      protoInv F (pre.map (fun i => i.id)) s →
      ∃ s', suf.foldlM (fun s inst =>
          (transValueR F (F.length + 2) s inst.id false).map (fun r => r.2)) s =
        some s' ∧ protoInv F ((pre ++ suf).map (fun i => i.id)) s' := by
  intro suf
  induction suf with
  | nil =>
    intro pre s hFeq hI
    exact ⟨s, rfl, by rw [List.append_nil]; exact hI⟩
  | cons inst rest ih =>
    intro pre s hFeq hI
    have hmem : inst ∈ F := by
      rw [hFeq]
      exact List.mem_append.mpr (Or.inr (List.mem_cons_self _ _))
    have hP : inst.id ∉ pre.map (fun i => i.id) := by
      intro hin
      have hnodup2 : (pre.map (fun i => i.id) ++
          (inst :: rest).map (fun i => i.id)).Nodup := by
        rw [← List.map_append, ← hFeq]
        exact hnd
      rw [List.nodup_append] at hnodup2
      exact hnodup2.2.2 hin (List.mem_map.mpr ⟨inst, List.mem_cons_self _ _, rfl⟩)
    obtain ⟨v, s1, hstep, hI1⟩ := transValueR_define_spec F
      (pre.map (fun i => i.id)) s inst hnd hI hmem hP
      (fun o ho => hcl inst hmem o ho) F.length
    have hIpre : protoInv F ((pre ++ [inst]).map (fun i => i.id)) s1 := by
      rw [List.map_append]
      exact hI1
    obtain ⟨s', hfold, hIend⟩ := ih (pre ++ [inst]) s1
      (by rw [hFeq, List.append_assoc]; rfl) hIpre
    refine ⟨s', ?_, ?_⟩
    · rw [List.foldlM_cons, hstep]
      exact hfold
    · rw [List.append_assoc] at hIend
      exact hIend

/-- The reader `mapValue` on a pending placeholder load: resolution
rewrites every use of the load to the real value, erases the load and its
prefixed global from values and stream, and records the new mapping. -/
theorem mapValue_resolve_spec (s : RState) (bv v old p : Nat)
    (hl : lookupVM s bv = some old) (hne : ¬ old = v)
    (hdo : descOf s old = some (.load p))
    (hdp : descOf s p = some (.globalVar true)) :
    ∃ s', mapValue s bv v = .ok s' v ∧ lookupVM s' bv = some v ∧
      descOf s' old = none ∧ descOf s' p = none ∧ old ∉ s'.stream ∧
      (∀ x, ¬ x = old → ¬ x = p →
        descOf s' x = (descOf s x).map (substVD old v)) ∧
      (∀ q ∈ s'.values, old ∉ refsOf q.2) := by
  refine ⟨{ rauwErase s old p v with
      valueMap := (bv, v) :: (rauwErase s old p v).valueMap }, ?_, ?_, ?_, ?_, ?_, ?_, ?_⟩
  · unfold mapValue
    rw [hl]
    dsimp only
    rw [if_neg hne, hdo]
    dsimp only
    rw [hdp]
    dsimp only
    rw [if_pos rfl]
  · rw [lookupVM_insert (rauwErase s old p v) _ bv v rfl]
    simp
  · show descOf (rauwErase s old p v) old = none
    rw [descOf_rauwErase]
    simp
  · show descOf (rauwErase s old p v) p = none
    rw [descOf_rauwErase]
    simp
  · intro hmem
    have h2 := (List.mem_filter.mp hmem).2
    simp at h2
  · intro x hx1 hx2
    show descOf (rauwErase s old p v) x = (descOf s x).map (substVD old v)
    rw [descOf_rauwErase, if_neg (not_or.mpr ⟨hx1, hx2⟩)]
  · intro q hq
    obtain ⟨q0, _, rfl⟩ := List.mem_map.mp hq
    exact not_mem_refsOf_substVD old v q0.2 hne

/-- A successful full-function translation leaves no placeholder load, no
global in the stream, a closed state, and every instruction id mapped to a
real (plain) value. -/
theorem transFunctionR_resolves (F : List SInst)
    (hnd : (F.map (fun i => i.id)).Nodup)
    (hcl : ∀ i ∈ F, ∀ o ∈ i.ops, o ∈ F.map (fun i => i.id)) :
    ∃ sF, transFunctionR F = some sF ∧
      (∀ x, isPlaceholderLoad sF x = false) ∧
      (∀ v ∈ sF.stream, ∀ b, descOf sF v ≠ some (.globalVar b)) ∧
      closedState sF ∧
      (∀ i ∈ F, ∃ v ops, lookupVM sF i.id = some v ∧
        descOf sF v = some (.plain ops)) := by
  obtain ⟨sF, hfold, hI⟩ := transFunctionR_go F hnd hcl F [] initR rfl
    (protoInv_initR F)
  refine ⟨sF, hfold, ?_, hI.2.2.1.2.2.2.1, hI.2.1, ?_⟩
  · intro x
    cases hpl : isPlaceholderLoad sF x with
    | false => rfl
    | true =>
      obtain ⟨b, hbF, hbP, _⟩ := hI.2.2.2.2.2.1 x hpl
      exact absurd hbF hbP
  · intro i hi
    exact hI.2.2.2.1 i.id (List.mem_map.mpr ⟨i, hi, rfl⟩)

end Reader

namespace Writer

/-- Association search after deleting one key. -/
theorem find?_filter_key {α : Type} (l : List (Nat × α)) (a x : Nat) :
    (l.filter (fun p => ¬ p.1 = a)).find? (fun p => p.1 = x) =
      if x = a then none else l.find? (fun p => p.1 = x) := by
  by_cases hx : x = a
  · rw [if_pos hx, List.find?_eq_none]
    intro q hq
    have h2 := (List.mem_filter.mp hq).2
    simp only [decide_eq_true_eq] at h2 ⊢
    intro he
    exact h2 (by rw [he, hx])
  · rw [if_neg hx]
    induction l with
    | nil => rfl
    | cons q t ih =>
      by_cases hk : q.1 = a
      · rw [List.filter_cons_of_neg (by simp only [decide_eq_true_eq, not_not]; exact hk),
            List.find?_cons_of_neg _ (by
              simp only [decide_eq_true_eq]
              intro he
              exact hx (he ▸ hk)), ih]
      · rw [List.filter_cons_of_pos (by simp only [decide_eq_true_eq, not_not]; exact hk)]
        by_cases hqx : q.1 = x
        · rw [List.find?_cons_of_pos _ (by simpa using hqx),
              List.find?_cons_of_pos _ (by simpa using hqx)]
        · rw [List.find?_cons_of_neg _ (by simpa using hqx),
              List.find?_cons_of_neg _ (by simpa using hqx), ih]

/-- `replaceForward` removes the forward entry and touches nothing
else. -/
theorem entryOf_replaceFwd (s : WState) (old x : Nat) :
    entryOf (replaceFwd s old) x = if x = old then none else entryOf s x := by
  unfold entryOf replaceFwd
  dsimp only
  rw [find?_filter_key]
  by_cases hx : x = old
  · rw [if_pos hx, if_pos hx]
    rfl
  · rw [if_neg hx, if_neg hx]

/-- The writer `mapValue` on a pending forward: the forward is replaced
(discarded) and the table entry becomes the resolved id. -/
theorem mapValueW_resolve_spec (s : WState) (v bv old : Nat)
    (hl : lookupW s v = some old) (hne : ¬ old = bv) (hf : isFwd s old = true) :
    ∃ s', mapValueW s v bv = .ok s' bv ∧ lookupW s' v = some bv ∧
      entryOf s' old = none ∧ (∀ x, ¬ x = old → entryOf s' x = entryOf s x) := by
  refine ⟨{ replaceFwd s old with
      valueMap := (v, bv) :: (replaceFwd s old).valueMap }, ?_, ?_, ?_, ?_⟩
  · unfold mapValueW
    rw [hl]
    dsimp only
    rw [if_neg hne, if_pos hf]
  · rw [lookupW_insert (replaceFwd s old) _ v bv rfl]
    simp
  · rw [show entryOf { replaceFwd s old with
        valueMap := (v, bv) :: (replaceFwd s old).valueMap } old =
        entryOf (replaceFwd s old) old from rfl, entryOf_replaceFwd]
    simp
  · intro x hx
    rw [show entryOf { replaceFwd s old with
        valueMap := (v, bv) :: (replaceFwd s old).valueMap } x =
        entryOf (replaceFwd s old) x from rfl, entryOf_replaceFwd, if_neg hx]

end Writer

/-- C4: when the real definition of a value earlier stood in for by a
placeholder is produced, `mapValue` rewrites every prior use of the
placeholder to the real value, discards the placeholder (load and prefixed
global on the decode side, `SPIRVForward` entry on the encode side) and
overwrites the table entry with the resolved value; and after a successful
full-function decode translation no placeholder construct remains: no
placeholder load exists, the instruction stream holds no globals, every
reference is to a live value, and every instruction id is mapped to a real
(plain) value. -/
theorem c4_placeholder_resolution :
    (∀ (s : Reader.RState) (bv v old p : Nat),
      Reader.lookupVM s bv = some old → ¬ old = v →
      Reader.descOf s old = some (.load p) →
      Reader.descOf s p = some (.globalVar true) →
      ∃ s', Reader.mapValue s bv v = .ok s' v ∧
        Reader.lookupVM s' bv = some v ∧
        Reader.descOf s' old = none ∧
        Reader.descOf s' p = none ∧
        old ∉ s'.stream ∧
        (∀ x, ¬ x = old → ¬ x = p →
          Reader.descOf s' x = (Reader.descOf s x).map (Reader.substVD old v)) ∧
        (∀ q ∈ s'.values, old ∉ Reader.refsOf q.2)) ∧
    (∀ (s : Writer.WState) (v bv old : Nat),
      Writer.lookupW s v = some old → ¬ old = bv →
      Writer.isFwd s old = true →
      ∃ s', Writer.mapValueW s v bv = .ok s' bv ∧
        Writer.lookupW s' v = some bv ∧
        Writer.entryOf s' old = none ∧
        (∀ x, ¬ x = old → Writer.entryOf s' x = Writer.entryOf s x)) ∧
    (∀ F : List Reader.SInst, (F.map (fun i => i.id)).Nodup →
      (∀ i ∈ F, ∀ o ∈ i.ops, o ∈ F.map (fun i => i.id)) →
      ∃ sF, Reader.transFunctionR F = some sF ∧
        (∀ x, Reader.isPlaceholderLoad sF x = false) ∧
        (∀ v ∈ sF.stream, ∀ b, Reader.descOf sF v ≠ some (.globalVar b)) ∧
        Reader.closedState sF ∧
        (∀ i ∈ F, ∃ v ops, Reader.lookupVM sF i.id = some v ∧
          Reader.descOf sF v = some (.plain ops))) :=
  ⟨Reader.mapValue_resolve_spec, Writer.mapValueW_resolve_spec,
    Reader.transFunctionR_resolves⟩

/-- C4 witness: a concrete placeholder resolution in each direction, and a
full decode of a two-instruction function with mutual forward references. -/
theorem c4_placeholder_resolution_witness :
    (∃ s', Reader.mapValue ⟨[(7, 2)], [7],
        [(1, Reader.VDesc.globalVar true), (2, Reader.VDesc.load 1)], [2], 3⟩ 7 3 =
        .ok s' 3 ∧ Reader.lookupVM s' 7 = some 3 ∧ Reader.descOf s' 2 = none) ∧
    (∃ s', Writer.mapValueW ⟨[(4, 9)], [(9, Writer.SVDesc.forwardEntry)], 10⟩ 4 8 =
        .ok s' 8 ∧ Writer.lookupW s' 4 = some 8 ∧ Writer.entryOf s' 9 = none) ∧
    (∃ sF, Reader.transFunctionR [⟨10, [11]⟩, ⟨11, [10]⟩] = some sF ∧
      (∀ x, Reader.isPlaceholderLoad sF x = false) ∧ Reader.closedState sF) := by
  obtain ⟨A, B, C⟩ := c4_placeholder_resolution
  refine ⟨?_, ?_, ?_⟩
  · obtain ⟨s', h1, h2, h3, _⟩ := A ⟨[(7, 2)], [7],
      [(1, Reader.VDesc.globalVar true), (2, Reader.VDesc.load 1)], [2], 3⟩ 7 3 2 1
      (by decide) (by decide) (by decide) (by decide)
    exact ⟨s', h1, h2, h3⟩
  · obtain ⟨s', h1, h2, h3, _⟩ := B ⟨[(4, 9)], [(9, Writer.SVDesc.forwardEntry)], 10⟩
      4 8 9 (by decide) (by decide) (by decide)
    exact ⟨s', h1, h2, h3⟩
  · obtain ⟨sF, h1, h2, _, h4, _⟩ := C [⟨10, [11]⟩, ⟨11, [10]⟩] (by decide) (by decide)
    exact ⟨sF, h1, h2, h4⟩

namespace TyR

/-- Decode-side struct forward registration: when the defining translation
of a struct type begins, the struct is created and entered into `TypeMap`
BEFORE any member type is translated — the member walk starts from a state
in which the struct id is already mapped to the named struct. -/
theorem transTypeR_struct_registers (tbl : List (Nat × STy)) (fuel : Nat)
    (s : TState) (tid : Nat) (mems : List Nat)
    (hfind : descR tbl tid = some (.structT mems))
    (hnm : lookupT s tid = none) :
    ∃ s1, lookupT s1 tid = some (.namedL s.nextSid) ∧
      transTypeR tbl (fuel + 1) s tid =
        match goTypes (transTypeR tbl fuel) s1 mems with
        | none => none
        | some (ts, s2) =>
          some (.namedL s.nextSid,
            { s2 with bodies := setBodyT s2.bodies s.nextSid ts }) := by
  refine ⟨{ mapT s tid (.namedL s.nextSid) with
      bodies := s.bodies ++ [(s.nextSid, none)], nextSid := s.nextSid + 1 }, ?_, ?_⟩
  · unfold lookupT mapT
    dsimp only
    rw [Reader.find?_key_cons]
    simp
  · unfold transTypeR
    rw [hnm]
    dsimp only
    rw [hfind]

end TyR

namespace TyW

/-- Encode-side struct forward registration: `openStructType` and
`mapType` happen BEFORE the member loop — the two member passes start from
a state in which the LLVM struct type is already mapped to the fresh SPIRV
struct id. -/
theorem transTypeW_struct_registers (tbl : List (Nat × LDesc)) (fuel : Nat)
    (s : WTState) (lid : Nat) (mems : List Nat)
    (hfind : descW tbl lid = some (.structD mems))
    (hnm : lookupTW s lid = none) :
    ∃ s1, lookupTW s1 lid = some s.nextId ∧
      transTypeW tbl (fuel + 1) s lid =
        match mems.enum.foldl (memberPass1 tbl (transTypeW tbl fuel) lid s.nextId)
            (some ([], s1)) with
        | none => none
        | some (defs, s2) =>
          match defs.foldl (memberPass2 mems (transTypeW tbl fuel) s.nextId)
              (some s2) with
          | none => none
          | some s3 => some (s.nextId, s3) := by
  refine ⟨{ s with
      typeMap := (lid, s.nextId) :: s.typeMap,
      entries := s.entries ++ [(s.nextId, .structW (mems.map (fun _ => none)))],
      nextId := s.nextId + 1 }, ?_, ?_⟩
  · unfold lookupTW
    dsimp only
    rw [Reader.find?_key_cons]
    simp
  · unfold transTypeW
    rw [hnm]
    dsimp only
    rw [hfind]

end TyW

/-- C5: a struct type is registered (forward-declared) in the translation
table before its member types are resolved, in both directions; and a
struct containing a pointer to itself — directly, through an array, or
through a nested struct — translates in finite time, producing a target
struct with the same self-reference relationship (its body, set after the
member walk, references the struct itself). -/
theorem c5_struct_registered_before_members :
    (∀ (tbl : List (Nat × TyR.STy)) (fuel : Nat) (s : TyR.TState) (tid : Nat)
       (mems : List Nat),
      TyR.descR tbl tid = some (.structT mems) →
      TyR.lookupT s tid = none →
      ∃ s1, TyR.lookupT s1 tid = some (.namedL s.nextSid) ∧
        TyR.transTypeR tbl (fuel + 1) s tid =
          match TyR.goTypes (TyR.transTypeR tbl fuel) s1 mems with
          | none => none
          | some (ts, s2) =>
            some (.namedL s.nextSid,
              { s2 with bodies := TyR.setBodyT s2.bodies s.nextSid ts })) ∧
    (∀ (tbl : List (Nat × TyW.LDesc)) (fuel : Nat) (s : TyW.WTState) (lid : Nat)
       (mems : List Nat),
      TyW.descW tbl lid = some (.structD mems) →
      TyW.lookupTW s lid = none →
      ∃ s1, TyW.lookupTW s1 lid = some s.nextId ∧
        TyW.transTypeW tbl (fuel + 1) s lid =
          match mems.enum.foldl
              (TyW.memberPass1 tbl (TyW.transTypeW tbl fuel) lid s.nextId)
              (some ([], s1)) with
          | none => none
          | some (defs, s2) =>
            match defs.foldl
                (TyW.memberPass2 mems (TyW.transTypeW tbl fuel) s.nextId)
                (some s2) with
            | none => none
            | some s3 => some (s.nextId, s3)) ∧
    (∃ t s, TyR.transTypeR [(0, .structT [1]), (1, .ptrT 0)] 3 TyR.initT 0 =
        some (t, s) ∧ t = .namedL 0 ∧
      TyR.bodyOf s 0 = some (some [.ptrL (.namedL 0)])) ∧
    (∃ t s, TyR.transTypeR [(0, .structT [1]), (1, .arrT 2 4), (2, .ptrT 0)] 4
        TyR.initT 0 = some (t, s) ∧ t = .namedL 0 ∧
      TyR.bodyOf s 0 = some (some [.arrL (.ptrL (.namedL 0)) 4])) ∧
    (∃ t s, TyR.transTypeR [(0, .structT [1]), (1, .structT [2]), (2, .ptrT 0)] 4
        TyR.initT 0 = some (t, s) ∧ t = .namedL 0 ∧
      TyR.bodyOf s 0 = some (some [.namedL 1]) ∧
      TyR.bodyOf s 1 = some (some [.ptrL (.namedL 0)])) ∧
    (∃ s, TyW.transTypeW [(0, .structD [1]), (1, .ptrD 0)] 3 TyW.initW 0 =
        some (0, s) ∧ TyW.entryOfW s 0 = some (.structW [some 1]) ∧
      TyW.entryOfW s 1 = some (.ptrW 0)) :=
  ⟨TyR.transTypeR_struct_registers, TyW.transTypeW_struct_registers,
    by refine ⟨_, _, rfl, rfl, by decide⟩,
    by refine ⟨_, _, rfl, rfl, by decide⟩,
    by refine ⟨_, _, rfl, rfl, by decide, by decide⟩,
    by refine ⟨_, rfl, by decide, by decide⟩⟩

/-- C5 witness: the registration theorems applied to a concrete
one-member self-referential struct on each side. -/
theorem c5_struct_registered_before_members_witness :
    (∃ s1, TyR.lookupT s1 0 = some (TyR.LTy.namedL 0)) ∧
    (∃ s1, TyW.lookupTW s1 0 = some 0) := by
  obtain ⟨A, B, _⟩ := c5_struct_registered_before_members
  refine ⟨?_, ?_⟩
  · obtain ⟨s1, h1, _⟩ := A [(0, .structT [1]), (1, .ptrT 0)] 2 TyR.initT 0 [1]
      (by decide) (by decide)
    exact ⟨s1, h1⟩
  · obtain ⟨s1, h1, _⟩ := B [(0, .structD [1]), (1, .ptrD 0)] 2 TyW.initW 0 [1]
      (by decide) (by decide)
    exact ⟨s1, h1⟩

namespace FP

/-- With nodup ids, a member function is found by id. -/
theorem find?_funcw_of_mem_nodup (M : List FuncW) (f : FuncW)
    (hnd : (M.map (fun g => g.id)).Nodup) (hmem : f ∈ M) :
    M.find? (fun g => g.id = f.id) = some f := by
  induction M with
  | nil => cases hmem
  | cons j t ih =>
    rcases List.mem_cons.mp hmem with rfl | hmem2
    · simp [List.find?]
    · have hne : j.id ≠ f.id := by
        intro he
        rw [List.map_cons, List.nodup_cons] at hnd
        exact hnd.1 (he ▸ List.mem_map.mpr ⟨f, hmem2, rfl⟩)
      rw [List.find?_cons_of_neg _ (by simpa using hne)]
      exact ih (List.map_cons _ _ _ ▸ hnd).of_cons hmem2

/-- Pointwise description of the map after a join. -/
theorem getFPC_joinFPC (m : List (Nat × FPContract)) (f : Nat) (c : FPContract)
    (x : Nat) :
    getFPC (joinFPC m f c).1 x =
      if x = f then joinVal (getFPC m f) c else getFPC m x := by
  unfold joinFPC
  dsimp only
  by_cases h : joinVal (getFPC m f) c = getFPC m f
  · rw [if_pos h]
    by_cases hx : x = f
    · rw [if_pos hx, hx, h]
    · rw [if_neg hx]
  · rw [if_neg h]
    show getFPC ((f, joinVal (getFPC m f) c) :: m) x = _
    unfold getFPC
    rw [Reader.find?_key_cons]
    by_cases hx : f = x
    · rw [if_pos hx, if_pos hx.symm]
      rfl
    · rw [if_neg hx, if_neg (fun he => hx he.symm)]

/-- Joining `DISABLED` always results in `DISABLED`. -/
theorem joinVal_disabled_right (old : FPContract) :
    joinVal old .DISABLED = .DISABLED := by
  cases old <;> decide

/-- `DISABLED` is absorbing on the left. -/
theorem joinVal_disabled_left (c : FPContract) :
    joinVal .DISABLED c = .DISABLED := rfl

/-- A join can only produce `DISABLED` from `DISABLED` on one side. -/
theorem joinVal_disabled_inv (old c : FPContract)
    (h : joinVal old c = .DISABLED) :
    old = .DISABLED ∨ c = .DISABLED := by
  cases old <;> cases c <;> revert h <;> decide

/-- Once a function is contraction-disabled, a join keeps it disabled. -/
theorem getFPC_join_disabled_stable (m : List (Nat × FPContract))
    (f : Nat) (c : FPContract) (x : Nat) (h : getFPC m x = .DISABLED) :
    getFPC (joinFPC m f c).1 x = .DISABLED := by
  rw [getFPC_joinFPC]
  by_cases hx : x = f
  · rw [if_pos hx]
    rw [hx] at h
    rw [h]
    exact joinVal_disabled_left c
  · rw [if_neg hx]
    exact h

/-- A join newly disables only the joined function. -/
theorem join_new_disabled (m : List (Nat × FPContract)) (f : Nat)
    (c : FPContract) (x : Nat)
    (h : getFPC (joinFPC m f c).1 x = .DISABLED) :
    getFPC m x = .DISABLED ∨ x = f := by
  rw [getFPC_joinFPC] at h
  by_cases hx : x = f
  · exact Or.inr hx
  · rw [if_neg hx] at h
    exact Or.inl h

/-- A calling function appears among the users of its callee. -/
theorem mem_usersOf : ∀ (M : List FuncW), ∀ g ∈ M, ∀ u ∈ g.callees,
    g.id ∈ usersOf M u := by
  intro M
  induction M with
  | nil => intro g hg; cases hg
  | cons f t ih =>
    intro g hg u hc
    show g.id ∈ (f.callees.filter (fun c => c = u)).map (fun _ => f.id) ++
      usersOf t u
    rw [List.mem_append]
    rcases List.mem_cons.mp hg with rfl | hg2
    · left
      exact List.mem_map.mpr ⟨u, List.mem_filter.mpr ⟨hc, by simp⟩, rfl⟩
    · right
      exact ih g hg2 u hc

/-- The BFS keeps disabled functions disabled. -/
theorem bfs_disabled_stable (M : List FuncW) (fpc : FPContract) :
    ∀ (fuel : Nat) (m : List (Nat × FPContract)) (q : List Nat)
      (m' : List (Nat × FPContract)), bfs M fpc fuel m q = some m' →
      ∀ x, getFPC m x = .DISABLED → getFPC m' x = .DISABLED := by
  intro fuel
  induction fuel with
  | zero => intro m q m' h; cases h
  | succ fuel ih =>
    intro m q m' h x hx
    cases q with
    | nil =>
      cases h
      exact hx
    | cons u rest =>
      unfold bfs at h
      cases hj : joinFPC m u fpc with
      | mk m1 changed =>
        rw [hj] at h
        cases changed with
        | true =>
          dsimp only at h
          refine ih m1 _ m' h x ?_
          have h2 := getFPC_join_disabled_stable m u fpc x hx
          rw [hj] at h2
          exact h2
        | false =>
          dsimp only at h
          exact ih m rest m' h x hx

/-- A BFS with a non-`DISABLED` status disables nobody. -/
theorem bfs_disabled_reflect (M : List FuncW) (fpc : FPContract)
    (hfpc : ¬ fpc = .DISABLED) :
    ∀ (fuel : Nat) (m : List (Nat × FPContract)) (q : List Nat)
      (m' : List (Nat × FPContract)), bfs M fpc fuel m q = some m' →
      ∀ x, getFPC m' x = .DISABLED → getFPC m x = .DISABLED := by
  intro fuel
  induction fuel with
  | zero => intro m q m' h; cases h
  | succ fuel ih =>
    intro m q m' h x hx
    cases q with
    | nil =>
      cases h
      exact hx
    | cons u rest =>
      unfold bfs at h
      cases hj : joinFPC m u fpc with
      | mk m1 changed =>
        rw [hj] at h
        cases changed with
        | true =>
          dsimp only at h
          have h2 := ih m1 _ m' h x hx
          have h3 := getFPC_joinFPC m u fpc x
          rw [hj] at h3
          rw [h3] at h2
          by_cases hxu : x = u
          · rw [if_pos hxu] at h2
            rcases joinVal_disabled_inv _ _ h2 with h4 | h4
            · rw [hxu]
              exact h4
            · exact absurd h4 hfpc
          · rw [if_neg hxu] at h2
            exact h2
        | false =>
          dsimp only at h
          exact ih m rest m' h x hx

end FP

namespace FP

/-- The `DISABLED` BFS discharges its invariant: at completion every
caller of a disabled id is disabled. -/
theorem bfs_dclosed (M : List FuncW) :
    ∀ (fuel : Nat) (m : List (Nat × FPContract)) (q : List Nat)
      (m' : List (Nat × FPContract)), bfs M .DISABLED fuel m q = some m' →
      bfsInv M m q → dClosed M m' := by
  intro fuel
  induction fuel with
  | zero => intro m q m' h; cases h
  | succ fuel ih =>
    intro m q m' h hinv
    cases q with
    | nil =>
      cases h
      intro g hg x hx hdis
      rcases hinv g hg x hx hdis with h2 | h2
      · exact h2
      · cases h2
    | cons u rest =>
      unfold bfs at h
      cases hj : joinFPC m u .DISABLED with
      | mk m1 changed =>
        rw [hj] at h
        cases changed with
        | true =>
          dsimp only at h
          refine ih m1 _ m' h ?_
          have hm1 : ∀ y, getFPC m1 y =
              if y = u then .DISABLED else getFPC m y := by
            intro y
            have h2 := getFPC_joinFPC m u .DISABLED y
            rw [hj, joinVal_disabled_right] at h2
            exact h2
          intro g hg x hx hdis
          by_cases hxu : x = u
          · right
            rw [List.mem_append]
            right
            exact mem_usersOf M g hg u (hxu ▸ hx)
          · rw [hm1, if_neg hxu] at hdis
            by_cases hgu : g.id = u
            · left
              rw [hm1, if_pos hgu]
            · rcases hinv g hg x hx hdis with h2 | h2
              · left
                rw [hm1, if_neg hgu]
                exact h2
              · rcases List.mem_cons.mp h2 with he | h2'
                · exact absurd he hgu
                · right
                  rw [List.mem_append]
                  exact Or.inl h2'
        | false =>
          dsimp only at h
          have hud : getFPC m u = .DISABLED := by
            unfold joinFPC at hj
            dsimp only at hj
            by_cases hc : joinVal (getFPC m u) .DISABLED = getFPC m u
            · rw [joinVal_disabled_right] at hc
              exact hc.symm
            · rw [if_neg hc] at hj
              cases hj
          refine ih m rest m' h ?_
          intro g hg x hx hdis
          rcases hinv g hg x hx hdis with h2 | h2
          · exact Or.inl h2
          · rcases List.mem_cons.mp h2 with he | h2'
            · left
              rw [he]
              exact hud
            · exact Or.inr h2'

/-- A call-translation step keeps disabled functions disabled. -/
theorem callStep_disabled_stable (M : List FuncW) (m : List (Nat × FPContract))
    (fid c x : Nat) (h : getFPC m x = .DISABLED) :
    getFPC (callStep M m fid c) x = .DISABLED := by
  unfold callStep
  cases M.find? (fun g => g.id = c) with
  | none => exact h
  | some g =>
    dsimp only
    by_cases hd : g.isDecl = true
    · rw [if_pos hd]
      exact getFPC_join_disabled_stable m fid _ x h
    · rw [if_neg hd]
      exact getFPC_join_disabled_stable m fid _ x h

/-- A call-translation step newly disables only the calling function. -/
theorem callStep_new_disabled (M : List FuncW) (m : List (Nat × FPContract))
    (fid c x : Nat) (h : getFPC (callStep M m fid c) x = .DISABLED) :
    getFPC m x = .DISABLED ∨ x = fid := by
  unfold callStep at h
  cases hf : M.find? (fun g => g.id = c) with
  | none =>
    rw [hf] at h
    exact Or.inl h
  | some g =>
    rw [hf] at h
    dsimp only at h
    by_cases hd : g.isDecl = true
    · rw [if_pos hd] at h
      exact join_new_disabled m fid _ x h
    · rw [if_neg hd] at h
      exact join_new_disabled m fid _ x h

/-- The body fold keeps disabled functions disabled. -/
theorem callees_fold_disabled_stable (M : List FuncW) (fid : Nat) :
    ∀ (cs : List Nat) (m : List (Nat × FPContract)) (x : Nat),
      getFPC m x = .DISABLED →
      getFPC (cs.foldl (fun m c => callStep M m fid c) m) x = .DISABLED := by
  intro cs
  induction cs with
  | nil => intro m x h; exact h
  | cons c rest ih =>
    intro m x h
    rw [List.foldl_cons]
    exact ih _ x (callStep_disabled_stable M m fid c x h)

/-- The body fold newly disables only the function being translated. -/
theorem callees_fold_new_disabled (M : List FuncW) (fid : Nat) :
    ∀ (cs : List Nat) (m : List (Nat × FPContract)) (x : Nat),
      getFPC (cs.foldl (fun m c => callStep M m fid c) m) x = .DISABLED →
      getFPC m x = .DISABLED ∨ x = fid := by
  intro cs
  induction cs with
  | nil => intro m x h; exact Or.inl h
  | cons c rest ih =>
    intro m x h
    rw [List.foldl_cons] at h
    rcases ih _ x h with h2 | h2
    · exact callStep_new_disabled M m fid c x h2
    · exact Or.inr h2

/-- `transFunction` keeps disabled functions disabled. -/
theorem transFunctionFPC_disabled_stable (M : List FuncW) (fuel : Nat)
    (m : List (Nat × FPContract)) (f : FuncW) (m' : List (Nat × FPContract))
    (h : transFunctionFPC M fuel m f = some m') (x : Nat)
    (hx : getFPC m x = .DISABLED) : getFPC m' x = .DISABLED := by
  unfold transFunctionFPC at h
  dsimp only at h
  exact bfs_disabled_stable M _ fuel _ _ m' h x
    (getFPC_join_disabled_stable _ f.id _ x
      (callees_fold_disabled_stable M f.id f.callees m x hx))

end FP

namespace FP

/-- `transFunction` preserves the caller-closure of contraction
disabling: the body joins can disable only the translated function, and
the propagation BFS disables all its callers in turn. -/
theorem transFunctionFPC_dclosed (M : List FuncW) (fuel : Nat)
    (m : List (Nat × FPContract)) (f : FuncW) (m' : List (Nat × FPContract))
    (h : transFunctionFPC M fuel m f = some m') (hdc : dClosed M m) :
    dClosed M m' := by
  unfold transFunctionFPC at h
  dsimp only at h
  set m2 : List (Nat × FPContract) :=
    (joinFPC (f.callees.foldl (fun m c => callStep M m f.id c) m) f.id
      .ENABLED).1 with hm2
  have hstab : ∀ x, getFPC m x = .DISABLED → getFPC m2 x = .DISABLED := by
    intro x hx
    rw [hm2]
    exact getFPC_join_disabled_stable _ f.id _ x
      (callees_fold_disabled_stable M f.id f.callees m x hx)
  have hnew : ∀ x, getFPC m2 x = .DISABLED →
      getFPC m x = .DISABLED ∨ x = f.id := by
    intro x hx
    rw [hm2] at hx
    rcases join_new_disabled _ f.id _ x hx with h2 | h2
    · exact callees_fold_new_disabled M f.id f.callees m x h2
    · exact Or.inr h2
  by_cases hfd : getFPC m2 f.id = .DISABLED
  · rw [hfd] at h
    refine bfs_dclosed M fuel m2 _ m' h ?_
    intro g hg x hx hdis
    rcases hnew x hdis with h2 | h2
    · left
      exact hstab g.id (hdc g hg x hx h2)
    · right
      rw [h2] at hx
      exact mem_usersOf M g hg f.id hx
  · intro g hg x hx hdis
    have hx2 : getFPC m2 x = .DISABLED := by
      cases hfpc : getFPC m2 f.id with
      | DISABLED => exact absurd hfpc hfd
      | UNDEF =>
        rw [hfpc] at h
        exact bfs_disabled_reflect M _ (by decide) fuel m2 _ m' h x hdis
      | ENABLED =>
        rw [hfpc] at h
        exact bfs_disabled_reflect M _ (by decide) fuel m2 _ m' h x hdis
    rcases hnew x hx2 with h2 | h2
    · have hgm : getFPC m g.id = .DISABLED := hdc g hg x hx h2
      exact bfs_disabled_stable M _ fuel m2 _ m' h g.id (hstab g.id hgm)
    · rw [h2] at hx2
      exact absurd hx2 hfd

/-- After translating a function that directly calls a declaration, that
function is contraction-disabled. -/
theorem transFunctionFPC_self_disabled (M : List FuncW) (fuel : Nat)
    (m : List (Nat × FPContract)) (A B : FuncW) (m' : List (Nat × FPContract))
    (hnd : (M.map (fun g => g.id)).Nodup)
    (hB : B ∈ M) (hBdecl : B.isDecl = true) (hAB : B.id ∈ A.callees)
    (h : transFunctionFPC M fuel m A = some m') :
    getFPC m' A.id = .DISABLED := by
  unfold transFunctionFPC at h
  dsimp only at h
  have hbody : getFPC (A.callees.foldl (fun m c => callStep M m A.id c) m)
      A.id = .DISABLED := by
    obtain ⟨l1, l2, hsplit⟩ := List.append_of_mem hAB
    rw [hsplit, List.foldl_append, List.foldl_cons]
    have hstepB : getFPC (callStep M
        (l1.foldl (fun m c => callStep M m A.id c) m) A.id B.id)
        A.id = .DISABLED := by
      unfold callStep
      rw [find?_funcw_of_mem_nodup M B hnd hB]
      dsimp only
      rw [if_pos hBdecl, getFPC_joinFPC, if_pos rfl]
      exact joinVal_disabled_right _
    exact callees_fold_disabled_stable M A.id l2 _ A.id hstepB
  exact bfs_disabled_stable M _ fuel _ _ m' h A.id
    (getFPC_join_disabled_stable _ A.id _ A.id hbody)

/-- A property preserved by every step of an `Option` fold holds of its
result. -/
theorem foldlM_option_inv {α β : Type} (f : β → α → Option β) (P : β → Prop)
    (hstep : ∀ (b : β) (a : α) (b' : β), P b → f b a = some b' → P b') :
    ∀ (l : List α) (b out : β), l.foldlM f b = some out → P b → P out := by
  intro l
  induction l with
  | nil =>
    intro b out h hb
    cases h
    exact hb
  | cons a t ih =>
    intro b out h hb
    rw [List.foldlM_cons] at h
    cases hf : f b a with
    | none =>
      rw [hf] at h
      cases h
    | some b1 =>
      rw [hf] at h
      exact ih b1 out h (hstep b a b1 hb hf)

/-- An `Option` fold that succeeds can be split at any member. -/
theorem foldlM_option_split {α β : Type} (f : β → α → Option β) :
    ∀ (l1 : List α) (x : α) (l2 : List α) (b out : β),
      (l1 ++ x :: l2).foldlM f b = some out →
      ∃ b1 b2, l1.foldlM f b = some b1 ∧ f b1 x = some b2 ∧
        l2.foldlM f b2 = some out := by
  intro l1
  induction l1 with
  | nil =>
    intro x l2 b out h
    rw [List.nil_append, List.foldlM_cons] at h
    cases hf : f b x with
    | none =>
      rw [hf] at h
      cases h
    | some b2 =>
      rw [hf] at h
      exact ⟨b, b2, rfl, hf, h⟩
  | cons a t ih =>
    intro x l2 b out h
    rw [List.cons_append, List.foldlM_cons] at h
    cases hf : f b a with
    | none =>
      rw [hf] at h
      cases h
    | some b1 =>
      rw [hf] at h
      obtain ⟨c1, c2, h1, h2, h3⟩ := ih x l2 b1 out h
      refine ⟨c1, c2, ?_, h2, h3⟩
      rw [List.foldlM_cons, hf]
      exact h1

end FP

/-- C6: during encoding, fp-contraction status propagates transitively up
the call graph: if a defined function `A` directly calls a
declaration-only function `B`, then after the module's definition loop
`A` is contraction-disabled and so is every function that transitively
calls `A`. -/
theorem c6_fp_contract_transitive (M : List FP.FuncW) (fuel : Nat)
    (A B : FP.FuncW) (mFinal : List (Nat × FP.FPContract))
    (hnd : (M.map (fun f => f.id)).Nodup)
    (hA : A ∈ M) (hAdef : A.isDecl = false)
    (hB : B ∈ M) (hBdecl : B.isDecl = true) (hAB : B.id ∈ A.callees)
    (hrun : FP.transModuleFPC fuel M = some mFinal) :
    FP.getFPC mFinal A.id = .DISABLED ∧
    (∀ c, Relation.ReflTransGen (FP.callerRel M) A.id c →
      FP.getFPC mFinal c = .DISABLED) := by
  have hrun0 := hrun
  unfold FP.transModuleFPC at hrun hrun0
  have hAfilter : A ∈ M.filter (fun f => !f.isDecl) :=
    List.mem_filter.mpr ⟨hA, by rw [hAdef]; rfl⟩
  obtain ⟨l1, l2, hsplit⟩ := List.append_of_mem hAfilter
  rw [hsplit] at hrun
  obtain ⟨m1, m2, h1, h2, h3⟩ :=
    FP.foldlM_option_split _ l1 A l2 [] mFinal hrun
  have hA2 : FP.getFPC m2 A.id = .DISABLED :=
    FP.transFunctionFPC_self_disabled M fuel m1 A B m2 hnd hB hBdecl hAB h2
  have hAfin : FP.getFPC mFinal A.id = .DISABLED :=
    FP.foldlM_option_inv _ (fun m => FP.getFPC m A.id = .DISABLED)
      (fun b a b' hb hf =>
        FP.transFunctionFPC_disabled_stable M fuel b a b' hf A.id hb)
      l2 m2 mFinal h3 hA2
  have hdc : FP.dClosed M mFinal := by
    refine FP.foldlM_option_inv _ (FP.dClosed M)
      (fun b a b' hb hf => FP.transFunctionFPC_dclosed M fuel b a b' hf hb)
      (M.filter (fun f => !f.isDecl)) [] mFinal hrun0 ?_
    intro g hg x hx hdis
    cases hdis
  refine ⟨hAfin, ?_⟩
  intro c hchain
  induction hchain with
  | refl => exact hAfin
  | tail hmid hlast ih =>
    obtain ⟨g, hgM, rfl, hbcall⟩ := hlast
    exact hdc g hgM _ hbcall ih

/-- C6 witness: `A` (id 1) calls the external declaration `B` (id 0), `C`
(id 2) calls `A`; after translating the module both end up
contraction-disabled. -/
theorem c6_fp_contract_transitive_witness :
    FP.getFPC [(2, FP.FPContract.DISABLED), (1, FP.FPContract.DISABLED)] 1 =
      .DISABLED ∧
    FP.getFPC [(2, FP.FPContract.DISABLED), (1, FP.FPContract.DISABLED)] 2 =
      .DISABLED := by
  have H := c6_fp_contract_transitive
    [⟨0, true, []⟩, ⟨1, false, [0]⟩, ⟨2, false, [1]⟩] 10
    ⟨1, false, [0]⟩ ⟨0, true, []⟩
    [(2, .DISABLED), (1, .DISABLED)]
    (by decide) (by decide) rfl (by decide) rfl (by decide) (by decide)
  exact ⟨H.1, H.2 2 (Relation.ReflTransGen.single
    ⟨⟨2, false, [1]⟩, by decide, rfl, by decide⟩)⟩
